import Mathlib

/-!
# classy: class synthesis by prototype copying

A shallow embedding of `src/src/classy.js` (`make_name`, `define`, `fork`,
`override`, `concat_array`, `define_or_fork`, `space` and the operations of a
namespace) and theorems about it.

Modelling conventions

* A JavaScript function object is a reference (`Ref`).  The mutable parts the
  program touches live in a `Heap`: the `prototype` object of the function, the
  body of the function when the program itself created it (`function(){}` or
  the delegating constructor of `fork`), and the `name` property the host gave
  it.  A function object has no other property of its own than the host's.
* An object (a definition literal, a prototype) is an association list from
  property names to values, in enumeration order; a list is meant to have no
  key twice.  A definition is an object literal handed over by value: all its
  properties are enumerable data properties of its own, and it inherits from
  the host's `Object.prototype`, which is as the host made it.
* A prototype object is the object the host made with the function: it has the
  member `constructor`, which is its own but not enumerable and holds the
  function until it is assigned, and it inherits from `Object.prototype` until
  the key `__proto__` is assigned, which runs the host's setter and adds no
  member.  What a prototype object inherits after that is not modelled: reading
  a key it has no member for is then `Err.unmodelled`.
* A function without a `prototype` property (made by `bind`, an arrow function,
  a built-in method) has no prototype object: `Heap.obj` is `none`.
* A parents array is a list whose entries are a class or null/undefined
  (`none`).
* A call that throws is `Except.error`.
* Strings are sequences of Unicode characters.  The host's
  `String.prototype.toUpperCase`, applied to the one-unit string `charAt(0)`,
  is a parameter `toUpperCase : Char → String`.
-/

namespace Classy

/-! ## Values, objects, heap -/

/-- Reference to a function object. -/
abbrev Ref := Nat

/-- JavaScript values that can occur as members of definitions and prototypes.
`metaRec name parents` is the record stored under `_meta` by `define`
(`parents = none`, the field is missing) and `fork`.  `host k` is the function
that the host's `Object.prototype` holds at the key `k` (for `constructor`, the
function `Object`), `objectPrototype` the object `Object.prototype` itself. -/
inductive Val where
  | undefined
  | null
  | bool (b : Bool)
  | num (n : Int)
  | str (s : String)
  | fn (f : Ref)
  | metaRec (name : String) (parents : Option (List (Option Ref)))
  | host (k : String)
  | objectPrototype
  deriving DecidableEq, Repr

instance : Inhabited Val := ⟨Val.undefined⟩

/-- The test `typeof v == "function"`. -/
def Val.isFunction : Val → Bool
  | Val.fn _ => true
  | Val.host _ => true
  | _ => false

/-- JavaScript truthiness, as used by `if(v)` and `!v`. -/
def Val.truthy : Val → Bool
  | Val.undefined => false
  | Val.null => false
  | Val.bool b => b
  | Val.num n => decide (n ≠ 0)
  | Val.str s => decide (s ≠ "")
  | Val.fn _ => true
  | Val.metaRec _ _ => true
  | Val.host _ => true
  | Val.objectPrototype => true

/-- Objects: properties in enumeration order. -/
abbrev Obj := List (String × Val)

/-- Own property lookup. -/
def Obj.find? : Obj → String → Option Val
  | [], _ => none
  | (k', v) :: rest, k => if k' = k then some v else Obj.find? rest k

/-- The expression `k in o` restricted to own properties. -/
def Obj.has (o : Obj) (k : String) : Bool := (Obj.find? o k).isSome

/-- The member of `o` at `k`, or `undefined` when `o` has no member at `k`. -/
def Obj.read (o : Obj) (k : String) : Val := (Obj.find? o k).getD Val.undefined

/-- The assignment `o[k] = v` to a data property: overwrite in place, or append
a new property. -/
def Obj.write : Obj → String → Val → Obj
  | [], k, v => [(k, v)]
  | (k', v') :: rest, k, v =>
    if k' = k then (k, v) :: rest else (k', v') :: Obj.write rest k v

/-- The statement `delete o[k]`. -/
def Obj.remove : Obj → String → Obj
  | [], _ => []
  | (k', v) :: rest, k => if k' = k then Obj.remove rest k else (k', v) :: Obj.remove rest k

/-- The keys visited by `for(k in o)` for an object literal `o`. -/
def Obj.keys (o : Obj) : List String := o.map Prod.fst

/-- The keys at which the host's `Object.prototype` holds a function. -/
def objectPrototypeFunctions : List String :=
  ["constructor", "toString", "toLocaleString", "valueOf", "hasOwnProperty",
    "isPrototypeOf", "propertyIsEnumerable", "__defineGetter__", "__defineSetter__",
    "__lookupGetter__", "__lookupSetter__"]

/-- What an object that inherits from `Object.prototype` yields at a key it has
no property of its own for. -/
def inherited (k : String) : Val :=
  if k ∈ objectPrototypeFunctions then Val.host k
  else if k = "__proto__" then Val.objectPrototype
  else Val.undefined

/-- The expression `o[k]` for an object literal `o`. -/
def Obj.get (o : Obj) (k : String) : Val := (Obj.find? o k).getD (inherited k)

/-- The keys visited by `for(k in o)` for a prototype object `o`: the member
`constructor` is not enumerable. -/
def Obj.enumerable (o : Obj) : List String :=
  (Obj.keys o).filter (fun k => k != "constructor")

/-- Bodies of function objects.  `user` is any function the program did not
write itself: a function of the caller, or one made by `bind`; the other two
are the function expressions of `classy.js`. -/
inductive Body where
  | user
  | noop
  | delegate (parent0 : Option Ref)
  deriving DecidableEq, Repr

/-- The function objects.  `obj f` is the prototype object of `f`: the members
it has of its own, `constructor` among them once it has been assigned; `none`
for a function without a `prototype` property.  `link f` is what the prototype
object inherits from after its key `__proto__` was assigned; `none` is the
host's `Object.prototype`.  `name f` is the `name` property the host gave, or
will give, to `f`.  `next` is the next unused reference. -/
structure Heap where
  obj : Ref → Option Obj
  link : Ref → Option Val
  body : Ref → Body
  name : Ref → String
  next : Ref

/-- The members the prototype object of `f` has of its own; none for a function
without a prototype object. -/
def Heap.proto (h : Heap) (f : Ref) : Obj := (h.obj f).getD []

/-- Evaluate a function expression: a new function object, whose prototype
object has no member yet besides `constructor`. -/
def Heap.alloc (h : Heap) (b : Body) : Ref × Heap :=
  (h.next,
    { h with
      obj := Function.update h.obj h.next (some []),
      link := Function.update h.link h.next none,
      body := Function.update h.body h.next b,
      next := h.next + 1 })

/-- The call `f.bind(...)`: a new function object, without a `prototype`
property, named after `f`. -/
def Heap.allocBound (h : Heap) (f : Ref) : Ref × Heap :=
  (h.next,
    { h with
      obj := Function.update h.obj h.next none,
      link := Function.update h.link h.next none,
      body := Function.update h.body h.next Body.user,
      name := Function.update h.name h.next ("bound " ++ h.name f),
      next := h.next + 1 })

/-- Replace the members of the prototype object of `f`. -/
def Heap.setObj (h : Heap) (f : Ref) (o : Obj) : Heap :=
  { h with obj := Function.update h.obj f (some o) }

/-- The host's setter of `__proto__` applied to the prototype object of `f`: an
object or null becomes what the prototype object inherits from, any other value
is ignored. -/
def Heap.setLink (h : Heap) (f : Ref) (v : Val) : Heap :=
  match v with
  | Val.objectPrototype => { h with link := Function.update h.link f none }
  | Val.undefined => h
  | Val.bool _ => h
  | Val.num _ => h
  | Val.str _ => h
  | _ => { h with link := Function.update h.link f (some v) }

/-- Ways a call can fail to return.  `unmodelled`: the call leaves the part of
the program that is modelled. -/
inductive Err where
  | typeError
  | unmodelled
  deriving DecidableEq, Repr

/-- The expression `f.prototype[k]`.  Reading a property off `undefined`
throws.  A key the prototype object has no member for is looked up in what it
inherits from: the host's `Object.prototype`, nothing after `__proto__` was set
to null, and otherwise an object whose properties are not modelled. -/
def Heap.get (h : Heap) (f : Ref) (k : String) : Except Err Val :=
  match h.obj f with
  | none => Except.error Err.typeError
  | some o =>
    match Obj.find? o k with
    | some v => Except.ok v
    | none =>
      if k = "constructor" then Except.ok (Val.fn f)
      else
        match h.link f with
        | none => Except.ok (inherited k)
        | some Val.null => Except.ok Val.undefined
        | some v => if k = "__proto__" then Except.ok v else Except.error Err.unmodelled

/-- The keys at which a function object has a property of its own that cannot
be assigned: an assignment to such a key on an object that inherits from a
function has no effect or a host-defined one. -/
def functionProps : List String := ["length", "name", "arguments", "caller"]

/-- The assignment `f.prototype[k] = v`.  A member, `constructor` included, is
overwritten.  A new key becomes a member, except that the key `__proto__`
reaches the host's setter as long as the prototype object inherits from
something. -/
def Heap.setProp (h : Heap) (f : Ref) (k : String) (v : Val) : Except Err Heap :=
  match h.obj f with
  | none => Except.error Err.typeError
  | some o =>
    if Obj.has o k = true ∨ k = "constructor" ∨ h.link f = some Val.null then
      Except.ok (h.setObj f (Obj.write o k v))
    else if k = "__proto__" then Except.ok (h.setLink f v)
    else if h.link f ≠ none ∧ k ∈ functionProps then Except.error Err.unmodelled
    else Except.ok (h.setObj f (Obj.write o k v))

/-! ## make_name -/

/-- The white space class of a regular expression. -/
def isWhiteSpace (c : Char) : Bool :=
  let n := c.toNat
  (9 ≤ n && n ≤ 13) || n == 32 || n == 160 || n == 5760 || (8192 ≤ n && n ≤ 8202)
    || n == 8232 || n == 8233 || n == 8239 || n == 8287 || n == 12288 || n == 65279

/-- The character class `[-\s]`. -/
def isSeparator (c : Char) : Bool := c == '-' || isWhiteSpace c

/-- The call `name.split(/[-\s]/)`: cut at every single separator character. -/
def splitSeparators : List Char → List (List Char)
  | [] => [[]]
  | c :: cs =>
    if isSeparator c then [] :: splitSeparators cs
    else
      match splitSeparators cs with
      | [] => [[c]]
      | t :: ts => (c :: t) :: ts

/-- The expression `names[i].charAt(0).toUpperCase() + names[i].slice(1)`. -/
def capitalize (toUpperCase : Char → String) : List Char → List Char
  | [] => []
  | c :: cs => (toUpperCase c).data ++ cs

/-- The loop of `make_name` followed by `names.join("")`: every token but the
first is capitalised. -/
def joinNames (toUpperCase : Char → String) (names : List (List Char)) : List Char :=
  ((List.enum names).map
    (fun p => if p.1 > 0 then capitalize toUpperCase p.2 else p.2)).flatten

/-- The function `classy.make_name`. -/
def make_name (toUpperCase : Char → String) (name : String) : String :=
  String.mk (joinNames toUpperCase (splitSeparators name.data))

/-! ## define, fork, override, define_or_fork -/

/-- The expression `v.name` in a position where it is turned into a string (a
property key, or the left operand of `+ "_"`).  Reading `name` off `undefined`
or `null` throws; a function has the name the host gave it; a boolean, number
or string, and `Object.prototype`, have no such property and yield
`undefined`. -/
def Val.nameOf (h : Heap) : Val → Except Err String
  | Val.undefined => Except.error Err.typeError
  | Val.null => Except.error Err.typeError
  | Val.metaRec n _ => Except.ok n
  | Val.fn f => Except.ok (h.name f)
  | Val.host k => Except.ok (if k = "constructor" then "Object" else k)
  | _ => Except.ok "undefined"

/-- The expression `f.prototype._meta.name`, turned into a string. -/
def metaName (h : Heap) (f : Ref) : Except Err String := do
  let m ← h.get f "_meta"
  m.nameOf h

/-- The third argument of `fork`: missing, one class, or an array. -/
inductive Parents where
  | absent
  | cls (f : Ref)
  | list (ps : List (Option Ref))
  deriving DecidableEq, Repr

/-- The loop `for(k in definition) ctor.prototype[k] = definition[k]` of
`define`. -/
def copyDefinition (definition : Obj) (ctor : Ref) (h : Heap) : Except Err Heap :=
  (Obj.keys definition).foldlM
    (fun h k => h.setProp ctor k (Obj.read definition k)) h

/-- The function `classy.define`: the class (its constructor) and the heap
after the call.  The constructor is looked up with `definition[name]`, which
also finds what the definition inherits: with a built-in method as constructor
the first assignment to `ctor.prototype[...]` throws, and with the function
`Object` the call would change the host's `Object.prototype`. -/
def define (toUpperCase : Char → String) (h : Heap) (name : String)
    (definition : Obj) : Except Err (Ref × Heap) :=
  let name := make_name toUpperCase name
  match Obj.get definition name with
  | Val.fn f => do
    -- a constructor has been provided
    let definition := Obj.remove definition name
    let h ← copyDefinition definition f h
    let h ← h.setProp f "_meta" (Val.metaRec name none)
    pure (f, h)
  | Val.host k =>
    if k = "constructor" then Except.error Err.unmodelled
    else Except.error Err.typeError
  | _ => do
    -- no constructor provided, substitute empty constructor
    let (ctor, h) := h.alloc Body.noop
    let h ← copyDefinition definition ctor h
    let h ← h.setProp ctor "_meta" (Val.metaRec name none)
    pure (ctor, h)

/-- The loop `for(k in parent.prototype) ctor.prototype[k] = parent.prototype[k]`
of `fork`.  A parent without a prototype object has nothing to visit.  What is
visited in an object that inherits from another than `Object.prototype` is not
modelled. -/
def copyParent (ctor parent : Ref) (h : Heap) : Except Err Heap :=
  match h.obj parent with
  | none => pure h
  | some o =>
    if h.link parent = none ∨ h.link parent = some Val.null then
      (Obj.enumerable o).foldlM
        (fun h k => h.setProp ctor k (Obj.read (h.proto parent) k)) h
    else Except.error Err.unmodelled

/-- One round of the loop `for(k in definition)` of `fork`. -/
def forkStep (definition : Obj) (ctor parent : Ref) (h : Heap) (k : String) :
    Except Err Heap := do
  let cur ← h.get ctor k
  if cur.isFunction then
    -- function was already defined by parent, store backref
    let n ← metaName h parent
    let old ← h.get parent k
    let h ← h.setProp ctor (n ++ "_" ++ k) old
    h.setProp ctor k (Obj.read definition k)
  else
    h.setProp ctor k (Obj.read definition k)

/-- One round of the loop `for(i in parents)` of `fork`. -/
def forkParent (definition : Obj) (ctor : Ref) (h : Heap) (parent : Option Ref) :
    Except Err Heap :=
  match parent with
  | none => pure h
  | some p => do
    let h ← copyParent ctor p h
    let h ← (Obj.keys definition).foldlM (forkStep definition ctor p) h
    -- reference parent constructor
    let n ← metaName h p
    h.setProp ctor n (Val.fn p)

/-- The loop over the parents and the metadata assignment that end `fork`. -/
def forkFinish (name : String) (definition : Obj) (ctor : Ref)
    (parents : Option (List (Option Ref))) (h : Heap) : Except Err (Ref × Heap) := do
  let h ← (parents.getD []).foldlM (forkParent definition ctor) h
  let h ← h.setProp ctor "_meta" (Val.metaRec name parents)
  pure (ctor, h)

/-- The function `classy.fork`.  The constructor is looked up as in `define`;
with a built-in method as constructor every path through the function ends in
an assignment to `ctor.prototype[...]`, which throws. -/
def fork (toUpperCase : Char → String) (h : Heap) (name : String)
    (definition : Obj) (parents : Parents) : Except Err (Ref × Heap) :=
  let name := make_name toUpperCase name
  let parents : Option (List (Option Ref)) :=
    match parents with
    | Parents.absent => none
    | Parents.cls f => some [some f]
    | Parents.list ps => some ps
  match Obj.get definition name with
  | Val.fn f =>
    -- a constructor has been provided
    forkFinish name (Obj.remove definition name) f parents h
  | Val.host k =>
    if k = "constructor" then Except.error Err.unmodelled
    else Except.error Err.typeError
  | _ =>
    match parents with
    | none => Except.error Err.typeError
    | some [p0] =>
      let (ctor, h) := h.alloc (Body.delegate p0)
      forkFinish name definition ctor parents h
    | some ps =>
      -- no constructor provided and forked from multiple sources
      let (ctor, h) := h.alloc Body.noop
      forkFinish name definition ctor (some ps) h

/-- The function `classy.override`. -/
def override (h : Heap) (destClass : Ref) (methodName : String) (method : Val) :
    Except Err Heap := do
  let cur ← h.get destClass methodName
  if cur.truthy then
    -- create reference to old method
    let n ← metaName h destClass
    let old ← h.get destClass methodName
    let h ← h.setProp destClass (n ++ "_" ++ methodName) old
    h.setProp destClass methodName method
  else
    h.setProp destClass methodName method

/-- The function `classy.define_or_fork`.  `definition = none` is a missing
definition, `source = Parents.absent` a missing source.  A name that is not a
string makes `make_name` throw. -/
def define_or_fork (toUpperCase : Char → String) (h : Heap) (name : Val)
    (definition : Option Obj) (source : Parents) : Except Err (Ref × Heap) :=
  match definition with
  | none => pure (h.alloc Body.noop)
  | some d =>
    if !name.truthy then pure (h.alloc Body.noop)
    else
      match name with
      | Val.str s =>
        match source with
        | Parents.absent => define toUpperCase h s d
        | src => fork toUpperCase h s d src
      | _ => Except.error Err.typeError

/-- What a call does to the instance it is applied to: the instance and the
argument list in, the instance out, unless the call throws. -/
abbrev Effect (σ : Type) := σ → List Val → Except Err σ

/-- Running a function body, given what calling each function object does and
what the body does when the caller wrote it. -/
def Body.run {σ : Type} (call : Ref → Effect σ) (userEffect : Effect σ) :
    Body → Effect σ
  | Body.user => userEffect
  | Body.noop => fun this _ => Except.ok this
  | Body.delegate none => fun _ _ => Except.error Err.typeError
  | Body.delegate (some p) => fun this arguments => call p this arguments

/-- A heap in which no function object exists yet besides the caller's, which
are functions without a name whose prototype objects are as the host made
them. -/
def Heap.init (next : Ref) : Heap :=
  { obj := fun _ => some [], link := fun _ => none, body := fun _ => Body.user,
    name := fun _ => "", next := next }

/-- Upper-casing of the ASCII letters, an instance of the host's mapping. -/
def asciiUpper (c : Char) : String := String.singleton c.toUpper

/-! ## The name normaliser as the specification words it -/

/-- Splitting on runs of separators, as `s.split(/[-\s]+/)` does: a maximal run
of separator characters is one cut.  `inRun` tells that the character before
was a separator. -/
def splitRunsAux : Bool → List Char → List (List Char)
  | _, [] => [[]]
  | inRun, c :: cs =>
    if isSeparator c then
      if inRun then splitRunsAux true cs else [] :: splitRunsAux true cs
    else
      match splitRunsAux false cs with
      | [] => [[c]]
      | t :: ts => (c :: t) :: ts

/-- The tokens obtained by splitting on runs of hyphen or white space. -/
def splitRuns (cs : List Char) : List (List Char) := splitRunsAux false cs

/-- Concatenation of the tokens with no separator, the first character of
every token except the first uppercased and the remainder left unchanged. -/
def concatTokens (toUpperCase : Char → String) : List (List Char) → List Char
  | [] => []
  | t :: ts => t ++ (ts.map (capitalize toUpperCase)).flatten

/-- The name normaliser of the specification. -/
def make_name_spec (toUpperCase : Char → String) (s : String) : String :=
  String.mk (concatTokens toUpperCase (splitRuns s.data))

/-! ## Results of calls -/

deriving instance DecidableEq for Except

/-- The prototype of a returned class, if the call returned. -/
def protoOf (r : Except Err (Ref × Heap)) : Option Obj :=
  match r with
  | Except.ok (c, h) => some (h.proto c)
  | Except.error _ => none

/-- The error of a call, if it threw. -/
def errorOf {α : Type} (r : Except Err α) : Option Err :=
  match r with
  | Except.ok _ => none
  | Except.error e => some e

/-- The class and heap a call returned; the empty heap if it threw. -/
def orInit (r : Except Err (Ref × Heap)) : Ref × Heap :=
  match r with
  | Except.ok x => x
  | Except.error _ => (0, Heap.init 0)

/-! ## Concrete programs

Closed programs, in the manner of `tests/test.classy.js`, on which statements
are evaluated.  The caller's functions are the references below `10`. -/

namespace Example

/-- The class `classA` of the test `classy.fork`. -/
def classA : Ref × Heap :=
  orInit (define asciiUpper (Heap.init 10) "classA"
    [("a", Val.fn 1), ("b", Val.fn 2), ("c", Val.fn 3)])

/-- A class named `n` with no members, the first function the program creates. -/
def plain (n : String) : Ref × Heap := orInit (define asciiUpper (Heap.init 10) n [])

/-- A class `A` forked from a class of the same name `A`, as the test
`space.fork` forks `B` from `B`. -/
def sameName : Ref × Heap :=
  orInit (fork asciiUpper (plain "A").2 "A" [] (Parents.cls (plain "A").1))

/-- A class `A` with the members `x` and `A_x`. -/
def qualifiedMember : Ref × Heap :=
  orInit (define asciiUpper (Heap.init 10) "A" [("x", Val.fn 1), ("A_x", Val.fn 2)])

/-- A class with the empty name and the member `meta`. -/
def emptyName : Ref × Heap :=
  orInit (define asciiUpper (Heap.init 10) "" [("meta", Val.fn 1)])

/-- A class `A` with the member `m`. -/
def oneMethod : Ref × Heap :=
  orInit (define asciiUpper (Heap.init 10) "A" [("m", Val.fn 1)])

/-- The chain of the test `classy.fork` with one method `m` per class:
`define(a, {m: 1})`, `fork(b, {m: 2}, A)`, `fork(c, {m: 3}, B)`; the prototype of
the last class. -/
def chain (a b c m : String) : Option Obj :=
  match define asciiUpper (Heap.init 10) a [(m, Val.fn 1)] with
  | Except.ok (A, h1) =>
    match fork asciiUpper h1 b [(m, Val.fn 2)] (Parents.cls A) with
    | Except.ok (B, h2) => protoOf (fork asciiUpper h2 c [(m, Val.fn 3)] (Parents.cls B))
    | Except.error _ => none
  | Except.error _ => none

/-- The calls `E = fork(e, dE, D)` and `F = fork(f, dF, E)`; the prototype of
`F`. -/
def forkTwice (h : Heap) (D : Ref) (e : String) (dE : Obj) (f : String) (dF : Obj) :
    Option Obj :=
  match fork asciiUpper h e dE (Parents.cls D) with
  | Except.ok (E, h1) => protoOf (fork asciiUpper h1 f dF (Parents.cls E))
  | Except.error _ => none

/-- The class `classD` of the test `classy.fork`, with the constructor `1`. -/
def classD : Ref × Heap :=
  orInit (define asciiUpper (Heap.init 10) "classD" [("classD", Val.fn 1)])

/-- The heap after `define("A", {A: f, B: f})` for the caller's function
`f = 0`. -/
def reused : Heap :=
  (orInit (define asciiUpper (Heap.init 10) "A" [("A", Val.fn 0), ("B", Val.fn 0)])).2

/-- The classes `classX` and `classY` of the test `classy.fork-multiple`: the
functions `10` and `11`. -/
def twoClasses : Heap :=
  (orInit (define asciiUpper
    (orInit (define asciiUpper (Heap.init 10) "classX" [("x_func", Val.fn 1)])).2
    "classY" [("y_func", Val.fn 2)])).2

/-- The classes `X = define("X", {constructor: 1})`, whose definition has the
member `constructor` under another name than the class's, and
`Y = define("Y", {})`: the functions `10` and `11`. -/
def withConstructor : Heap :=
  (orInit (define asciiUpper
    (orInit (define asciiUpper (Heap.init 10) "X" [("constructor", Val.fn 1)])).2 "Y" [])).2

/-- The classes `X` with the method `k` and `Y` with no member: the functions
`10` and `11`. -/
def methodAndPlain : Heap :=
  (orInit (define asciiUpper
    (orInit (define asciiUpper (Heap.init 10) "X" [("k", Val.fn 1)])).2 "Y" [])).2

/-- The caller's functions when each is written as the member `meta` of an
object literal, which the host then names `meta`. -/
def literals : Heap := { Heap.init 10 with name := fun _ => "meta" }

/-- A class with the empty name and the member `meta`, a function that the host
named `meta`. -/
def emptyNameLiteral : Ref × Heap :=
  orInit (define asciiUpper literals "" [("meta", Val.fn 1)])

/-- The class `define("constructor", {constructor: f})` for the caller's function
`f = 1`: the member of the definition is the constructor, and the metadata name
is `constructor`. -/
def named : Ref × Heap :=
  orInit (define asciiUpper (Heap.init 10) "constructor" [("constructor", Val.fn 1)])

/-- The class `A = define("A", {constructor: g})` for the caller's function
`g = 2`, made after `define("X", {X: f, constructor: 5})` has given the
prototype of the caller's function `f = 1` the number `5` as `constructor`. -/
def ownConstructor : Ref × Heap :=
  orInit (define asciiUpper
    (orInit (define asciiUpper (Heap.init 10) "X"
      [("X", Val.fn 1), ("constructor", Val.num 5)])).2
    "A" [("constructor", Val.fn 2)])

/-- A heap in which the caller's function `0` is one without a `prototype`
property, such as an arrow function. -/
def arrow : Heap := { Heap.init 10 with obj := Function.update (fun _ => some []) 0 none }

end Example

/-! ## Namespaces

A namespace object is a reference into `World.spaces`.  A function made by
`f.bind(rv)` is a new function object; `World.bound` records the function it
calls and the namespace it calls it on.  Not modelled: the back reference
`_meta.classy`, which no operation reads; a constructor that returns an object
of its own; arrays inside arrays, other than the empty array. -/

/-- The four operations every namespace object is created with. -/
inductive Op where
  | init
  | define
  | fork
  | extend
  deriving DecidableEq, Repr

/-- Members of a namespace object: a value, a child namespace, one of the
operations, the record `$meta`, or an empty array. -/
inductive Member where
  | val (v : Val)
  | space (s : Ref)
  | op (o : Op)
  | info (cls : Ref) (space : Option Ref) (name : Val) (definition : Option Obj)
  | emptyArray
  deriving DecidableEq, Repr

/-- JavaScript truthiness of a member. -/
def Member.truthy : Member → Bool
  | Member.val v => v.truthy
  | _ => true

/-- The own properties of a namespace object, in enumeration order. -/
abbrev Members := List (String × Member)

/-- Own property lookup in a namespace object. -/
def Members.find? : Members → String → Option Member
  | [], _ => none
  | (k', v) :: rest, k => if k' = k then some v else Members.find? rest k

/-- The assignment `rv[k] = v` on a namespace object. -/
def Members.write : Members → String → Member → Members
  | [], k, v => [(k, v)]
  | (k', v') :: rest, k, v =>
    if k' = k then (k, v) :: rest else (k', v') :: Members.write rest k v

/-- The test `rv[k]` in a condition. -/
def Members.truthyAt (ms : Members) (k : String) : Bool :=
  match Members.find? ms k with
  | some m => m.truthy
  | none => false

/-- What can stand in an array of sources. -/
inductive Item where
  | undefined
  | null
  | cls (f : Ref)
  | space (s : Ref)
  | emptyArray
  deriving DecidableEq, Repr

/-- What can be passed as `source` or `sources`: one item, or an array. -/
inductive Src where
  | item (i : Item)
  | array (xs : List Item)
  deriving DecidableEq, Repr

/-- The function objects, the bindings made by `bind`, and the namespace
objects. -/
structure World where
  heap : Heap
  bound : Ref → Option (Ref × Ref)
  spaces : Ref → Members
  nextSpace : Ref

/-- A world with the caller's functions only and no namespace. -/
def World.init (next : Ref) : World :=
  { heap := Heap.init next, bound := fun _ => none, spaces := fun _ => [], nextSpace := 0 }

/-- The call `f.bind(rv)` for the namespace `s`: a new function object that
calls `f` on `s`, or, when `f` is itself bound, what `f` calls on what `f`
calls it on. -/
def World.bind (w : World) (f : Ref) (s : Ref) : Ref × World :=
  (w.heap.next,
    { w with
      heap := (w.heap.allocBound f).2,
      bound := Function.update w.bound w.heap.next
        (some (match w.bound f with
          | some t => t
          | none => (f, s))) })

/-- The test `i.charAt(0) == "$"`. -/
def startsDollar (i : String) : Bool := i.data.head? == some '$'

/-- The function `classy.util.concat_array`.  An argument is spread when
`typeof a == "object" && a.length` holds; reading `length` off `null` throws. -/
def concat_array (w : World) (arguments : List Src) : Except Err (List Item) :=
  arguments.foldlM
    (fun rv a =>
      match a with
      | Src.item Item.undefined => pure rv
      | Src.item Item.null => Except.error Err.typeError
      | Src.array [] => pure (rv ++ [Item.emptyArray])
      | Src.array xs => pure (rv ++ xs)
      | Src.item Item.emptyArray => pure (rv ++ [Item.emptyArray])
      | Src.item (Item.cls f) => pure (rv ++ [Item.cls f])
      | Src.item (Item.space s) =>
        match Members.find? (w.spaces s) "length" with
        | none => pure (rv ++ [Item.space s])
        | some (Member.space _) => pure rv
        | some m => if m.truthy then Except.error Err.unmodelled else pure (rv ++ [Item.space s]))
    []

/-- The expression `source[i] && source[i].$meta ? source[i].$meta.cls : source[i]`
of `$define`. -/
def resolveItem (w : World) (e : Item) : Except Err Item :=
  match e with
  | Item.space s =>
    match Members.find? (w.spaces s) "$meta" with
    | none => pure e
    | some (Member.info cls _ _ _) => pure (Item.cls cls)
    | some (Member.val v) => if v.truthy then pure Item.undefined else pure e
    | some _ => Except.error Err.unmodelled
  | _ => pure e

/-- The first statement of `$define`: an array that is not empty has its
namespaces replaced by their classes, a namespace becomes the array of its
class. -/
def resolveSource (w : World) (source : Src) : Except Err Src :=
  match source with
  | Src.item Item.null => Except.error Err.typeError
  | Src.array [] => pure source
  | Src.array xs => do
    let ys ← xs.mapM (resolveItem w)
    pure (Src.array ys)
  | Src.item (Item.space s) =>
    match Members.find? (w.spaces s) "length" with
    | some (Member.space _) => pure source
    | some (Member.val v) =>
      if v.truthy then Except.error Err.unmodelled
      else do
        let y ← resolveItem w (Item.space s)
        pure (if y = Item.space s then source else Src.array [y])
    | some _ => Except.error Err.unmodelled
    | none => do
      let y ← resolveItem w (Item.space s)
      pure (if y = Item.space s then source else Src.array [y])
  | _ => pure source

/-- An entry of a parents array as `fork` takes it, if it is a class, null or
undefined. -/
def Item.parent? : Item → Option (Option Ref)
  | Item.undefined => some none
  | Item.null => some none
  | Item.cls f => some (some f)
  | _ => none

/-- The source as the third argument of `define_or_fork`; `none` when it is, or
holds, an object that is no class, on which `fork` throws. -/
def Src.parents? : Src → Option Parents
  | Src.item Item.undefined => some Parents.absent
  | Src.item Item.null => some Parents.absent
  | Src.item (Item.cls f) => some (Parents.cls f)
  | Src.item Item.emptyArray => some (Parents.list [])
  | Src.item (Item.space _) => none
  | Src.array xs => (xs.mapM Item.parent?).map Parents.list

/-- The test `if(source)`. -/
def Src.truthy : Src → Bool
  | Src.item Item.undefined => false
  | Src.item Item.null => false
  | _ => true

/-- The definition object after `define_or_fork`, which deletes the member
taken as constructor. -/
def definitionAfter (toUpperCase : Char → String) (name : Val) (definition : Option Obj) :
    Option Obj :=
  match definition, name with
  | some d, Val.str s =>
    if s ≠ "" ∧ (Obj.get d (make_name toUpperCase s)).isFunction = true then
      some (Obj.remove d (make_name toUpperCase s))
    else some d
  | d, _ => d

/-- An item as a member of a namespace object. -/
def Item.toMember : Item → Member
  | Item.undefined => Member.val Val.undefined
  | Item.null => Member.val Val.null
  | Item.cls f => Member.val (Val.fn f)
  | Item.space s => Member.space s
  | Item.emptyArray => Member.emptyArray

/-- The keys `for(i in source)` visits with the values `source[i]`: the
indices of an array, the members of a namespace; a function has no enumerable
property. -/
def sourceEntries (w : World) (source : Src) : List (String × Member) :=
  match source with
  | Src.array xs => (List.enum xs).map (fun p => (toString p.1, p.2.toMember))
  | Src.item (Item.space s) => w.spaces s
  | _ => []

/-- The loop `if(source) for(i in source) if(i.charAt(0) == "$") rv[i] = source[i]`
of `classy.space`. -/
def copyFromSource (w : World) (source : Src) (rv : Members) : Members :=
  if source.truthy then
    (sourceEntries w source).foldl
      (fun rv p => if startsDollar p.1 then Members.write rv p.1 p.2 else rv) rv
  else rv

/-- The expression `source.prototype._meta.name` of `classy.space`. -/
def sourceMetaName (w : World) (source : Src) : Except Err String :=
  match source with
  | Src.item (Item.cls f) => metaName w.heap f
  | Src.item (Item.space s) =>
    match Members.find? (w.spaces s) "prototype" with
    | none => Except.error Err.typeError
    | some _ => Except.error Err.unmodelled
  | _ => Except.error Err.typeError

/-- The expression `source[i]` of `classy.space` for a key `i` that begins with
`$`. -/
def sourceMember (w : World) (source : Src) (i : String) : Member :=
  match source with
  | Src.item (Item.space s) => (Members.find? (w.spaces s) i).getD (Member.val Val.undefined)
  | _ => Member.val Val.undefined

/-- One round of the loop `for(i in definition)` of `classy.space`, for the
class `cls` and the namespace object `r` with the members `rv`. -/
def spaceStep (source : Src) (definition : Obj) (cls r : Ref) (st : Members × World)
    (i : String) : Except Err (Members × World) :=
  if startsDollar i then do
    let rv ←
      if Members.truthyAt st.1 i && source.truthy then do
        let n ← sourceMetaName st.2 source
        pure (Members.write st.1 (n ++ "_" ++ i) (sourceMember st.2 source i))
      else pure st.1
    let rv := Members.write rv i (Member.val (Obj.read definition i))
    -- rebind class methods
    let v ← st.2.heap.get cls i
    match v with
    | Val.undefined => Except.error Err.typeError
    | Val.null => Except.error Err.typeError
    | Val.fn f =>
      let bw := st.2.bind f r
      let h ← bw.2.heap.setProp cls i (Val.fn bw.1)
      pure (rv, { bw.2 with heap := h })
    | Val.host _ => Except.error Err.unmodelled
    | _ => pure (rv, st.2)
  else pure st

/-- The members a namespace object is created with. -/
def newMembers (cls : Ref) (space : Option Ref) (name : Val) (definition : Option Obj) :
    Members :=
  [("$meta", Member.info cls space name definition), ("$init", Member.op Op.init),
    ("$define", Member.op Op.define), ("$fork", Member.op Op.fork),
    ("$extend", Member.op Op.extend)]

/-- The function `classy.space`: the new namespace object and the world after
the call. -/
def space (toUpperCase : Char → String) (w : World) (name : Val) (definition : Option Obj)
    (parent : Option Ref) (source : Src) : Except Err (Ref × World) := do
  let ch ←
    match source.parents? with
    | some ps => define_or_fork toUpperCase w.heap name definition ps
    | none =>
      if name.truthy && definition.isSome then Except.error Err.typeError
      else define_or_fork toUpperCase w.heap name definition Parents.absent
  let definition := definitionAfter toUpperCase name definition
  let rv := copyFromSource w source (newMembers ch.1 parent name definition)
  let st ← (Obj.keys (definition.getD [])).foldlM
    (spaceStep source (definition.getD []) ch.1 w.nextSpace) (rv, { w with heap := ch.2 })
  pure (w.nextSpace,
    { st.2 with
      spaces := Function.update st.2.spaces w.nextSpace st.1,
      nextSpace := w.nextSpace + 1 })

/-- The operation `$define` of the namespace `this`. -/
def spaceDefine (toUpperCase : Char → String) (w : World) (this : Ref) (name : String)
    (definition : Option Obj) (source : Src) : Except Err World := do
  let source ← resolveSource w source
  let rw ← space toUpperCase w (Val.str name) definition (some this) source
  pure { rw.2 with
    spaces := Function.update rw.2.spaces this
      (Members.write (rw.2.spaces this) name (Member.space rw.1)) }

/-- The operation `$fork` of the namespace `this`: `$define` on the given
space, or on the space `this` was defined in, with `this` put before the
sources. -/
def spaceFork (toUpperCase : Char → String) (w : World) (this : Ref) (name : String)
    (definition : Option Obj) (sources : Src) (space : Option Ref) : Except Err World :=
  match Members.find? (w.spaces this) "$meta" with
  | some (Member.info _ parent _ _) =>
    match (match space with
      | some s => some s
      | none => parent) with
    | none => Except.error Err.typeError
    | some target =>
      match Members.find? (w.spaces target) "$define" with
      | some (Member.op Op.define) => do
        let srcs ← concat_array w [Src.item (Item.space this), sources]
        spaceDefine toUpperCase w target name definition (Src.array srcs)
      | none => Except.error Err.typeError
      | some _ => Except.error Err.unmodelled
  | none => Except.error Err.typeError
  | some _ => Except.error Err.unmodelled

/-- The operation `$extend` of the namespace `this`. -/
def spaceExtend (w : World) (this : Ref) (definition : Obj) : Except Err World :=
  match Members.find? (w.spaces this) "$meta" with
  | some (Member.info cls _ _ _) => do
    let h ← (Obj.keys definition).foldlM
      (fun h i => override h cls i (Obj.read definition i)) w.heap
    pure { w with heap := h }
  | none => Except.error Err.typeError
  | some _ => Except.error Err.unmodelled

/-- An object made by `new`: the class whose prototype object it is linked to,
and its own properties. -/
structure Instance where
  cls : Ref
  own : Obj
  deriving DecidableEq, Repr

/-- The operation `$init` of the namespace `this`: a new object linked to the
prototype of the class, on which the constructor is run; `call` tells what
running a function does to the own properties of the object it is applied
to. -/
def spaceInit (call : Ref → Effect Obj) (w : World) (this : Ref) (arguments : List Val) :
    Except Err Instance :=
  match Members.find? (w.spaces this) "$meta" with
  | some (Member.info cls _ _ _) => do
    let own ← call cls [] arguments
    pure { cls := cls, own := own }
  | none => Except.error Err.typeError
  | some _ => Except.error Err.unmodelled

/-- The expression `x[k]` for an instance `x`: a property of its own, or else
the member of the prototype object of its class, or else what that object
inherits from `Object.prototype`.  For a prototype object whose key `__proto__`
was assigned, what lies beyond its members is not looked up. -/
def Instance.read (w : World) (x : Instance) (k : String) : Val :=
  match Obj.find? x.own k with
  | some v => v
  | none =>
    match Obj.find? (w.heap.proto x.cls) k with
    | some v => v
    | none =>
      if k = "constructor" ∧ (w.heap.obj x.cls).isSome then Val.fn x.cls
      else if w.heap.link x.cls = none then inherited k
      else Val.undefined

/-- What a method call is made on. -/
inductive Receiver where
  | space (s : Ref)
  | object (x : Instance)
  deriving DecidableEq, Repr

/-- The call `x.k()` where `x[k]` is `v`: the function whose code runs and the
value of `this` it runs with; `none` when `v` is no function. -/
def invoke (w : World) (v : Val) (receiver : Receiver) : Option (Ref × Receiver) :=
  match v with
  | Val.fn f =>
    match w.bound f with
    | some t => some (t.1, Receiver.space t.2)
    | none => some (f, receiver)
  | _ => none

/-- The world a call returned; the empty world if it threw. -/
def orWorld (r : Except Err World) : World :=
  match r with
  | Except.ok w => w
  | Except.error _ => World.init 0

namespace Example

/-- The space `test = classy.space()` of the tests: the namespace `0`. -/
def root : World :=
  match space asciiUpper (World.init 10) Val.undefined none none (Src.item Item.undefined) with
  | Except.ok r => r.2
  | Except.error _ => World.init 0

/-- The namespace `test.A` of the test `space.define`: the namespace `1`, with
the class method `1`, the constructor `2` and the method `3`. -/
def defineA : Except Err World :=
  spaceDefine asciiUpper root 0 "A"
    (some [("$test_classmethod", Val.fn 1), ("A", Val.fn 2), ("test", Val.fn 3)])
    (Src.item Item.undefined)

/-- The namespace `test.A` of the test `space.fork`: the namespace `1`, whose
class is the function `11`. -/
def spaceA : World :=
  orWorld (spaceDefine asciiUpper root 0 "A" (some [("hello", Val.fn 1)])
    (Src.item Item.undefined))

/-- The namespace `test.B` of the test `space.fork`, made by `test.A.$fork`: the
namespace `2`, whose class is the function `12`. -/
def spaceB : World :=
  orWorld (spaceFork asciiUpper spaceA 1 "B"
    (some [("$test_class", Val.fn 2), ("$test_class_context", Val.fn 3), ("hello", Val.fn 4)])
    (Src.item Item.undefined) none)

/-- The call `test.B.$fork("C", ...)` of the test `space.fork`, which makes the
namespace `3`, whose class is the constructor `5`. -/
def forkC : Except Err World :=
  spaceFork asciiUpper spaceB 2 "C" (some [("C", Val.fn 5), ("hello", Val.fn 6)])
    (Src.item Item.undefined) none

/-- A constructor that stores its first argument under `name`, as the
constructor of `test.C` does; every other function leaves the object as it is. -/
def storeName : Ref → Effect Obj :=
  fun f this arguments =>
    if f = 5 then Except.ok (Obj.write this "name" (arguments.headD Val.undefined))
    else Except.ok this

/-- A namespace whose class has the member `count`, holding `0`, and the method
`hello`. -/
def counter : World :=
  orWorld (spaceDefine asciiUpper root 0 "A" (some [("count", Val.num 0), ("hello", Val.fn 1)])
    (Src.item Item.undefined))

/-- A namespace defined under the name `-`, which `make_name` turns into the
empty name, with the methods `meta` and `hello`. -/
def hyphen : World :=
  orWorld (spaceDefine asciiUpper root 0 "-" (some [("meta", Val.fn 1), ("hello", Val.fn 2)])
    (Src.item Item.undefined))

/-- The namespace `hyphen` when the host has named the function `1` after the
key `meta` it was written at in the object literal. -/
def hyphenNamed : World :=
  orWorld (spaceDefine asciiUpper
    { root with heap := { root.heap with name := fun f => if f = 1 then "meta" else "" } }
    0 "-" (some [("meta", Val.fn 1), ("hello", Val.fn 2)]) (Src.item Item.undefined))

end Example

/-! ## Reading a prototype object that inherits from `Object.prototype` -/

/-- The expression `f.prototype[k]` for the prototype object `o` of `f` when it
inherits from `Object.prototype`: a member, or else the function itself at
`constructor`, or else what `Object.prototype` holds. -/
def Obj.lookup (f : Ref) (o : Obj) (k : String) : Val :=
  match Obj.find? o k with
  | some v => v
  | none => if k = "constructor" then Val.fn f else inherited k

/-- The function `f` has a prototype object, which inherits from
`Object.prototype` and has no member `__proto__`. -/
def Heap.plain (h : Heap) (f : Ref) : Prop :=
  (h.obj f).isSome = true ∧ Obj.has (h.proto f) "__proto__" = false ∧ h.link f = none

/-! ## The state of `fork` during a round of the parents loop -/

/-- The constructor `c` and the parent `p` have prototype objects that inherit
from `Object.prototype`, and the metadata name of the parent is `n`. -/
def ForkSafe (c p : Ref) (n : String) (h : Heap) : Prop :=
  (∃ o, h.obj c = some o) ∧ h.link c = none ∧ (∃ o, h.obj p = some o) ∧ h.link p = none ∧
    metaName h p = Except.ok n

/-- One round of the definition loop of `fork` on the members `o` of the
prototype object of the constructor `c`, for a parent with metadata name `n`
whose prototype yields `old` at the key. -/
def Obj.forkStep (d : Obj) (n : String) (c : Ref) (old : Val) (o : Obj) (k : String) : Obj :=
  if (Obj.lookup c o k).isFunction then
    Obj.write (Obj.write o (n ++ "_" ++ k) old) k (Obj.read d k)
  else
    Obj.write o k (Obj.read d k)

/-- The heap `h'` differs from `h` at most in the prototype object of `c`. -/
def Heap.Frame (c : Ref) (h h' : Heap) : Prop :=
  h'.body = h.body ∧ h'.name = h.name ∧ h'.next = h.next ∧
    ∀ g, g ≠ c → h'.obj g = h.obj g ∧ h'.link g = h.link g

instance (h : Heap) (f : Ref) : Decidable (Heap.plain h f) := by
  unfold Heap.plain
  infer_instance

/-! ## The state of `classy.space` during the loop over the definition

The statements below follow a function `f` that the definition holds at a key
`k`; a state of the loop is the members of the namespace object together with
the world. -/

/-- What every round keeps: the class and the function exist, the function is
not one made by `bind`, the namespace objects of the world are untouched, and
the record `$meta`, while it is a member, names the class. -/
def LoopFrame (w0 : World) (cls f : Ref) (st : Members × World) : Prop :=
  cls < st.2.heap.next ∧ f < st.2.heap.next ∧ st.2.bound f = none ∧
    st.2.spaces = w0.spaces ∧ st.2.nextSpace = w0.nextSpace ∧
    ∀ c p n d, Members.find? st.1 "$meta" = some (Member.info c p n d) → c = cls

/-- Before the round of `k`: what the prototype of the class yields at `k`, if
the read returns, is `f` or `undefined`. -/
def LoopPending (cls f : Ref) (k : String) (st : Members × World) : Prop :=
  ∀ v, st.2.heap.get cls k = Except.ok v → v = Val.fn f ∨ v = Val.undefined

/-- After the round of `k`: the namespace object holds `f` at `k`, and the
prototype of the class has at `k` a function that calls `f` on the namespace
`r`. -/
def LoopDone (cls r f : Ref) (k : String) (st : Members × World) : Prop :=
  Members.find? st.1 k = some (Member.val (Val.fn f)) ∧
    ∃ b, b < st.2.heap.next ∧ Obj.find? (st.2.heap.proto cls) k = some (Val.fn b) ∧
      st.2.bound b = some (f, r)

/-! ## override on a prototype object that inherits from `Object.prototype` -/

/-- The function `classy.override` on the members `o` of the prototype object
of the class `c` with metadata name `n`. -/
def Obj.override (n : String) (c : Ref) (o : Obj) (methodName : String) (method : Val) : Obj :=
  if (Obj.lookup c o methodName).truthy then
    Obj.write (Obj.write o (n ++ "_" ++ methodName) (Obj.lookup c o methodName))
      methodName method
  else
    Obj.write o methodName method

/-! # Theorems -/

/-! ## Objects -/

theorem Obj.find?_write (o : Obj) (k k' : String) (v : Val) :
    Obj.find? (Obj.write o k v) k' = if k = k' then some v else Obj.find? o k' := by
  induction o with
  | nil => simp [Obj.write, Obj.find?]
  | cons p rest ih =>
    obtain ⟨k0, v0⟩ := p
    by_cases h0 : k0 = k
    · subst h0
      by_cases h1 : k0 = k' <;> simp [Obj.write, Obj.find?, h1]
    · by_cases h1 : k0 = k'
      · subst h1
        have : ¬ k = k0 := fun e => h0 e.symm
        simp [Obj.write, Obj.find?, h0, this]
      · simp [Obj.write, Obj.find?, h0, h1, ih]

theorem Obj.read_write (o : Obj) (k k' : String) (v : Val) :
    Obj.read (Obj.write o k v) k' = if k = k' then v else Obj.read o k' := by
  unfold Obj.read
  rw [Obj.find?_write]
  split <;> rfl

theorem Obj.has_write (o : Obj) (k k' : String) (v : Val) :
    Obj.has (Obj.write o k v) k' = (decide (k = k') || Obj.has o k') := by
  unfold Obj.has
  rw [Obj.find?_write]
  by_cases h : k = k' <;> simp [h]

theorem Obj.find?_remove (o : Obj) (k k' : String) :
    Obj.find? (Obj.remove o k) k' = if k' = k then none else Obj.find? o k' := by
  induction o with
  | nil => simp [Obj.remove, Obj.find?]
  | cons p rest ih =>
    obtain ⟨k0, v0⟩ := p
    by_cases h0 : k0 = k
    · subst h0
      by_cases h1 : k' = k0
      · subst h1
        simp [Obj.remove, ih]
      · have : ¬ k0 = k' := fun e => h1 e.symm
        simp [Obj.remove, Obj.find?, h1, ih, this]
    · by_cases h1 : k0 = k'
      · subst h1
        simp [Obj.remove, Obj.find?, h0]
      · simp [Obj.remove, Obj.find?, h0, h1, ih]

theorem Obj.read_remove (o : Obj) (k k' : String) :
    Obj.read (Obj.remove o k) k' = if k' = k then Val.undefined else Obj.read o k' := by
  unfold Obj.read
  rw [Obj.find?_remove]
  split <;> rfl

theorem Obj.mem_keys_iff (o : Obj) (k : String) :
    k ∈ Obj.keys o ↔ Obj.has o k = true := by
  induction o with
  | nil => simp [Obj.keys, Obj.has, Obj.find?]
  | cons p rest ih =>
    obtain ⟨k0, v0⟩ := p
    by_cases h0 : k0 = k
    · simp [Obj.keys, Obj.has, Obj.find?, h0]
    · have : ¬ k = k0 := fun e => h0 e.symm
      simp only [Obj.keys, Obj.has] at ih
      simp [Obj.keys, Obj.has, Obj.find?, h0, this, ih]

theorem Obj.mem_keys_remove (o : Obj) (k k' : String) :
    k' ∈ Obj.keys (Obj.remove o k) ↔ k' ∈ Obj.keys o ∧ k' ≠ k := by
  rw [Obj.mem_keys_iff, Obj.mem_keys_iff]
  unfold Obj.has
  rw [Obj.find?_remove]
  by_cases h : k' = k <;> simp [h]

theorem Obj.read_eq_of_find? {o o' : Obj} {k k' : String}
    (h : Obj.find? o k = Obj.find? o' k') : Obj.read o k = Obj.read o' k' := by
  unfold Obj.read; rw [h]

theorem Obj.has_eq_of_find? {o o' : Obj} {k k' : String}
    (h : Obj.find? o k = Obj.find? o' k') : Obj.has o k = Obj.has o' k' := by
  unfold Obj.has; rw [h]

theorem Obj.find?_eq_some_read {o : Obj} {k : String} (h : Obj.has o k = true) :
    Obj.find? o k = some (Obj.read o k) := by
  unfold Obj.has at h
  unfold Obj.read
  cases hf : Obj.find? o k with
  | none => simp [hf] at h
  | some v => rfl

theorem Obj.find?_eq_none {o : Obj} {k : String} (h : Obj.has o k = false) :
    Obj.find? o k = none := by
  unfold Obj.has at h
  cases hf : Obj.find? o k with
  | none => rfl
  | some v => simp [hf] at h

theorem Obj.read_of_find? {o : Obj} {k : String} {v : Val} (h : Obj.find? o k = some v) :
    Obj.read o k = v := by
  unfold Obj.read; rw [h]; rfl

theorem Obj.has_of_find? {o : Obj} {k : String} {v : Val} (h : Obj.find? o k = some v) :
    Obj.has o k = true := by
  unfold Obj.has; rw [h]; rfl

theorem Obj.not_mem_keys_iff (o : Obj) (k : String) :
    k ∉ Obj.keys o ↔ Obj.find? o k = none := by
  rw [Obj.mem_keys_iff]
  unfold Obj.has
  cases Obj.find? o k <;> simp

theorem Obj.mem_enumerable_iff (o : Obj) (k : String) :
    k ∈ Obj.enumerable o ↔ k ∈ Obj.keys o ∧ k ≠ "constructor" := by
  simp [Obj.enumerable, List.mem_filter]

theorem Obj.get_of_find? {o : Obj} {k : String} {v : Val} (h : Obj.find? o k = some v) :
    Obj.get o k = v := by
  unfold Obj.get; rw [h]; rfl

theorem Obj.get_of_not_has {o : Obj} {k : String} (h : Obj.find? o k = none) :
    Obj.get o k = inherited k := by
  unfold Obj.get; rw [h]; rfl

/-- What a definition yields at a key is the member it has there, unless it is
the function that `Object.prototype` holds at the key. -/
theorem Obj.get_eq_fn {o : Obj} {k : String} {f : Ref} (h : Obj.get o k = Val.fn f) :
    Obj.find? o k = some (Val.fn f) := by
  unfold Obj.get at h
  cases hf : Obj.find? o k with
  | some v => rw [hf] at h; simpa using h
  | none =>
    rw [hf] at h
    simp only [Option.getD_none, inherited] at h
    split at h
    · exact absurd h (by simp)
    · split at h <;> exact absurd h (by simp)

theorem inherited_not_fn (k : String) (f : Ref) : inherited k ≠ Val.fn f := by
  unfold inherited
  split
  · simp
  · split <;> simp

/-! ## Heap -/

@[simp] theorem Heap.setObj_obj_self (h : Heap) (f : Ref) (o : Obj) :
    (h.setObj f o).obj f = some o := by
  simp [Heap.setObj]

theorem Heap.setObj_obj_other (h : Heap) (f g : Ref) (o : Obj) (hne : g ≠ f) :
    (h.setObj f o).obj g = h.obj g := by
  simp [Heap.setObj, Function.update, hne]

@[simp] theorem Heap.setObj_link (h : Heap) (f : Ref) (o : Obj) :
    (h.setObj f o).link = h.link := rfl

@[simp] theorem Heap.setObj_body (h : Heap) (f : Ref) (o : Obj) :
    (h.setObj f o).body = h.body := rfl

@[simp] theorem Heap.setObj_name (h : Heap) (f : Ref) (o : Obj) :
    (h.setObj f o).name = h.name := rfl

@[simp] theorem Heap.setObj_next (h : Heap) (f : Ref) (o : Obj) :
    (h.setObj f o).next = h.next := rfl

@[simp] theorem Heap.setObj_proto_self (h : Heap) (f : Ref) (o : Obj) :
    (h.setObj f o).proto f = o := by
  simp [Heap.proto]

theorem Heap.setObj_proto_other (h : Heap) (f g : Ref) (o : Obj) (hne : g ≠ f) :
    (h.setObj f o).proto g = h.proto g := by
  simp [Heap.proto, Heap.setObj_obj_other h f g o hne]

@[simp] theorem Heap.setLink_obj (h : Heap) (f : Ref) (v : Val) :
    (h.setLink f v).obj = h.obj := by
  cases v <;> rfl

@[simp] theorem Heap.setLink_body (h : Heap) (f : Ref) (v : Val) :
    (h.setLink f v).body = h.body := by
  cases v <;> rfl

@[simp] theorem Heap.setLink_name (h : Heap) (f : Ref) (v : Val) :
    (h.setLink f v).name = h.name := by
  cases v <;> rfl

@[simp] theorem Heap.setLink_next (h : Heap) (f : Ref) (v : Val) :
    (h.setLink f v).next = h.next := by
  cases v <;> rfl

@[simp] theorem Heap.setLink_proto (h : Heap) (f g : Ref) (v : Val) :
    (h.setLink f v).proto g = h.proto g := by
  simp [Heap.proto]

theorem Heap.setLink_link_other (h : Heap) (f g : Ref) (v : Val) (hne : g ≠ f) :
    (h.setLink f v).link g = h.link g := by
  cases v <;> simp [Heap.setLink, Function.update, hne]

theorem Heap.proto_of_obj {h : Heap} {f : Ref} {o : Obj} (ho : h.obj f = some o) :
    h.proto f = o := by
  simp [Heap.proto, ho]

/-- The outcomes of an assignment that returns: the key was written as a
member, or it was `__proto__` and reached the host's setter. -/
theorem Heap.setProp_ok {h h' : Heap} {f : Ref} {k : String} {v : Val}
    (e : h.setProp f k v = Except.ok h') :
    ∃ o, h.obj f = some o ∧
      (h' = h.setObj f (Obj.write o k v) ∨
        (k = "__proto__" ∧ Obj.has o k = false ∧ h' = h.setLink f v)) := by
  unfold Heap.setProp at e
  cases ho : h.obj f with
  | none => rw [ho] at e; exact absurd e (by simp)
  | some o =>
    rw [ho] at e
    refine ⟨o, rfl, ?_⟩
    simp only at e
    split at e
    · injection e with e; exact Or.inl e.symm
    · rename_i hc
      split at e
      · rename_i hk
        injection e with e
        refine Or.inr ⟨hk, ?_, e.symm⟩
        cases hh : Obj.has o k with
        | true => exact absurd (Or.inl hh) hc
        | false => rfl
      · split at e
        · exact absurd e (by simp)
        · injection e with e; exact Or.inl e.symm

theorem Heap.setProp_body {h h' : Heap} {f : Ref} {k : String} {v : Val}
    (e : h.setProp f k v = Except.ok h') : h'.body = h.body := by
  obtain ⟨o, _, h1 | ⟨_, _, h1⟩⟩ := Heap.setProp_ok e <;> rw [h1] <;> simp

theorem Heap.setProp_name {h h' : Heap} {f : Ref} {k : String} {v : Val}
    (e : h.setProp f k v = Except.ok h') : h'.name = h.name := by
  obtain ⟨o, _, h1 | ⟨_, _, h1⟩⟩ := Heap.setProp_ok e <;> rw [h1] <;> simp

theorem Heap.setProp_next {h h' : Heap} {f : Ref} {k : String} {v : Val}
    (e : h.setProp f k v = Except.ok h') : h'.next = h.next := by
  obtain ⟨o, _, h1 | ⟨_, _, h1⟩⟩ := Heap.setProp_ok e <;> rw [h1] <;> simp

theorem Heap.setProp_obj_other {h h' : Heap} {f g : Ref} {k : String} {v : Val}
    (e : h.setProp f k v = Except.ok h') (hne : g ≠ f) : h'.obj g = h.obj g := by
  obtain ⟨o, _, h1 | ⟨_, _, h1⟩⟩ := Heap.setProp_ok e <;> rw [h1]
  · exact Heap.setObj_obj_other h f g _ hne
  · simp

theorem Heap.setProp_link_other {h h' : Heap} {f g : Ref} {k : String} {v : Val}
    (e : h.setProp f k v = Except.ok h') (hne : g ≠ f) : h'.link g = h.link g := by
  obtain ⟨o, _, h1 | ⟨_, _, h1⟩⟩ := Heap.setProp_ok e <;> rw [h1]
  · simp
  · exact Heap.setLink_link_other h f g v hne

theorem Heap.setProp_proto_other {h h' : Heap} {f g : Ref} {k : String} {v : Val}
    (e : h.setProp f k v = Except.ok h') (hne : g ≠ f) : h'.proto g = h.proto g := by
  simp [Heap.proto, Heap.setProp_obj_other e hne]

/-- An assignment to a key other than `__proto__` that returns has written the
member. -/
theorem Heap.setProp_ok_write {h h' : Heap} {f : Ref} {k : String} {v : Val}
    (e : h.setProp f k v = Except.ok h') (hk : k ≠ "__proto__") :
    h' = h.setObj f (Obj.write (h.proto f) k v) := by
  obtain ⟨o, ho, h1 | ⟨h2, _, _⟩⟩ := Heap.setProp_ok e
  · rw [Heap.proto_of_obj ho]; exact h1
  · exact absurd h2 hk

/-- A member is overwritten, whatever the prototype object inherits from. -/
theorem Heap.setProp_own {h : Heap} {f : Ref} {o : Obj} {k : String} (v : Val)
    (ho : h.obj f = some o) (hk : Obj.has o k = true) :
    h.setProp f k v = Except.ok (h.setObj f (Obj.write o k v)) := by
  simp [Heap.setProp, ho, hk]

/-- On a prototype object that inherits from `Object.prototype`, every key but
`__proto__` is written as a member. -/
theorem Heap.setProp_plain {h : Heap} {f : Ref} {o : Obj} {k : String} (v : Val)
    (ho : h.obj f = some o) (hl : h.link f = none) (hk : k ≠ "__proto__") :
    h.setProp f k v = Except.ok (h.setObj f (Obj.write o k v)) := by
  unfold Heap.setProp
  rw [ho]
  simp only [hl, hk, ne_eq, not_true_eq_false, false_and, if_false]
  split <;> rfl

theorem qualified_underscore (n k : String) : '_' ∈ (n ++ "_" ++ k).data := by
  simp [String.data_append]

theorem qualified_ne_constructor (n k : String) : n ++ "_" ++ k ≠ "constructor" := by
  intro e
  have h := qualified_underscore n k
  rw [e] at h
  revert h
  decide

theorem qualified_not_functionProps (n k : String) : n ++ "_" ++ k ∉ functionProps := by
  intro e
  have h := qualified_underscore n k
  simp only [functionProps, List.mem_cons, List.mem_singleton, List.not_mem_nil, or_false] at e
  rcases e with e | e | e | e <;> rw [e] at h <;> revert h <;> decide

/-- A qualified name other than `__proto__` is written as a member, whatever
the prototype object inherits from. -/
theorem Heap.setProp_qualified {h : Heap} {f : Ref} {o : Obj} (n a : String) (v : Val)
    (ho : h.obj f = some o) (hk : n ++ "_" ++ a ≠ "__proto__") :
    h.setProp f (n ++ "_" ++ a) v = Except.ok (h.setObj f (Obj.write o (n ++ "_" ++ a) v)) := by
  unfold Heap.setProp
  rw [ho]
  simp only [hk, qualified_not_functionProps, and_false, if_false]
  split <;> rfl

/-- The key `_meta` is written as a member, whatever the prototype object
inherits from. -/
theorem Heap.setProp_meta {h : Heap} {f : Ref} {o : Obj} (v : Val)
    (ho : h.obj f = some o) :
    h.setProp f "_meta" v = Except.ok (h.setObj f (Obj.write o "_meta" v)) := by
  unfold Heap.setProp
  rw [ho]
  have h1 : ("_meta" : String) ≠ "__proto__" := by decide
  have h2 : ("_meta" : String) ∉ functionProps := by decide
  simp only [h1, h2, and_false, if_false]
  split <;> rfl

theorem Heap.get_own {h : Heap} {f : Ref} {o : Obj} {k : String} {v : Val}
    (ho : h.obj f = some o) (hf : Obj.find? o k = some v) : h.get f k = Except.ok v := by
  simp [Heap.get, ho, hf]

theorem Heap.get_plain {h : Heap} {f : Ref} {o : Obj} (k : String)
    (ho : h.obj f = some o) (hl : h.link f = none) :
    h.get f k = Except.ok (Obj.lookup f o k) := by
  cases hf : Obj.find? o k with
  | some v => simp [Heap.get, Obj.lookup, ho, hf]
  | none =>
    by_cases hk : k = "constructor"
    · subst hk; simp [Heap.get, Obj.lookup, ho, hf]
    · simp [Heap.get, Obj.lookup, ho, hf, hl, hk]

theorem Heap.get_obj {h : Heap} {f : Ref} {k : String} {v : Val}
    (e : h.get f k = Except.ok v) : ∃ o, h.obj f = some o := by
  unfold Heap.get at e
  cases ho : h.obj f with
  | none => rw [ho] at e; exact absurd e (by simp)
  | some o => exact ⟨o, rfl⟩

/-- The value read depends on the members of the prototype object, and on what
it inherits from. -/
theorem Heap.get_congr {h h' : Heap} {f : Ref} (k : String)
    (ho : h'.obj f = h.obj f) (hl : h'.link f = h.link f) : h'.get f k = h.get f k := by
  unfold Heap.get
  rw [ho, hl]

theorem Val.nameOf_congr {h h' : Heap} (v : Val) (hn : h'.name = h.name) :
    v.nameOf h' = v.nameOf h := by
  cases v <;> simp [Val.nameOf, hn]

theorem metaName_congr {h h' : Heap} {f : Ref}
    (ho : h'.obj f = h.obj f) (hl : h'.link f = h.link f) (hn : h'.name = h.name) :
    metaName h' f = metaName h f := by
  unfold metaName
  rw [Heap.get_congr "_meta" ho hl]
  cases h.get f "_meta" with
  | error e => rfl
  | ok v => exact Val.nameOf_congr v hn

theorem inherited_meta : inherited "_meta" = Val.undefined := by decide

/-- A metadata name can only be read off a member `_meta`. -/
theorem metaName_ok {h : Heap} {f : Ref} {n : String} (e : metaName h f = Except.ok n) :
    ∃ o mv, h.obj f = some o ∧ Obj.find? o "_meta" = some mv ∧ mv.nameOf h = Except.ok n := by
  cases ho : h.obj f with
  | none => simp [metaName, Heap.get, ho, bind, Except.bind] at e
  | some o =>
    cases hf : Obj.find? o "_meta" with
    | some mv =>
      refine ⟨o, mv, rfl, hf, ?_⟩
      simpa [metaName, Heap.get, ho, hf, bind, Except.bind] using e
    | none =>
      have h1 : ("_meta" : String) ≠ "constructor" := by decide
      have h2 : ("_meta" : String) ≠ "__proto__" := by decide
      cases hl : h.link f with
      | none =>
        simp [metaName, Heap.get, ho, hf, hl, h1, bind, Except.bind, inherited_meta,
          Val.nameOf] at e
      | some v =>
        cases v <;>
          simp [metaName, Heap.get, ho, hf, hl, h1, h2, bind, Except.bind, Val.nameOf] at e

theorem metaName_of_find? {h : Heap} {f : Ref} {o : Obj} {mv : Val}
    (ho : h.obj f = some o) (hf : Obj.find? o "_meta" = some mv) :
    metaName h f = mv.nameOf h := by
  unfold metaName
  rw [Heap.get_own ho hf]
  rfl

/-! ## Loops that can throw -/

theorem foldlM_preserves {α σ : Type} (f : σ → α → Except Err σ) (P : σ → Prop)
    (l : List α)
    (hstep : ∀ s a s', a ∈ l → P s → f s a = Except.ok s' → P s')
    (s s' : σ) (hs : P s) (e : l.foldlM f s = Except.ok s') : P s' := by
  induction l generalizing s with
  | nil =>
    simp only [List.foldlM, pure, Except.pure] at e
    injection e with e
    rw [← e]; exact hs
  | cons a l ih =>
    simp only [List.foldlM, bind, Except.bind] at e
    cases h1 : f s a with
    | error err => simp [h1] at e
    | ok s1 =>
      simp only [h1] at e
      exact ih (fun s a' s' ha' => hstep s a' s' (List.mem_cons_of_mem _ ha')) s1
        (hstep s a s1 (List.mem_cons_self _ _) hs h1) e

theorem foldlM_reaches {α σ : Type} (f : σ → α → Except Err σ) (P Q R : σ → Prop) (k : α)
    (l : List α)
    (hP : ∀ s a s', a ∈ l → P s → f s a = Except.ok s' → P s')
    (hQ : ∀ s a s', a ∈ l → a ≠ k → P s → Q s → f s a = Except.ok s' → Q s')
    (hk : ∀ s s', P s → Q s → f s k = Except.ok s' → R s')
    (hR : ∀ s a s', a ∈ l → P s → R s → f s a = Except.ok s' → R s')
    (hmem : k ∈ l) (s s' : σ) (hs : P s) (hq : Q s)
    (e : l.foldlM f s = Except.ok s') : R s' := by
  induction l generalizing s with
  | nil => simp at hmem
  | cons a l ih =>
    simp only [List.foldlM, bind, Except.bind] at e
    cases h1 : f s a with
    | error err => simp [h1] at e
    | ok s1 =>
      simp only [h1] at e
      have hP1 : P s1 := hP s a s1 (List.mem_cons_self _ _) hs h1
      by_cases hak : a = k
      · subst hak
        have hR1 : R s1 := hk s s1 hs hq h1
        have := foldlM_preserves f (fun s => P s ∧ R s) l
          (fun s a' s' ha' hpr he =>
            ⟨hP s a' s' (List.mem_cons_of_mem _ ha') hpr.1 he,
              hR s a' s' (List.mem_cons_of_mem _ ha') hpr.1 hpr.2 he⟩)
          s1 s' ⟨hP1, hR1⟩ e
        exact this.2
      · have hmem' : k ∈ l := by
          rcases List.mem_cons.1 hmem with h | h
          · exact absurd h.symm hak
          · exact h
        exact ih (fun s a' s' ha' => hP s a' s' (List.mem_cons_of_mem _ ha'))
          (fun s a' s' ha' => hQ s a' s' (List.mem_cons_of_mem _ ha'))
          (fun s a' s' ha' => hR s a' s' (List.mem_cons_of_mem _ ha'))
          hmem' s1 hP1 (hQ s a s1 (List.mem_cons_self _ _) hak hs hq h1) e

/-- A loop every round of which returns and keeps an invariant returns and
keeps it. -/
theorem foldlM_total {α σ : Type} (f : σ → α → Except Err σ) (P : σ → Prop)
    (l : List α)
    (hstep : ∀ s a, a ∈ l → P s → ∃ s', f s a = Except.ok s' ∧ P s')
    (s : σ) (hs : P s) : ∃ s', l.foldlM f s = Except.ok s' ∧ P s' := by
  induction l generalizing s with
  | nil => exact ⟨s, rfl, hs⟩
  | cons a l ih =>
    obtain ⟨s1, e1, h1⟩ := hstep s a (List.mem_cons_self _ _) hs
    obtain ⟨s2, e2, h2⟩ := ih (fun s a' ha' => hstep s a' (List.mem_cons_of_mem _ ha')) s1 h1
    refine ⟨s2, ?_, h2⟩
    simp only [List.foldlM, bind, Except.bind, e1]
    exact e2

/-! ## make_name -/

theorem enumFrom_map_capitalize (up : Char → String) (ts : List (List Char)) (n : Nat) :
    (List.enumFrom (n + 1) ts).map (fun p => if p.1 > 0 then capitalize up p.2 else p.2)
      = ts.map (capitalize up) := by
  induction ts generalizing n with
  | nil => rfl
  | cons t ts ih => simp [List.enumFrom, ih]

theorem joinNames_cons (up : Char → String) (t : List Char) (ts : List (List Char)) :
    joinNames up (t :: ts) = t ++ (ts.map (capitalize up)).flatten := by
  simp [joinNames, List.enum, List.enumFrom, enumFrom_map_capitalize]

theorem joinNames_eq_concatTokens (up : Char → String) (ts : List (List Char)) :
    joinNames up ts = concatTokens up ts := by
  cases ts with
  | nil => rfl
  | cons t ts => rw [joinNames_cons]; rfl

theorem splitRuns_splitSeparators (up : Char → String) (cs : List Char) :
    (∃ t ts ts', splitRunsAux false cs = t :: ts ∧ splitSeparators cs = t :: ts' ∧
        (ts.map (capitalize up)).flatten = (ts'.map (capitalize up)).flatten) ∧
      ((splitRunsAux true cs).map (capitalize up)).flatten
        = ((splitSeparators cs).map (capitalize up)).flatten := by
  induction cs with
  | nil => exact ⟨⟨[], [], [], rfl, rfl, rfl⟩, rfl⟩
  | cons c cs ih =>
    obtain ⟨⟨t, ts, ts', h1, h2, h3⟩, h4⟩ := ih
    by_cases hc : isSeparator c = true
    · refine ⟨⟨[], splitRunsAux true cs, splitSeparators cs, ?_, ?_, h4⟩, ?_⟩
      · simp [splitRunsAux, hc]
      · simp [splitSeparators, hc]
      · simp [splitRunsAux, splitSeparators, hc, capitalize, h4]
    · refine ⟨⟨c :: t, ts, ts', ?_, ?_, h3⟩, ?_⟩
      · simp [splitRunsAux, hc, h1]
      · simp [splitSeparators, hc, h2]
      · simp [splitRunsAux, splitSeparators, hc, h1, h2, h3]

/-- C4: for every string, `make_name` returns the concatenation, with no
separator, of the tokens obtained by splitting on runs of hyphen or white space
characters, the first character of every token but the first uppercased and
the remainder left unchanged. -/
theorem make_name_eq_spec (toUpperCase : Char → String) (s : String) :
    make_name toUpperCase s = make_name_spec toUpperCase s := by
  obtain ⟨⟨t, ts, ts', h1, h2, h3⟩, _⟩ := splitRuns_splitSeparators toUpperCase s.data
  simp [make_name, make_name_spec, splitRuns, joinNames_eq_concatTokens, h1, h2,
    concatTokens, h3]

/-! ## make_name: separators -/

theorem splitSeparators_ne_nil (cs : List Char) : splitSeparators cs ≠ [] := by
  cases cs with
  | nil => simp [splitSeparators]
  | cons c cs =>
    unfold splitSeparators
    split
    · simp
    · split <;> simp

theorem splitSeparators_tokens (cs : List Char) :
    ∀ t, t ∈ splitSeparators cs → ∀ c, c ∈ t → isSeparator c = false := by
  induction cs with
  | nil =>
    intro t ht c hc
    simp [splitSeparators] at ht
    subst ht
    simp at hc
  | cons c0 cs ih =>
    intro t ht c hc
    unfold splitSeparators at ht
    by_cases h0 : isSeparator c0 = true
    · simp only [h0, if_true, List.mem_cons] at ht
      rcases ht with e | ht
      · subst e; simp at hc
      · exact ih t ht c hc
    · simp only [h0] at ht
      cases hs : splitSeparators cs with
      | nil => exact absurd hs (splitSeparators_ne_nil cs)
      | cons t0 ts =>
        rw [hs] at ih ht
        have ht' : t = c0 :: t0 ∨ t ∈ ts := by simpa using ht
        rcases ht' with e | ht'
        · subst e
          rcases List.mem_cons.1 hc with e | hc'
          · subst e; simpa using h0
          · exact ih t0 (List.mem_cons_self _ _) c hc'
        · exact ih t (List.mem_cons_of_mem _ ht') c hc

theorem splitSeparators_of_no_separator (cs : List Char)
    (h : ∀ c, c ∈ cs → isSeparator c = false) : splitSeparators cs = [cs] := by
  induction cs with
  | nil => rfl
  | cons c cs ih =>
    have hc : isSeparator c = false := h c (List.mem_cons_self _ _)
    have := ih (fun c' hc' => h c' (List.mem_cons_of_mem _ hc'))
    simp [splitSeparators, hc, this]

theorem capitalize_no_separator (up : Char → String)
    (hup : ∀ c, isSeparator c = false → ∀ c', c' ∈ (up c).data → isSeparator c' = false)
    (t : List Char) (ht : ∀ c, c ∈ t → isSeparator c = false) :
    ∀ c, c ∈ capitalize up t → isSeparator c = false := by
  cases t with
  | nil => intro c hc; simp [capitalize] at hc
  | cons c0 cs =>
    intro c hc
    simp only [capitalize, List.mem_append] at hc
    rcases hc with hc | hc
    · exact hup c0 (ht c0 (List.mem_cons_self _ _)) c hc
    · exact ht c (List.mem_cons_of_mem _ hc)

theorem make_name_data_no_separator (up : Char → String)
    (hup : ∀ c, isSeparator c = false → ∀ c', c' ∈ (up c).data → isSeparator c' = false)
    (s : String) : ∀ c, c ∈ (make_name up s).data → isSeparator c = false := by
  intro c hc
  have htok := splitSeparators_tokens s.data
  unfold make_name at hc
  simp only at hc
  cases hs : splitSeparators s.data with
  | nil => exact absurd hs (splitSeparators_ne_nil _)
  | cons t ts =>
    rw [hs] at hc htok
    rw [joinNames_cons] at hc
    rcases List.mem_append.1 hc with hc | hc
    · exact htok t (List.mem_cons_self _ _) c hc
    · rw [List.mem_flatten] at hc
      obtain ⟨l, hl, hcl⟩ := hc
      rw [List.mem_map] at hl
      obtain ⟨t', ht', e⟩ := hl
      subst e
      exact capitalize_no_separator up hup t'
        (htok t' (List.mem_cons_of_mem _ ht')) c hcl

theorem make_name_of_no_separator (up : Char → String) (s : String)
    (h : ∀ c, c ∈ s.data → isSeparator c = false) : make_name up s = s := by
  unfold make_name
  rw [splitSeparators_of_no_separator s.data h, joinNames_cons]
  simp

/-- The upper-casing of the ASCII letters yields no separator. -/
theorem asciiUpper_no_separator :
    ∀ c, isSeparator c = false → ∀ c', c' ∈ (asciiUpper c).data → isSeparator c' = false := by
  intro c hc c' hc'
  simp only [asciiUpper, String.singleton, String.data_push, List.mem_append,
    List.mem_singleton] at hc'
  have e : c' = c.toUpper := by
    rcases hc' with h | h
    · simp at h
    · exact h
  subst e
  unfold Char.toUpper
  simp only
  split
  · rename_i h
    obtain ⟨h1, h2⟩ := h
    generalize c.toNat = n at h1 h2
    interval_cases n <;> decide
  · exact hc

/-- C16: for every string, `make_name` contains no hyphen and no white space
character, the host's upper-casing producing none from a character that is
none. -/
theorem make_name_no_separator (toUpperCase : Char → String)
    (hup : ∀ c, isSeparator c = false →
      ∀ c', c' ∈ (toUpperCase c).data → isSeparator c' = false)
    (s : String) : ∀ c, c ∈ (make_name toUpperCase s).data → isSeparator c = false :=
  make_name_data_no_separator toUpperCase hup s

/-- C16, witness: the names of the test `classy.make_name`. -/
theorem make_name_no_separator_witness :
    'A' ∈ (make_name asciiUpper "class a-b").data ∧ isSeparator 'A' = false :=
  ⟨by decide,
    make_name_no_separator asciiUpper asciiUpper_no_separator "class a-b" 'A' (by decide)⟩

/-- C17: `make_name` returns a string without hyphen and white space as it is;
and, the host's upper-casing producing no separator from a character that is
none, `make_name` applied twice is `make_name` applied once. -/
theorem make_name_fixes_names (toUpperCase : Char → String) :
    (∀ s : String, (∀ c, c ∈ s.data → isSeparator c = false) →
        make_name toUpperCase s = s) ∧
    ((∀ c, isSeparator c = false →
        ∀ c', c' ∈ (toUpperCase c).data → isSeparator c' = false) →
      ∀ t, make_name toUpperCase (make_name toUpperCase t) = make_name toUpperCase t) :=
  ⟨fun s h => make_name_of_no_separator toUpperCase s h,
    fun hup t => make_name_of_no_separator toUpperCase _
      (make_name_data_no_separator toUpperCase hup t)⟩

/-- C17, witness: `class_a` of the test `classy.make_name`, and `class-a`
normalised twice. -/
theorem make_name_fixes_names_witness :
    make_name asciiUpper "class_a" = "class_a" ∧
      make_name asciiUpper (make_name asciiUpper "class-a") = make_name asciiUpper "class-a" :=
  ⟨(make_name_fixes_names asciiUpper).1 "class_a" (by decide),
    (make_name_fixes_names asciiUpper).2 asciiUpper_no_separator "class-a"⟩

/-! ## Reading through `Object.prototype` -/

theorem inherited_cases (k : String) :
    (inherited k).isFunction = false ∨ inherited k = Val.host k := by
  unfold inherited
  by_cases h1 : k ∈ objectPrototypeFunctions
  · right; simp [h1]
  · left
    rw [if_neg h1]
    by_cases h2 : k = "__proto__"
    · rw [if_pos h2]; rfl
    · rw [if_neg h2]; rfl

theorem inherited_ne_fn (k : String) (f : Ref) : inherited k ≠ Val.fn f := by
  intro e
  rcases inherited_cases k with h1 | h1
  · rw [e] at h1; simp [Val.isFunction] at h1
  · rw [e] at h1; exact Val.noConfusion h1

theorem Obj.lookup_congr {c : Ref} {o o' : Obj} {k : String}
    (h : Obj.find? o' k = Obj.find? o k) : Obj.lookup c o' k = Obj.lookup c o k := by
  unfold Obj.lookup
  rw [h]

theorem Obj.lookup_of_find? {c : Ref} {o : Obj} {k : String} {v : Val}
    (h : Obj.find? o k = some v) : Obj.lookup c o k = v := by
  unfold Obj.lookup
  rw [h]

/-! ## Loops of property assignments -/

theorem Heap.setObj_setObj (h : Heap) (f : Ref) (o o' : Obj) :
    (h.setObj f o).setObj f o' = h.setObj f o' := by
  simp [Heap.setObj]

theorem foldl_write_find? (val : String → Val) (ks : List String) (o : Obj) (x : String) :
    Obj.find? (ks.foldl (fun o k => Obj.write o k (val k)) o) x
      = if x ∈ ks then some (val x) else Obj.find? o x := by
  induction ks generalizing o with
  | nil => simp
  | cons k ks ih =>
    simp only [List.foldl, ih, Obj.find?_write, List.mem_cons]
    by_cases h1 : x ∈ ks
    · simp [h1]
    · by_cases h2 : k = x
      · subst h2; simp [h1]
      · have : ¬ x = k := fun e => h2 e.symm
        simp [h1, h2, this]

/-- A loop of assignments to keys other than `__proto__` on a prototype object
that inherits from `Object.prototype` returns, having written every key. -/
theorem foldlM_setProp_plain (c : Ref) (val : String → Val) (ks : List String) (h : Heap)
    (o : Obj) (ho : h.obj c = some o) (hl : h.link c = none) (hp : "__proto__" ∉ ks) :
    ks.foldlM (fun h k => h.setProp c k (val k)) h
      = Except.ok (h.setObj c (ks.foldl (fun o k => Obj.write o k (val k)) o)) := by
  induction ks generalizing h o with
  | nil =>
    simp only [List.foldlM, List.foldl, pure, Except.pure]
    congr 1
    cases h
    simp only [Heap.setObj] at *
    congr 1
    funext g
    by_cases hg : g = c
    · subst hg; simp [ho]
    · simp [Function.update, hg]
  | cons k ks ih =>
    have hk : k ≠ "__proto__" := fun e => hp (e ▸ List.mem_cons_self _ _)
    have hp' : "__proto__" ∉ ks := fun e => hp (List.mem_cons_of_mem _ e)
    simp only [List.foldlM, List.foldl, bind, Except.bind,
      Heap.setProp_plain (val k) ho hl hk]
    rw [ih (h.setObj c (Obj.write o k (val k))) (Obj.write o k (val k)) (by simp)
      (by simpa using hl) hp', Heap.setObj_setObj]

/-- A loop of assignments that returns leaves the other function objects, the
bodies, the names and the next reference as they were. -/
theorem foldlM_setProp_frame (c : Ref) (val : Heap → String → Val) (ks : List String)
    (h h' : Heap) (e : ks.foldlM (fun h k => h.setProp c k (val h k)) h = Except.ok h') :
    h'.body = h.body ∧ h'.name = h.name ∧ h'.next = h.next ∧
      ∀ g, g ≠ c → h'.obj g = h.obj g ∧ h'.link g = h.link g := by
  refine foldlM_preserves _
    (fun s => s.body = h.body ∧ s.name = h.name ∧ s.next = h.next ∧
      ∀ g, g ≠ c → s.obj g = h.obj g ∧ s.link g = h.link g) ks ?_ h h'
    ⟨rfl, rfl, rfl, fun _ _ => ⟨rfl, rfl⟩⟩ e
  intro s a s' _ hs e1
  refine ⟨(Heap.setProp_body e1).trans hs.1, (Heap.setProp_name e1).trans hs.2.1,
    (Heap.setProp_next e1).trans hs.2.2.1, fun g hg => ?_⟩
  exact ⟨(Heap.setProp_obj_other e1 hg).trans (hs.2.2.2 g hg).1,
    (Heap.setProp_link_other e1 hg).trans (hs.2.2.2 g hg).2⟩

/-- An assignment that returns keeps the members at the other keys. -/
theorem Heap.setProp_find?_other {h h' : Heap} {f : Ref} {k x : String} {v : Val}
    (e : h.setProp f k v = Except.ok h') (hx : x ≠ k) :
    Obj.find? (h'.proto f) x = Obj.find? (h.proto f) x := by
  obtain ⟨o, ho, h1 | ⟨_, _, h1⟩⟩ := Heap.setProp_ok e
  · rw [h1, Heap.setObj_proto_self, Heap.proto_of_obj ho, Obj.find?_write]
    have : ¬ k = x := fun e => hx e.symm
    simp [this]
  · rw [h1]; simp

/-- An assignment to a key other than `__proto__` that returns has put the
value at the key. -/
theorem Heap.setProp_find?_self {h h' : Heap} {f : Ref} {k : String} {v : Val}
    (e : h.setProp f k v = Except.ok h') (hk : k ≠ "__proto__") :
    Obj.find? (h'.proto f) k = some v := by
  rw [Heap.setProp_ok_write e hk, Heap.setObj_proto_self, Obj.find?_write]
  simp

/-- After a loop of assignments that returns, every key visited, other than
`__proto__`, holds its value. -/
theorem foldlM_setProp_find? (c : Ref) (val : String → Val) (ks : List String)
    (h h' : Heap) (e : ks.foldlM (fun h k => h.setProp c k (val k)) h = Except.ok h')
    (x : String) (hx : x ≠ "__proto__") :
    Obj.find? (h'.proto c) x = if x ∈ ks then some (val x) else Obj.find? (h.proto c) x := by
  induction ks generalizing h with
  | nil =>
    simp only [List.foldlM, pure, Except.pure] at e
    injection e with e
    subst e
    simp
  | cons k ks ih =>
    simp only [List.foldlM, bind, Except.bind] at e
    cases h1 : h.setProp c k (val k) with
    | error err => simp [h1] at e
    | ok s1 =>
      simp only [h1] at e
      rw [ih s1 e]
      by_cases hm : x ∈ ks
      · simp [hm]
      · by_cases hk : x = k
        · subst hk
          simp [hm, Heap.setProp_find?_self h1 hx]
        · simp [hm, hk, Heap.setProp_find?_other h1 hk]

/-! ## define -/

theorem define_of_ctor (toUpperCase : Char → String) (h : Heap) (name : String) (d : Obj)
    (f : Ref) (hf : Obj.get d (make_name toUpperCase name) = Val.fn f) :
    define toUpperCase h name d
      = (copyDefinition (Obj.remove d (make_name toUpperCase name)) f h).bind
          (fun h1 => (h1.setProp f "_meta" (Val.metaRec (make_name toUpperCase name) none)).bind
            (fun h2 => Except.ok (f, h2))) := by
  simp only [define, hf]
  rfl

theorem define_of_no_ctor (toUpperCase : Char → String) (h : Heap) (name : String) (d : Obj)
    (hf : (Obj.get d (make_name toUpperCase name)).isFunction = false) :
    define toUpperCase h name d
      = (copyDefinition d h.next (h.alloc Body.noop).2).bind
          (fun h1 =>
            (h1.setProp h.next "_meta" (Val.metaRec (make_name toUpperCase name) none)).bind
              (fun h2 => Except.ok (h.next, h2))) := by
  cases hv : Obj.get d (make_name toUpperCase name) with
  | fn f => rw [hv] at hf; simp [Val.isFunction] at hf
  | host k => rw [hv] at hf; simp [Val.isFunction] at hf
  | _ => simp only [define, hv]; rfl

/-- The constructor `define` takes from what the definition inherits: a
built-in method has no prototype object, so the call throws. -/
theorem define_of_host (toUpperCase : Char → String) (h : Heap) (name : String) (d : Obj)
    (k : String) (hf : Obj.get d (make_name toUpperCase name) = Val.host k)
    (hk : k ≠ "constructor") :
    define toUpperCase h name d = Except.error Err.typeError := by
  simp [define, hf, hk]

theorem Heap.alloc_obj_self (h : Heap) (b : Body) : (h.alloc b).2.obj h.next = some [] := by
  simp [Heap.alloc]

theorem Heap.alloc_link_self (h : Heap) (b : Body) : (h.alloc b).2.link h.next = none := by
  simp [Heap.alloc]

theorem Heap.alloc_obj_other (h : Heap) (b : Body) (g : Ref) (hg : g ≠ h.next) :
    (h.alloc b).2.obj g = h.obj g := by
  simp [Heap.alloc, Function.update, hg]

theorem Heap.alloc_link_other (h : Heap) (b : Body) (g : Ref) (hg : g ≠ h.next) :
    (h.alloc b).2.link g = h.link g := by
  simp [Heap.alloc, Function.update, hg]

theorem Heap.alloc_body_self (h : Heap) (b : Body) : (h.alloc b).2.body h.next = b := by
  simp [Heap.alloc]

@[simp] theorem Heap.alloc_name (h : Heap) (b : Body) : (h.alloc b).2.name = h.name := rfl

@[simp] theorem Heap.alloc_next (h : Heap) (b : Body) : (h.alloc b).2.next = h.next + 1 := rfl

@[simp] theorem Heap.alloc_fst (h : Heap) (b : Body) : (h.alloc b).1 = h.next := rfl

/-- What `define` does when the prototype object of the constructor `c`
inherits from `Object.prototype` and the definition `d` copied has no key
`__proto__`. -/
theorem define_tail_plain (d : Obj) (c : Ref) (n : String) (h : Heap) (o : Obj)
    (ho : h.obj c = some o) (hl : h.link c = none) (hp : "__proto__" ∉ Obj.keys d) :
    (copyDefinition d c h).bind
        (fun h1 => (h1.setProp c "_meta" (Val.metaRec n none)).bind
          (fun h2 => Except.ok (c, h2)))
      = Except.ok (c, h.setObj c (Obj.write
          ((Obj.keys d).foldl (fun o k => Obj.write o k (Obj.read d k)) o)
          "_meta" (Val.metaRec n none))) := by
  unfold copyDefinition
  rw [foldlM_setProp_plain c (fun k => Obj.read d k) (Obj.keys d) h o ho hl hp]
  simp only [Except.bind]
  rw [Heap.setProp_meta _ (Heap.setObj_obj_self h c _)]
  simp only [Except.bind, Heap.setObj_setObj]

theorem metaName_setObj_meta (h : Heap) (c : Ref) (o : Obj) (n : String)
    (ps : Option (List (Option Ref))) :
    metaName (h.setObj c (Obj.write o "_meta" (Val.metaRec n ps))) c = Except.ok n := by
  have hf : Obj.find? (Obj.write o "_meta" (Val.metaRec n ps)) "_meta"
      = some (Val.metaRec n ps) := by
    rw [Obj.find?_write]; simp
  rw [metaName_of_find? (Heap.setObj_obj_self h c _) hf]
  rfl

/-- C5 (amended): for a definition `d` without a key `__proto__`, with
`n = make_name name`: when `d` has at `n` a function `f` of the program whose
prototype object inherits from `Object.prototype`, `define` returns `f` itself,
gives it no member under `n` (the prototype yields `f` at `n` afterwards only
if it did before the call), and maps every key of `d` other than `n` and
`_meta` to its member of `d`; when what `d` yields at `n`, a member or what it
inherits from `Object.prototype`, is not callable, `define` returns a new
function whose body is a no-op and maps every key of `d` other than `_meta` to
its member of `d`; in both cases the metadata name is `n`.  When what `d`
yields at `n` is a method of `Object.prototype`, `define` throws a
TypeError. -/
theorem define_spec (toUpperCase : Char → String) (h : Heap) (name : String) (d : Obj)
    (hp : "__proto__" ∉ Obj.keys d) :
    (∀ f o, Obj.read d (make_name toUpperCase name) = Val.fn f →
        h.obj f = some o → h.link f = none →
        ∃ h', define toUpperCase h name d = Except.ok (f, h') ∧
          (h.get f (make_name toUpperCase name) ≠ Except.ok (Val.fn f) →
            h'.get f (make_name toUpperCase name) ≠ Except.ok (Val.fn f)) ∧
          (∀ k, k ∈ Obj.keys d → k ≠ make_name toUpperCase name → k ≠ "_meta" →
            Obj.read (h'.proto f) k = Obj.read d k) ∧
          metaName h' f = Except.ok (make_name toUpperCase name)) ∧
    ((Obj.get d (make_name toUpperCase name)).isFunction = false →
        ∃ h', define toUpperCase h name d = Except.ok (h.next, h') ∧
          (∀ (σ : Type) (call : Ref → Effect σ) (userEffect : Effect σ) (this : σ)
              (arguments : List Val),
            Body.run call userEffect (h'.body h.next) this arguments = Except.ok this) ∧
          (∀ k, k ∈ Obj.keys d → k ≠ "_meta" →
            Obj.read (h'.proto h.next) k = Obj.read d k) ∧
          metaName h' h.next = Except.ok (make_name toUpperCase name)) ∧
    (∀ k, Obj.get d (make_name toUpperCase name) = Val.host k → k ≠ "constructor" →
        define toUpperCase h name d = Except.error Err.typeError) := by
  refine ⟨fun f o hf ho hl => ?_, fun hf => ?_,
    fun k hk hne => define_of_host toUpperCase h name d k hk hne⟩
  · have hf' : Obj.find? d (make_name toUpperCase name) = some (Val.fn f) := by
      unfold Obj.read at hf
      cases hx : Obj.find? d (make_name toUpperCase name) with
      | none => rw [hx] at hf; exact absurd hf (by simp)
      | some v => rw [hx] at hf; simp at hf; rw [hf]
    have hp' : "__proto__" ∉ Obj.keys (Obj.remove d (make_name toUpperCase name)) :=
      fun e => hp ((Obj.mem_keys_remove _ _ _).1 e).1
    have e : define toUpperCase h name d = _ :=
      (define_of_ctor toUpperCase h name d f (Obj.get_of_find? hf')).trans
        (define_tail_plain _ f _ h o ho hl hp')
    refine ⟨_, e, ?_, ?_, ?_⟩
    · intro hno hyes
      rw [Heap.get_plain _ (Heap.setObj_obj_self h f _) (by simpa using hl)] at hyes
      injection hyes with hyes
      apply hno
      rw [Heap.get_plain _ ho hl]
      by_cases h1 : "_meta" = make_name toUpperCase name
      · have hm : Obj.find? (Obj.write
            ((Obj.keys (Obj.remove d (make_name toUpperCase name))).foldl
              (fun o k => Obj.write o k (Obj.read (Obj.remove d (make_name toUpperCase name)) k))
              o) "_meta" (Val.metaRec (make_name toUpperCase name) none))
            (make_name toUpperCase name)
            = some (Val.metaRec (make_name toUpperCase name) none) := by
          rw [Obj.find?_write, if_pos h1]
        rw [Obj.lookup_of_find? hm] at hyes
        exact Val.noConfusion hyes
      · have h2 : make_name toUpperCase name
            ∉ Obj.keys (Obj.remove d (make_name toUpperCase name)) :=
          fun e => ((Obj.mem_keys_remove _ _ _).1 e).2 rfl
        have hfe : Obj.find? (Obj.write
            ((Obj.keys (Obj.remove d (make_name toUpperCase name))).foldl
              (fun o k => Obj.write o k (Obj.read (Obj.remove d (make_name toUpperCase name)) k))
              o) "_meta" (Val.metaRec (make_name toUpperCase name) none))
            (make_name toUpperCase name) = Obj.find? o (make_name toUpperCase name) := by
          rw [Obj.find?_write, if_neg h1, foldl_write_find?, if_neg h2]
        rw [Obj.lookup_congr hfe] at hyes
        rw [hyes]
    · intro k hk hkn hkm
      rw [Heap.setObj_proto_self]
      unfold Obj.read
      rw [Obj.find?_write, foldl_write_find?]
      have h1 : ¬ "_meta" = k := fun e => hkm e.symm
      have h2 : k ∈ Obj.keys (Obj.remove d (make_name toUpperCase name)) :=
        (Obj.mem_keys_remove _ _ _).2 ⟨hk, hkn⟩
      simp only [h1, h2, if_false, if_true, Option.getD_some]
      have := Obj.read_remove d (make_name toUpperCase name) k
      simp only [hkn, if_false] at this
      exact this
    · exact metaName_setObj_meta _ _ _ _ _
  · have e : define toUpperCase h name d = _ :=
      (define_of_no_ctor toUpperCase h name d hf).trans
        (define_tail_plain _ h.next _ _ [] (Heap.alloc_obj_self h _)
          (Heap.alloc_link_self h _) hp)
    refine ⟨_, e, ?_, ?_, ?_⟩
    · intro σ call userEffect this arguments
      simp [Heap.alloc_body_self, Body.run]
    · intro k hk hkm
      rw [Heap.setObj_proto_self]
      unfold Obj.read
      rw [Obj.find?_write, foldl_write_find?]
      have h1 : ¬ "_meta" = k := fun e => hkm e.symm
      simp only [h1, hk, if_false, if_true, Option.getD_some]
    · exact metaName_setObj_meta _ _ _ _ _

/-- C5, witness: the class `classD` of the test `classy.fork`, whose constructor
is given in the definition, with a further member. -/
theorem define_spec_witness :
    "__proto__" ∉ Obj.keys [("classD", Val.fn 1), ("x", Val.num 5)] ∧
      ∃ h', define asciiUpper (Heap.init 10) "classD" [("classD", Val.fn 1), ("x", Val.num 5)]
          = Except.ok (1, h') ∧
        Obj.read (h'.proto 1) "x" = Val.num 5 ∧ metaName h' 1 = Except.ok "classD" := by
  refine ⟨by decide, ?_⟩
  obtain ⟨h', e, _, h2, h3⟩ :=
    (define_spec asciiUpper (Heap.init 10) "classD" [("classD", Val.fn 1), ("x", Val.num 5)]
      (by decide)).1 1 [] (by decide) rfl rfl
  exact ⟨h', e, h2 "x" (by decide) (by decide) (by decide), h3⟩

/-- C5 as stated fails: (1) after `define("A", {A: f, B: f})`, the call
`define("B", {B: f})` returns `f`, whose prototype still carries `f` under `B`;
(2) for the name `toString` and a definition without such a member, what the
definition yields at the name is the method it inherits from
`Object.prototype`, which has no prototype object, and `define` throws; (3) a
member `__proto__` of the definition is handed to the host's setter, which
ignores the number `5`: the prototype gets no such member, and reading the key
yields `Object.prototype`; (4) after `define("constructor", {constructor: f})`
for the function `f = 1` the prototype of the class `f` yields `f` at the name,
`constructor`, as the prototype of every function does. -/
theorem define_reused_constructor_keeps_member :
    (Obj.read [("B", Val.fn 0)] (make_name asciiUpper "B") = Val.fn 0 ∧
      (orInit (define asciiUpper Example.reused "B" [("B", Val.fn 0)])).1 = 0 ∧
      Obj.read ((orInit (define asciiUpper Example.reused "B" [("B", Val.fn 0)])).2.proto 0)
        (make_name asciiUpper "B") = Val.fn 0) ∧
    ((Obj.read [] (make_name asciiUpper "toString")).isFunction = false ∧
      errorOf (define asciiUpper (Heap.init 10) "toString" []) = some Err.typeError) ∧
    (protoOf (define asciiUpper (Heap.init 10) "A" [("__proto__", Val.num 5)])
        = some [("_meta", Val.metaRec "A" none)] ∧
      (orInit (define asciiUpper (Heap.init 10) "A" [("__proto__", Val.num 5)])).2.get 10
        "__proto__" = Except.ok Val.objectPrototype) ∧
    (Obj.read [("constructor", Val.fn 1)] (make_name asciiUpper "constructor") = Val.fn 1 ∧
      Example.named.1 = 1 ∧
      Example.named.2.get 1 (make_name asciiUpper "constructor") = Except.ok (Val.fn 1)) := by
  decide

/-! ## Qualified names -/

theorem qualified_length (n k : String) :
    (n ++ "_" ++ k).length = n.length + 1 + k.length := by
  have h1 : "_".length = 1 := by decide
  simp [String.length_append, h1]

theorem qualified_ne_key (n k : String) : n ++ "_" ++ k ≠ k := by
  intro e
  have := congrArg String.length e
  rw [qualified_length] at this
  omega

theorem qualified_ne_name (n k : String) : n ++ "_" ++ k ≠ n := by
  intro e
  have := congrArg String.length e
  rw [qualified_length] at this
  omega

theorem qualified_inj (n k k' : String) (e : n ++ "_" ++ k = n ++ "_" ++ k') : k = k' := by
  have h1 := congrArg String.data e
  simp only [String.data_append, List.append_assoc] at h1
  have h2 := List.append_cancel_left h1
  have h3 := List.append_cancel_left h2
  exact String.ext h3

/-! ## override -/

/-- The value read at a key depends on the member at the key and on what the
prototype object inherits from. -/
theorem Heap.get_congr_find? {h h' : Heap} {f : Ref} {o o' : Obj} (k : String)
    (ho : h.obj f = some o) (ho' : h'.obj f = some o')
    (hf : Obj.find? o' k = Obj.find? o k) (hl : h'.link f = h.link f) :
    h'.get f k = h.get f k := by
  unfold Heap.get
  rw [ho, ho', hl]
  simp only [hf]

/-- An assignment to a qualified name returns. -/
theorem Heap.setProp_qualified_total {h : Heap} {f : Ref} {o : Obj} (n a : String) (v : Val)
    (ho : h.obj f = some o) : ∃ h', h.setProp f (n ++ "_" ++ a) v = Except.ok h' := by
  by_cases hk : n ++ "_" ++ a = "__proto__"
  · unfold Heap.setProp
    rw [ho]
    simp only [hk]
    split
    · exact ⟨_, rfl⟩
    · exact ⟨_, rfl⟩
  · exact ⟨_, Heap.setProp_qualified n a v ho hk⟩

/-- After a function was assigned to a key, reading the key yields it: it is a
member, or what the prototype object inherits from. -/
theorem Heap.setProp_get_fn {h h' : Heap} {f : Ref} {k : String} {g : Ref}
    (e : h.setProp f k (Val.fn g) = Except.ok h') : h'.get f k = Except.ok (Val.fn g) := by
  obtain ⟨o, ho, h1 | ⟨hk, hno, h1⟩⟩ := Heap.setProp_ok e
  · rw [h1]
    exact Heap.get_own (Heap.setObj_obj_self h f _) (by rw [Obj.find?_write]; simp)
  · subst hk
    have hfn : Obj.find? o "__proto__" = none := Obj.find?_eq_none hno
    have hc : ("__proto__" : String) ≠ "constructor" := by decide
    rw [h1]
    simp [Heap.get, Heap.setLink, ho, hfn, hc]

/-- An assignment that returns keeps the members the prototype object has. -/
theorem Heap.setProp_has {h h' : Heap} {f : Ref} {k a : String} {v : Val}
    (e : h.setProp f k v = Except.ok h') (ha : Obj.has (h.proto f) a = true) :
    ∃ o', h'.obj f = some o' ∧ Obj.has o' a = true := by
  obtain ⟨o, ho, h1 | ⟨_, _, h1⟩⟩ := Heap.setProp_ok e
  · refine ⟨_, by rw [h1]; exact Heap.setObj_obj_self h f _, ?_⟩
    rw [Obj.has_write]
    rw [Heap.proto_of_obj ho] at ha
    simp [ha]
  · refine ⟨o, by rw [h1]; simpa using ho, ?_⟩
    rw [Heap.proto_of_obj ho] at ha
    exact ha

/-! ## override on a prototype object that inherits from `Object.prototype` -/

theorem override_eq (h : Heap) (c : Ref) (o : Obj) (k n : String) (v : Val)
    (ho : h.obj c = some o) (hl : h.link c = none) (hn : metaName h c = Except.ok n)
    (hk : k ≠ "__proto__") (hq : n ++ "_" ++ k ≠ "__proto__") :
    override h c k v = Except.ok (h.setObj c (Obj.override n c o k v)) := by
  unfold override Obj.override
  simp only [Heap.get_plain k ho hl, bind, Except.bind]
  by_cases ht : (Obj.lookup c o k).truthy = true
  · simp only [ht, if_true, hn, Heap.setProp_plain _ ho hl hq]
    rw [Heap.setProp_plain v (Heap.setObj_obj_self h c _) (by simpa using hl) hk,
      Heap.setObj_setObj]
  · simp only [ht]
    exact Heap.setProp_plain v ho hl hk

theorem Obj.find?_override_other (n : String) (c : Ref) (o : Obj) (k x : String) (v : Val)
    (h1 : x ≠ k) (h2 : x ≠ n ++ "_" ++ k) :
    Obj.find? (Obj.override n c o k v) x = Obj.find? o x := by
  have h1' : ¬ k = x := fun e => h1 e.symm
  have h2' : ¬ n ++ "_" ++ k = x := fun e => h2 e.symm
  unfold Obj.override
  split <;> simp [Obj.find?_write, h1', h2']

theorem Obj.find?_override_self (n : String) (c : Ref) (o : Obj) (k : String) (v : Val) :
    Obj.find? (Obj.override n c o k v) k = some v := by
  unfold Obj.override
  split <;> simp [Obj.find?_write]

theorem Obj.find?_override_backup (n : String) (c : Ref) (o : Obj) (k : String) (v : Val) :
    Obj.find? (Obj.override n c o k v) (n ++ "_" ++ k)
      = if (Obj.lookup c o k).truthy = true then some (Obj.lookup c o k)
        else Obj.find? o (n ++ "_" ++ k) := by
  have hq : ¬ k = n ++ "_" ++ k := fun e => qualified_ne_key n k e.symm
  unfold Obj.override
  by_cases ht : (Obj.lookup c o k).truthy = true
  · simp [ht, Obj.find?_write, hq]
  · simp [ht, Obj.find?_write, hq]

theorem metaName_override {h : Heap} {c : Ref} {o : Obj} {n : String} (k : String) (v : Val)
    (ho : h.obj c = some o) (hn : metaName h c = Except.ok n)
    (hk : k ≠ "_meta") (hq : n ++ "_" ++ k ≠ "_meta") :
    metaName (h.setObj c (Obj.override n c o k v)) c = Except.ok n := by
  obtain ⟨o1, mv, ho1, hf1, hv1⟩ := metaName_ok hn
  rw [ho] at ho1
  injection ho1 with ho1
  subst ho1
  have hf2 : Obj.find? (Obj.override n c o k v) "_meta" = some mv := by
    rw [Obj.find?_override_other n c o k "_meta" _ (fun e => hk e.symm) (fun e => hq e.symm)]
    exact hf1
  rw [metaName_of_find? (Heap.setObj_obj_self h c _) hf2]
  exact (Val.nameOf_congr mv rfl).trans hv1

/-- C6: for a class `A` with metadata name `n` whose prototype holds a method
`f` at key `a`, `override(A, a, g)` returns and afterwards the prototype holds
`g` at `a`, and reading the key `n_a` of the prototype yields `f`; `f` is the
member at `n_a`, unless `n_a` is the key `__proto__`, which the host keeps as
what the prototype object inherits from. -/
theorem override_backs_up (h : Heap) (A : Ref) (a n : String) (f : Ref) (g : Val)
    (hn : metaName h A = Except.ok n)
    (hf : Obj.read (h.proto A) a = Val.fn f) :
    ∃ h', override h A a g = Except.ok h' ∧
      Obj.read (h'.proto A) a = g ∧
      h'.get A (n ++ "_" ++ a) = Except.ok (Val.fn f) ∧
      (n ++ "_" ++ a ≠ "__proto__" →
        Obj.read (h'.proto A) (n ++ "_" ++ a) = Val.fn f) := by
  obtain ⟨o, mv, ho, _, _⟩ := metaName_ok hn
  have hfa : Obj.find? o a = some (Val.fn f) := by
    rw [Heap.proto_of_obj ho] at hf
    unfold Obj.read at hf
    cases hx : Obj.find? o a with
    | none => rw [hx] at hf; exact absurd hf (by simp)
    | some v => rw [hx] at hf; simp at hf; rw [hf]
  have hg : h.get A a = Except.ok (Val.fn f) := Heap.get_own ho hfa
  obtain ⟨h1, e1⟩ := Heap.setProp_qualified_total n a (Val.fn f) ho
  obtain ⟨o1, ho1, ha1⟩ := Heap.setProp_has e1
    (by rw [Heap.proto_of_obj ho]; exact Obj.has_of_find? hfa)
  have e2 := Heap.setProp_own g ho1 ha1
  have hne : ¬ a = n ++ "_" ++ a := fun e => qualified_ne_key n a e.symm
  have hfe : Obj.find? (Obj.write o1 a g) (n ++ "_" ++ a) = Obj.find? o1 (n ++ "_" ++ a) := by
    rw [Obj.find?_write]; simp [hne]
  refine ⟨h1.setObj A (Obj.write o1 a g), ?_, ?_, ?_, ?_⟩
  · simp only [override, hg, hn, bind, Except.bind, Val.truthy, if_true, e1]
    exact e2
  · simp [Obj.read, Obj.find?_write]
  · rw [Heap.get_congr_find? (n ++ "_" ++ a) ho1 (Heap.setObj_obj_self h1 A _) hfe (by simp)]
    exact Heap.setProp_get_fn e1
  · intro hq
    rw [Heap.setObj_proto_self]
    unfold Obj.read
    rw [hfe, ← Heap.proto_of_obj ho1, Heap.setProp_find?_self e1 hq]
    rfl

/-- After an assignment that returns, the key holds the value, or the
prototype object has no member at the key. -/
theorem Heap.setProp_find?_self_or {h h' : Heap} {f : Ref} {k : String} {v : Val}
    (e : h.setProp f k v = Except.ok h') :
    Obj.find? (h'.proto f) k = some v ∨ Obj.find? (h'.proto f) k = none := by
  obtain ⟨o, ho, h1 | ⟨_, hno, h1⟩⟩ := Heap.setProp_ok e
  · left
    rw [h1, Heap.setObj_proto_self, Obj.find?_write]
    simp
  · right
    rw [h1, Heap.setLink_proto, Heap.proto_of_obj ho]
    exact Obj.find?_eq_none hno

theorem Heap.obj_of_proto_find? {h : Heap} {f : Ref} {k : String} {v : Val}
    (hf : Obj.find? (h.proto f) k = some v) : h.obj f = some (h.proto f) := by
  unfold Heap.proto at hf ⊢
  cases ho : h.obj f with
  | none => rw [ho] at hf; simp [Obj.find?] at hf
  | some o => simp

/-- C7 (amended): for a class `A` with metadata name `n` whose prototype object
inherits from `Object.prototype` and has no member `__proto__`, which has the
member `f` at key `a` and yields `f` at no other key, when neither `a` nor
`n_a` is the key `_meta` and `n_a` is not `__proto__`, `override(A, a, g)`
followed by `override(A, a, v)`, with `g` a function other than `f` and `v` any
value other than `f`, leaves `v` at `a` and `g` at `n_a`, and the prototype
yields `f` at no key. -/
theorem override_twice_keeps_last_backup (h : Heap) (A : Ref) (a n : String) (f g : Ref)
    (v : Val)
    (hn : metaName h A = Except.ok n)
    (hpl : Heap.plain h A)
    (hf : Obj.read (h.proto A) a = Val.fn f)
    (honly : ∀ k, k ≠ a → h.get A k ≠ Except.ok (Val.fn f))
    (hg : g ≠ f) (hv : v ≠ Val.fn f)
    (ha : a ≠ "_meta") (hcol : n ++ "_" ++ a ≠ "_meta")
    (hq : n ++ "_" ++ a ≠ "__proto__") :
    ∃ h1 h2, override h A a (Val.fn g) = Except.ok h1 ∧ override h1 A a v = Except.ok h2 ∧
      Obj.read (h2.proto A) a = v ∧
      Obj.read (h2.proto A) (n ++ "_" ++ a) = Val.fn g ∧
      ∀ k, h2.get A k ≠ Except.ok (Val.fn f) := by
  obtain ⟨o, ho⟩ : ∃ o, h.obj A = some o := by
    have h1 := hpl.1
    cases hx : h.obj A with
    | none => rw [hx] at h1; simp at h1
    | some o => exact ⟨o, rfl⟩
  have hl : h.link A = none := hpl.2.2
  have hpo : h.proto A = o := Heap.proto_of_obj ho
  have hfa : Obj.find? o a = some (Val.fn f) := by
    rw [hpo] at hf
    unfold Obj.read at hf
    cases hx : Obj.find? o a with
    | none => rw [hx] at hf; exact absurd hf (by simp)
    | some v => rw [hx] at hf; simp at hf; rw [hf]
  have hpa : a ≠ "__proto__" := by
    intro e
    have h2 := hpl.2.1
    rw [hpo, e.symm, Obj.has_of_find? hfa] at h2
    exact absurd h2 (by simp)
  have hne : a ≠ n ++ "_" ++ a := fun e => qualified_ne_key n a e.symm
  have e1 := override_eq h A o a n (Val.fn g) ho hl hn hpa hq
  have hn1 := metaName_override a (Val.fn g) ho hn ha hcol
  have hl1 : (h.setObj A (Obj.override n A o a (Val.fn g))).link A = none := by simpa using hl
  have e2 := override_eq (h.setObj A (Obj.override n A o a (Val.fn g))) A
    (Obj.override n A o a (Val.fn g)) a n v (Heap.setObj_obj_self h A _) hl1 hn1 hpa hq
  rw [Heap.setObj_setObj] at e2
  have l1 : Obj.lookup A (Obj.override n A o a (Val.fn g)) a = Val.fn g :=
    Obj.lookup_of_find? (Obj.find?_override_self n A o a (Val.fn g))
  have r2 : Obj.find? (Obj.override n A (Obj.override n A o a (Val.fn g)) a v) a = some v :=
    Obj.find?_override_self _ _ _ _ _
  have q2 : Obj.find? (Obj.override n A (Obj.override n A o a (Val.fn g)) a v)
      (n ++ "_" ++ a) = some (Val.fn g) := by
    rw [Obj.find?_override_backup, l1]
    rfl
  refine ⟨_, _, e1, e2, ?_, ?_, ?_⟩
  · rw [Heap.setObj_proto_self]; exact Obj.read_of_find? r2
  · rw [Heap.setObj_proto_self]; exact Obj.read_of_find? q2
  · intro k e
    rw [Heap.get_plain k (Heap.setObj_obj_self h A _) (by simpa using hl)] at e
    injection e with e
    by_cases hka : k = a
    · rw [hka, Obj.lookup_of_find? r2] at e
      exact hv e
    · by_cases hkq : k = n ++ "_" ++ a
      · rw [hkq, Obj.lookup_of_find? q2] at e
        injection e with e
        exact hg e
      · have hfe : Obj.find? (Obj.override n A (Obj.override n A o a (Val.fn g)) a v) k
            = Obj.find? o k :=
          (Obj.find?_override_other n A _ a k v hka hkq).trans
            (Obj.find?_override_other n A o a k (Val.fn g) hka hkq)
        rw [Obj.lookup_congr hfe] at e
        apply honly k hka
        rw [Heap.get_plain k ho hl, e]

/-! ## define_or_fork -/

/-- C10 (amended): `define_or_fork` returns a new function with a no-op body
and an empty prototype when the definition is absent or the name is falsy
(absent, or the empty string); it returns exactly `define(name, definition)`
when the name is a non-empty string, the definition is present and the source
is absent; and exactly `fork(name, definition, source)` when the name is a
non-empty string and definition and source are present. -/
theorem define_or_fork_cases (toUpperCase : Char → String) (h : Heap) :
    (∀ name source, define_or_fork toUpperCase h name none source
        = Except.ok (h.alloc Body.noop)) ∧
    (∀ name d source, name.truthy = false →
        define_or_fork toUpperCase h name (some d) source = Except.ok (h.alloc Body.noop)) ∧
    ((h.alloc Body.noop).2.proto (h.alloc Body.noop).1 = [] ∧
      (h.alloc Body.noop).2.body (h.alloc Body.noop).1 = Body.noop) ∧
    (∀ s d, s ≠ "" →
        define_or_fork toUpperCase h (Val.str s) (some d) Parents.absent
          = define toUpperCase h s d) ∧
    (∀ s d source, s ≠ "" → source ≠ Parents.absent →
        define_or_fork toUpperCase h (Val.str s) (some d) source
          = fork toUpperCase h s d source) := by
  refine ⟨?_, ?_, ?_, ?_, ?_⟩
  · intro name source
    rfl
  · intro name d source ht
    simp [define_or_fork, ht, pure, Except.pure]
  · simp [Heap.alloc, Heap.proto]
  · intro s d hs
    simp [define_or_fork, Val.truthy, hs]
  · intro s d source hs hsrc
    cases source with
    | absent => exact absurd rfl hsrc
    | cls f => simp [define_or_fork, Val.truthy, hs]
    | list ps => simp [define_or_fork, Val.truthy, hs]

/-- C6, witness: a class `A` with the method `m`, overridden once. -/
theorem override_backs_up_witness :
    ∃ h', override Example.oneMethod.2 10 "m" (Val.fn 2) = Except.ok h' ∧
      Obj.read (h'.proto 10) "m" = Val.fn 2 ∧
      h'.get 10 ("A" ++ "_" ++ "m") = Except.ok (Val.fn 1) ∧
      Obj.read (h'.proto 10) ("A" ++ "_" ++ "m") = Val.fn 1 := by
  obtain ⟨h', e, h1, h2, h3⟩ :=
    override_backs_up Example.oneMethod.2 10 "m" "A" 1 (Val.fn 2) (by decide) (by decide)
  exact ⟨h', e, h1, h2, h3 (by decide)⟩

/-- C7, witness: a class `A` with the method `m`, overridden twice. -/
theorem override_twice_keeps_last_backup_witness :
    ∃ h1 h2, override Example.oneMethod.2 10 "m" (Val.fn 2) = Except.ok h1 ∧
      override h1 10 "m" (Val.fn 3) = Except.ok h2 ∧
      Obj.read (h2.proto 10) "m" = Val.fn 3 ∧
      Obj.read (h2.proto 10) ("A" ++ "_" ++ "m") = Val.fn 2 ∧
      ∀ k, h2.get 10 k ≠ Except.ok (Val.fn 1) :=
  override_twice_keeps_last_backup Example.oneMethod.2 10 "m" "A" 1 2 (Val.fn 3)
    (by decide) (by decide) (by decide)
    (by
      intro k hk e
      have ho : Example.oneMethod.2.obj 10
          = some [("m", Val.fn 1), ("_meta", Val.metaRec "A" none)] := by decide
      have hl : Example.oneMethod.2.link 10 = none := by decide
      rw [Heap.get_plain k ho hl] at e
      injection e with e
      have hk' : ¬ "m" = k := fun e => hk e.symm
      unfold Obj.lookup at e
      by_cases h2 : "_meta" = k
      · simp [Obj.find?, hk', h2] at e
      · simp only [Obj.find?, hk', h2, if_false] at e
        by_cases h3 : k = "constructor"
        · simp [h3] at e
        · simp only [h3, if_false] at e
          exact inherited_ne_fn k 1 e)
    (by decide) (by decide) (by decide) (by decide) (by decide)

/-- C7 as stated fails: for the class with the empty name whose prototype holds
at `meta`, and at no other key, the function `f = 1`, which the host named
`meta`, the first `override` stores `f` under `_meta`, the key `n_a`, where it
replaces the metadata record; the second then qualifies its backup with the
name of the function `f` and stores `g = 2` under `meta_meta`: `f` stays at
`_meta`. -/
theorem override_twice_fails :
    Example.emptyNameLiteral.2.proto 10
        = [("meta", Val.fn 1), ("_meta", Val.metaRec "" none)] ∧
      metaName Example.emptyNameLiteral.2 10 = Except.ok "" ∧
      "" ++ "_" ++ "meta" = "_meta" ∧
      protoOf ((override Example.emptyNameLiteral.2 10 "meta" (Val.fn 2)).bind
          (fun h1 => (override h1 10 "meta" (Val.fn 3)).map (fun h2 => (10, h2))))
        = some [("meta", Val.fn 3), ("_meta", Val.fn 1), ("meta_meta", Val.fn 2)] := by
  decide

/-- C10, witness: a definition without a source, one with the class `1` as
source, and a missing name. -/
theorem define_or_fork_cases_witness :
    define_or_fork asciiUpper (Heap.init 10) (Val.str "A") (some [("hello", Val.fn 1)])
        Parents.absent
        = define asciiUpper (Heap.init 10) "A" [("hello", Val.fn 1)] ∧
      define_or_fork asciiUpper (Heap.init 10) (Val.str "B") (some [("hello", Val.fn 2)])
        (Parents.cls 1)
        = fork asciiUpper (Heap.init 10) "B" [("hello", Val.fn 2)] (Parents.cls 1) ∧
      define_or_fork asciiUpper (Heap.init 10) Val.undefined (some [("hello", Val.fn 2)])
        Parents.absent = Except.ok ((Heap.init 10).alloc Body.noop) :=
  ⟨(define_or_fork_cases asciiUpper (Heap.init 10)).2.2.2.1 "A" _ (by decide),
    (define_or_fork_cases asciiUpper (Heap.init 10)).2.2.2.2 "B" _ _ (by decide) (by decide),
    (define_or_fork_cases asciiUpper (Heap.init 10)).2.1 Val.undefined _ _ (by decide)⟩

/-- C10 as stated fails: with the empty string as name, a definition present
and no source, `define_or_fork` returns a class with an empty prototype, while
`define` returns a class that has the member of the definition. -/
theorem define_or_fork_empty_name :
    protoOf (define_or_fork asciiUpper (Heap.init 10) (Val.str "") (some [("x", Val.num 1)])
        Parents.absent) = some [] ∧
      protoOf (define asciiUpper (Heap.init 10) "" [("x", Val.num 1)])
        = some [("x", Val.num 1), ("_meta", Val.metaRec "" none)] := by
  decide

/-! ## fork: assignments during a round of the parents loop -/

theorem ForkSafe.write {c p : Ref} {n : String} {h : Heap} (hs : ForkSafe c p n h)
    (k : String) (v : Val) (hk : k ≠ "__proto__")
    (hm : c = p →
      Obj.find? (Obj.write (h.proto c) k v) "_meta" = Obj.find? (h.proto c) "_meta") :
    h.setProp c k v = Except.ok (h.setObj c (Obj.write (h.proto c) k v)) ∧
      ForkSafe c p n (h.setObj c (Obj.write (h.proto c) k v)) ∧
      ∀ x, Obj.find? ((h.setObj c (Obj.write (h.proto c) k v)).proto p) x
        = if c = p ∧ k = x then some v else Obj.find? (h.proto p) x := by
  obtain ⟨⟨oc, hoc⟩, hlc, ⟨op, hop⟩, hlp, hn⟩ := hs
  have hpc : h.proto c = oc := Heap.proto_of_obj hoc
  refine ⟨?_, ⟨⟨_, Heap.setObj_obj_self h c _⟩, by simpa using hlc, ?_, by simpa using hlp, ?_⟩,
    ?_⟩
  · rw [hpc]; exact Heap.setProp_plain v hoc hlc hk
  · by_cases hcp : p = c
    · rw [hcp]; exact ⟨_, Heap.setObj_obj_self h c _⟩
    · exact ⟨op, by rw [Heap.setObj_obj_other h c p _ hcp]; exact hop⟩
  · by_cases hcp : c = p
    · subst hcp
      obtain ⟨o, mv, ho, hmv, hnm⟩ := metaName_ok hn
      have hm' := hm rfl
      rw [Heap.proto_of_obj ho] at hm' 
      have hpc' : h.proto c = o := Heap.proto_of_obj ho
      rw [hpc'] 
      rw [metaName_of_find? (Heap.setObj_obj_self h c _) (hm'.trans hmv),
        Val.nameOf_congr mv (Heap.setObj_name h c _)]
      exact hnm
    · have hpc' : p ≠ c := fun e => hcp e.symm
      rw [metaName_congr (Heap.setObj_obj_other h c p _ hpc') (by simp) (by simp)]
      exact hn
  · intro x
    by_cases hcp : c = p
    · subst hcp
      rw [Heap.setObj_proto_self, Obj.find?_write]
      by_cases hkx : k = x <;> simp [hkx]
    · have hpc' : p ≠ c := fun e => hcp e.symm
      rw [Heap.setObj_proto_other h c p _ hpc']
      simp [hcp]

theorem ForkSafe.get_c {c p : Ref} {n : String} {h : Heap} (hs : ForkSafe c p n h)
    (k : String) : h.get c k = Except.ok (Obj.lookup c (h.proto c) k) := by
  obtain ⟨⟨oc, hoc⟩, hlc, _⟩ := hs
  rw [Heap.proto_of_obj hoc]
  exact Heap.get_plain k hoc hlc

theorem ForkSafe.get_p {c p : Ref} {n : String} {h : Heap} (hs : ForkSafe c p n h)
    (k : String) : h.get p k = Except.ok (Obj.lookup p (h.proto p) k) := by
  obtain ⟨_, _, ⟨op, hop⟩, hlp, _⟩ := hs
  rw [Heap.proto_of_obj hop]
  exact Heap.get_plain k hop hlp

theorem find?_write_meta {o : Obj} {k : String} (v : Val) (hk : k ≠ "_meta") :
    Obj.find? (Obj.write o k v) "_meta" = Obj.find? o "_meta" := by
  rw [Obj.find?_write]
  simp [hk]

/-- One round of the definition loop of `fork`: it returns and acts on the
members of the prototype object of the constructor as `Obj.forkStep` says. -/
theorem forkStep_safe (d : Obj) {c p : Ref} {n : String} {h : Heap} (hs : ForkSafe c p n h)
    (k : String) (hk : k ≠ "__proto__") (hq : n ++ "_" ++ k ≠ "__proto__")
    (hal : c = p → k ≠ "_meta" ∧ n ++ "_" ++ k ≠ "_meta") :
    ∃ h', forkStep d c p h k = Except.ok h' ∧ ForkSafe c p n h' ∧
      h'.proto c = Obj.forkStep d n c (Obj.lookup p (h.proto p) k) (h.proto c) k ∧
      h'.body = h.body ∧ h'.name = h.name ∧ h'.next = h.next ∧
      (∀ g, g ≠ c → h'.obj g = h.obj g ∧ h'.link g = h.link g) := by
  by_cases hfn : (Obj.lookup c (h.proto c) k).isFunction = true
  · obtain ⟨e1, s1, _⟩ := hs.write (n ++ "_" ++ k) (Obj.lookup p (h.proto p) k) hq
      (fun e => find?_write_meta _ (hal e).2)
    obtain ⟨e2, s2, _⟩ := s1.write k (Obj.read d k) hk
      (fun e => find?_write_meta _ (hal e).1)
    rw [Heap.setObj_proto_self, Heap.setObj_setObj] at e2 s2
    refine ⟨_, ?_, s2, ?_, rfl, rfl, rfl, fun g hg => ⟨Heap.setObj_obj_other h c g _ hg, rfl⟩⟩
    · simp only [forkStep, hs.get_c, hs.get_p, hs.2.2.2.2, bind, Except.bind, hfn, if_true, e1]
      rw [e2]
    · rw [Heap.setObj_proto_self]
      simp [Obj.forkStep, hfn]
  · obtain ⟨e2, s2, _⟩ := hs.write k (Obj.read d k) hk (fun e => find?_write_meta _ (hal e).1)
    refine ⟨_, ?_, s2, ?_, rfl, rfl, rfl, fun g hg => ⟨Heap.setObj_obj_other h c g _ hg, rfl⟩⟩
    · simp only [forkStep, hs.get_c, bind, Except.bind, hfn]
      exact e2
    · rw [Heap.setObj_proto_self]
      simp [Obj.forkStep, hfn]

theorem Obj.find?_forkStep_other (d : Obj) (n : String) (c : Ref) (old : Val) (o : Obj)
    (k x : String) (h1 : x ≠ k) (h2 : x ≠ n ++ "_" ++ k) :
    Obj.find? (Obj.forkStep d n c old o k) x = Obj.find? o x := by
  have h1' : ¬ k = x := fun e => h1 e.symm
  have h2' : ¬ n ++ "_" ++ k = x := fun e => h2 e.symm
  unfold Obj.forkStep
  split <;> simp [Obj.find?_write, h1', h2']

theorem Obj.find?_forkStep_self (d : Obj) (n : String) (c : Ref) (old : Val) (o : Obj)
    (k : String) : Obj.find? (Obj.forkStep d n c old o k) k = some (Obj.read d k) := by
  unfold Obj.forkStep
  split <;> simp [Obj.find?_write]

theorem Obj.find?_forkStep_backup (d : Obj) (n : String) (c : Ref) (old : Val) (o : Obj)
    (k : String) (hf : (Obj.lookup c o k).isFunction = true) :
    Obj.find? (Obj.forkStep d n c old o k) (n ++ "_" ++ k) = some old := by
  have h1 : ¬ k = n ++ "_" ++ k := fun e => qualified_ne_key n k e.symm
  unfold Obj.forkStep
  simp [hf, Obj.find?_write, h1]

/-! ## fork: the loops of a round -/

theorem Heap.Frame.refl (c : Ref) (h : Heap) : Heap.Frame c h h :=
  ⟨rfl, rfl, rfl, fun _ _ => ⟨rfl, rfl⟩⟩

theorem Heap.Frame.trans {c : Ref} {h1 h2 h3 : Heap} (a : Heap.Frame c h1 h2)
    (b : Heap.Frame c h2 h3) : Heap.Frame c h1 h3 :=
  ⟨b.1.trans a.1, b.2.1.trans a.2.1, b.2.2.1.trans a.2.2.1,
    fun g hg => ⟨(b.2.2.2 g hg).1.trans (a.2.2.2 g hg).1,
      (b.2.2.2 g hg).2.trans (a.2.2.2 g hg).2⟩⟩

theorem Heap.Frame.setObj (c : Ref) (h : Heap) (o : Obj) : Heap.Frame c h (h.setObj c o) :=
  ⟨rfl, rfl, rfl, fun g hg => ⟨Heap.setObj_obj_other h c g o hg, rfl⟩⟩

theorem Heap.Frame.proto {c : Ref} {h h' : Heap} (a : Heap.Frame c h h') (g : Ref)
    (hg : g ≠ c) : h'.proto g = h.proto g := by
  simp [Heap.proto, (a.2.2.2 g hg).1]

theorem Obj.find?_write_same {o : Obj} {k : String} {v : Val} (h : Obj.find? o k = some v)
    (x : String) : Obj.find? (Obj.write o k v) x = Obj.find? o x := by
  rw [Obj.find?_write]
  by_cases hk : k = x
  · subst hk; simp [h]
  · simp [hk]

theorem Obj.find?_of_mem_keys {o : Obj} {k : String} (h : k ∈ Obj.keys o) :
    Obj.find? o k = some (Obj.read o k) :=
  Obj.find?_eq_some_read ((Obj.mem_keys_iff o k).1 h)

/-- The copy loop of `fork` over keys of the parent's prototype `P0`: it
returns, leaves the parent's prototype as it is, and the prototype of the
constructor holds at every key visited what the parent's holds. -/
theorem copyLoop_safe {c p : Ref} {n : String} (P0 : Obj) (l : List String)
    (hl : ∀ k, k ∈ l → k ∈ Obj.keys P0 ∧ k ≠ "__proto__")
    (s : Heap) (hs : ForkSafe c p n s) (hP : ∀ x, Obj.find? (s.proto p) x = Obj.find? P0 x) :
    ∃ s', l.foldlM (fun h k => h.setProp c k (Obj.read (h.proto p) k)) s = Except.ok s' ∧
      ForkSafe c p n s' ∧ Heap.Frame c s s' ∧
      (∀ x, Obj.find? (s'.proto p) x = Obj.find? P0 x) ∧
      (∀ x, Obj.find? (s'.proto c) x
        = if x ∈ l then Obj.find? P0 x else Obj.find? (s.proto c) x) := by
  induction l generalizing s with
  | nil => exact ⟨s, rfl, hs, Heap.Frame.refl c s, hP, fun x => by simp⟩
  | cons k l ih =>
    obtain ⟨hk1, hk2⟩ := hl k (List.mem_cons_self _ _)
    have hv : Obj.find? P0 k = some (Obj.read (s.proto p) k) := by
      rw [Obj.read_eq_of_find? (hP k)]
      exact Obj.find?_of_mem_keys hk1
    obtain ⟨e1, s1, p1⟩ := hs.write k (Obj.read (s.proto p) k) hk2 (by
      intro e
      subst e
      exact Obj.find?_write_same ((hP k).trans hv) _)
    have hP1 : ∀ x, Obj.find? ((s.setObj c (Obj.write (s.proto c) k
        (Obj.read (s.proto p) k))).proto p) x = Obj.find? P0 x := by
      intro x
      rw [p1 x]
      by_cases hx : c = p ∧ k = x
      · rw [if_pos hx, ← hx.2]; exact hv.symm
      · rw [if_neg hx]; exact hP x
    obtain ⟨s', e2, s2, f2, p2, c2⟩ :=
      ih (fun k' hk' => hl k' (List.mem_cons_of_mem _ hk')) _ s1 hP1
    refine ⟨s', ?_, s2, (Heap.Frame.setObj c s _).trans f2, p2, fun x => ?_⟩
    · simp only [List.foldlM, bind, Except.bind, e1]
      exact e2
    · rw [c2 x, Heap.setObj_proto_self, Obj.find?_write]
      by_cases hx : x ∈ l
      · simp [hx]
      · by_cases hkx : k = x
        · subst hkx; simp [hx, hv]
        · have : ¬ x = k := fun e => hkx e.symm
          simp [hx, hkx, this]

/-- The loop `for(k in parent.prototype)` of `fork`. -/
theorem copyParent_safe {c p : Ref} {n : String} {h : Heap} (hs : ForkSafe c p n h)
    (hp : "__proto__" ∉ Obj.keys (h.proto p)) :
    ∃ h', copyParent c p h = Except.ok h' ∧ ForkSafe c p n h' ∧ Heap.Frame c h h' ∧
      (∀ x, Obj.find? (h'.proto p) x = Obj.find? (h.proto p) x) ∧
      (∀ x, Obj.find? (h'.proto c) x
        = if x ∈ Obj.enumerable (h.proto p) then Obj.find? (h.proto p) x
          else Obj.find? (h.proto c) x) := by
  obtain ⟨op, hop⟩ := hs.2.2.1
  have hpp : h.proto p = op := Heap.proto_of_obj hop
  have hl : ∀ k, k ∈ Obj.enumerable op → k ∈ Obj.keys (h.proto p) ∧ k ≠ "__proto__" := by
    intro k hk
    rw [hpp]
    have hk' := ((Obj.mem_enumerable_iff op k).1 hk).1
    exact ⟨hk', fun e => hp (by rw [hpp, ← e]; exact hk')⟩
  obtain ⟨s', e, r⟩ := copyLoop_safe (h.proto p) (Obj.enumerable op) hl h hs (fun _ => rfl)
  refine ⟨s', ?_, ?_⟩
  · simp only [copyParent, hop, hs.2.2.2.1, true_or, if_true]
    exact e
  · rw [hpp] at r ⊢
    exact r

/-- The definition loop of `fork` over a list of keys: it returns, and what it
does not write stays. -/
theorem forkSteps_safe (d : Obj) {c p : Ref} {n : String} (l : List String)
    (hl : ∀ k, k ∈ l → k ≠ "__proto__" ∧ n ++ "_" ++ k ≠ "__proto__")
    (hal : c = p → ∀ k, k ∈ l → k ≠ "_meta" ∧ n ++ "_" ++ k ≠ "_meta")
    (s : Heap) (hs : ForkSafe c p n s) :
    ∃ s', l.foldlM (forkStep d c p) s = Except.ok s' ∧ ForkSafe c p n s' ∧
      Heap.Frame c s s' ∧
      ∀ x, x ∉ l → (∀ k, k ∈ l → x ≠ n ++ "_" ++ k) →
        Obj.find? (s'.proto c) x = Obj.find? (s.proto c) x := by
  induction l generalizing s with
  | nil => exact ⟨s, rfl, hs, Heap.Frame.refl c s, fun _ _ _ => rfl⟩
  | cons k l ih =>
    obtain ⟨hk1, hk2⟩ := hl k (List.mem_cons_self _ _)
    obtain ⟨s1, e1, hs1, q1, b1, n1, x1, g1⟩ := forkStep_safe d hs k hk1 hk2
      (fun e => hal e k (List.mem_cons_self _ _))
    obtain ⟨s', e2, hs2, f2, u2⟩ := ih (fun k' hk' => hl k' (List.mem_cons_of_mem _ hk'))
      (fun e k' hk' => hal e k' (List.mem_cons_of_mem _ hk')) s1 hs1
    refine ⟨s', ?_, hs2, Heap.Frame.trans ⟨b1, n1, x1, g1⟩ f2, fun x hx hxq => ?_⟩
    · simp only [List.foldlM, bind, Except.bind, e1]
      exact e2
    · rw [u2 x (fun e => hx (List.mem_cons_of_mem _ e))
        (fun k' hk' => hxq k' (List.mem_cons_of_mem _ hk')), q1]
      exact Obj.find?_forkStep_other d n c _ _ k x
        (fun e => hx (e ▸ List.mem_cons_self _ _)) (hxq k (List.mem_cons_self _ _))

/-- The definition loop of `fork` on a key `m` at which the prototype of the
constructor yields a function and that of the parent yields `v`: afterwards the
prototype of the constructor holds the member of the definition at `m`, and
`v` at the qualified name. -/
theorem forkSteps_backup (d : Obj) {c p : Ref} {n : String} (l : List String)
    (hl : ∀ k, k ∈ l → k ≠ "__proto__" ∧ n ++ "_" ++ k ≠ "__proto__")
    (hal : c = p → ∀ k, k ∈ l → k ≠ "_meta" ∧ n ++ "_" ++ k ≠ "_meta")
    (hnd : l.Nodup) (m : String) (hm : m ∈ l) (v : Val)
    (x2 : ∀ k, k ∈ l → m ≠ n ++ "_" ++ k) (hbk : n ++ "_" ++ m ∉ l)
    (s : Heap) (hs : ForkSafe c p n s)
    (hcm : (Obj.lookup c (s.proto c) m).isFunction = true)
    (hpm : Obj.lookup p (s.proto p) m = v)
    (s' : Heap) (e : l.foldlM (forkStep d c p) s = Except.ok s') :
    Obj.find? (s'.proto c) m = some (Obj.read d m) ∧
      Obj.find? (s'.proto c) (n ++ "_" ++ m) = some v := by
  induction l generalizing s with
  | nil => simp at hm
  | cons k l ih =>
    obtain ⟨hk1, hk2⟩ := hl k (List.mem_cons_self _ _)
    obtain ⟨s1, e1, hs1, q1, b1, n1, x1, g1⟩ := forkStep_safe d hs k hk1 hk2
      (fun e => hal e k (List.mem_cons_self _ _))
    simp only [List.foldlM, bind, Except.bind, e1] at e
    have hl' : ∀ k', k' ∈ l → k' ≠ "__proto__" ∧ n ++ "_" ++ k' ≠ "__proto__" :=
      fun k' hk' => hl k' (List.mem_cons_of_mem _ hk')
    have hal' : c = p → ∀ k', k' ∈ l → k' ≠ "_meta" ∧ n ++ "_" ++ k' ≠ "_meta" :=
      fun e k' hk' => hal e k' (List.mem_cons_of_mem _ hk')
    have hkl : k ∉ l := (List.nodup_cons.1 hnd).1
    by_cases hkm : k = m
    · subst hkm
      obtain ⟨s'', e2, _, _, u2⟩ := forkSteps_safe d l hl' hal' s1 hs1
      rw [e] at e2
      injection e2 with e2
      subst e2
      have hq : ∀ k', k' ∈ l → n ++ "_" ++ k ≠ n ++ "_" ++ k' := by
        intro k' hk' e'
        exact hkl (qualified_inj n k k' e' ▸ hk')
      rw [u2 k hkl (fun k' hk' => x2 k' (List.mem_cons_of_mem _ hk')),
        u2 (n ++ "_" ++ k) (fun e' => hbk (List.mem_cons_of_mem _ e')) hq, q1]
      refine ⟨Obj.find?_forkStep_self _ _ _ _ _ _, ?_⟩
      rw [Obj.find?_forkStep_backup d n c _ _ k hcm, hpm]
    · have hm' : m ∈ l := by
        rcases List.mem_cons.1 hm with h | h
        · exact absurd h.symm hkm
        · exact h
      have hmk : m ≠ k := fun e' => hkm e'.symm
      have hf1 : Obj.find? (s1.proto c) m = Obj.find? (s.proto c) m := by
        rw [q1]
        exact Obj.find?_forkStep_other d n c _ _ k m hmk (x2 k (List.mem_cons_self _ _))
      have hc1 : (Obj.lookup c (s1.proto c) m).isFunction = true := by
        rw [Obj.lookup_congr hf1]; exact hcm
      have hp1 : Obj.lookup p (s1.proto p) m = v := by
        by_cases hcp : p = c
        · rw [hcp, Obj.lookup_congr hf1, ← hcp]; exact hpm
        · have : s1.proto p = s.proto p := by simp [Heap.proto, (g1 p hcp).1]
          rw [this]; exact hpm
      exact ih hl' hal' (List.nodup_cons.1 hnd).2 hm'
        (fun k' hk' => x2 k' (List.mem_cons_of_mem _ hk'))
        (fun e' => hbk (List.mem_cons_of_mem _ e')) s1 hs1 hc1 hp1 e

/-! ## fork: one round of the parents loop -/

/-- One round of the parents loop of `fork`, for a constructor and a parent
whose prototype objects inherit from `Object.prototype`, when no key written is
`__proto__` and, if the constructor is the parent itself, none is `_meta`: the
round returns; the prototype of the constructor holds the parent at the
parent's name; a key that is not written holds what the parent's prototype
holds, when it is enumerable there, and else what it held; and the definition's
member is at every key `m` of the definition at which the prototype of the
parent yields a function, with that function stored under the qualified name,
provided that the prototype of the constructor yields a function at `m` too in
case `m` is not among the keys copied from the parent. -/
theorem forkParent_safe (d : Obj) {c p : Ref} {n : String} (h : Heap)
    (hs : ForkSafe c p n h) (hp : "__proto__" ∉ Obj.keys (h.proto p))
    (hd : ∀ k, k ∈ Obj.keys d → k ≠ "__proto__" ∧ n ++ "_" ++ k ≠ "__proto__")
    (hn : n ≠ "__proto__")
    (hal : c = p → ∀ k, k ∈ Obj.keys d → k ≠ "_meta" ∧ n ++ "_" ++ k ≠ "_meta") :
    ∃ h', forkParent d c h (some p) = Except.ok h' ∧
      (∃ o, h'.obj c = some o) ∧ h'.link c = none ∧ Heap.Frame c h h' ∧
      Obj.find? (h'.proto c) n = some (Val.fn p) ∧
      (∀ x, x ∉ Obj.keys d → (∀ k, k ∈ Obj.keys d → x ≠ n ++ "_" ++ k) → x ≠ n →
        Obj.find? (h'.proto c) x
          = if x ∈ Obj.enumerable (h.proto p) then Obj.find? (h.proto p) x
            else Obj.find? (h.proto c) x) ∧
      (∀ m, m ∈ Obj.keys d → (Obj.keys d).Nodup →
        (Obj.lookup p (h.proto p) m).isFunction = true →
        (m ∉ Obj.enumerable (h.proto p) → (Obj.lookup c (h.proto c) m).isFunction = true) →
        (∀ k, k ∈ Obj.keys d → m ≠ n ++ "_" ++ k) → n ++ "_" ++ m ∉ Obj.keys d → m ≠ n →
        Obj.find? (h'.proto c) m = some (Obj.read d m) ∧
          Obj.find? (h'.proto c) (n ++ "_" ++ m) = some (Obj.lookup p (h.proto p) m)) := by
  obtain ⟨h1, e1, hs1, f1, p1, c1⟩ := copyParent_safe hs hp
  obtain ⟨h2, e2, hs2, f2, u2⟩ := forkSteps_safe d (Obj.keys d) hd hal h1 hs1
  obtain ⟨o2, ho2⟩ := hs2.1
  have e3 := Heap.setProp_plain (Val.fn p) ho2 hs2.2.1 hn
  have hp2 : h2.proto c = o2 := Heap.proto_of_obj ho2
  refine ⟨h2.setObj c (Obj.write o2 n (Val.fn p)), ?_, ⟨_, Heap.setObj_obj_self h2 c _⟩,
    by simpa using hs2.2.1, (f1.trans f2).trans (Heap.Frame.setObj c h2 _), ?_, ?_, ?_⟩
  · simp only [forkParent, bind, Except.bind, e1, e2, hs2.2.2.2.2]
    exact e3
  · rw [Heap.setObj_proto_self, Obj.find?_write]; simp
  · intro x hx hxq hxn
    have : ¬ n = x := fun e => hxn e.symm
    rw [Heap.setObj_proto_self, Obj.find?_write]
    simp only [this, if_false]
    rw [← hp2, u2 x hx hxq, c1 x]
  · intro m hm hnd hv hcur x2 hbk hmn
    have hc1 : (Obj.lookup c (h1.proto c) m).isFunction = true := by
      by_cases hme : m ∈ Obj.enumerable (h.proto p)
      · have hfm : Obj.find? (h.proto p) m = some (Obj.read (h.proto p) m) :=
          Obj.find?_of_mem_keys ((Obj.mem_enumerable_iff _ _).1 hme).1
        have hfc : Obj.find? (h1.proto c) m = some (Obj.read (h.proto p) m) := by
          rw [c1 m, if_pos hme]; exact hfm
        rw [Obj.lookup_of_find? hfc, ← Obj.lookup_of_find? hfm]
        exact hv
      · have hfc : Obj.find? (h1.proto c) m = Obj.find? (h.proto c) m := by
          rw [c1 m, if_neg hme]
        rw [Obj.lookup_congr hfc]
        exact hcur hme
    have hp1 : Obj.lookup p (h1.proto p) m = Obj.lookup p (h.proto p) m :=
      Obj.lookup_congr (p1 m)
    obtain ⟨r1, r2⟩ := forkSteps_backup d (Obj.keys d) hd hal hnd m hm _ x2 hbk h1 hs1
      hc1 hp1 h2 e2
    have hnm : ¬ n = m := fun e => hmn e.symm
    have hnq : ¬ n = n ++ "_" ++ m := fun e => qualified_ne_name n m e.symm
    rw [Heap.setObj_proto_self, Obj.find?_write, Obj.find?_write]
    simp only [hnm, hnq, if_false]
    rw [← hp2]
    exact ⟨r1, r2⟩

/-- The loops and the metadata assignment of `fork` for one parent, under the
conditions of `forkParent_safe`: the call returns the constructor, whose
metadata name is the new name; what the round established stays at the keys
other than `_meta`. -/
theorem forkFinish_single (name : String) (d : Obj) {c p : Ref} {n : String} (h : Heap)
    (hs : ForkSafe c p n h) (hp : "__proto__" ∉ Obj.keys (h.proto p))
    (hd : ∀ k, k ∈ Obj.keys d → k ≠ "__proto__" ∧ n ++ "_" ++ k ≠ "__proto__")
    (hn : n ≠ "__proto__")
    (hal : c = p → ∀ k, k ∈ Obj.keys d → k ≠ "_meta" ∧ n ++ "_" ++ k ≠ "_meta") :
    ∃ h', forkFinish name d c (some [some p]) h = Except.ok (c, h') ∧
      (∃ o, h'.obj c = some o) ∧ h'.link c = none ∧ Heap.Frame c h h' ∧
      metaName h' c = Except.ok name ∧
      (n ≠ "_meta" → Obj.find? (h'.proto c) n = some (Val.fn p)) ∧
      (∀ x, x ∉ Obj.keys d → (∀ k, k ∈ Obj.keys d → x ≠ n ++ "_" ++ k) → x ≠ n →
        x ≠ "_meta" →
        Obj.find? (h'.proto c) x
          = if x ∈ Obj.enumerable (h.proto p) then Obj.find? (h.proto p) x
            else Obj.find? (h.proto c) x) ∧
      (∀ m, m ∈ Obj.keys d → (Obj.keys d).Nodup →
        (Obj.lookup p (h.proto p) m).isFunction = true →
        (m ∉ Obj.enumerable (h.proto p) → (Obj.lookup c (h.proto c) m).isFunction = true) →
        (∀ k, k ∈ Obj.keys d → m ≠ n ++ "_" ++ k) → n ++ "_" ++ m ∉ Obj.keys d → m ≠ n →
        m ≠ "_meta" → n ++ "_" ++ m ≠ "_meta" →
        Obj.find? (h'.proto c) m = some (Obj.read d m) ∧
          Obj.find? (h'.proto c) (n ++ "_" ++ m) = some (Obj.lookup p (h.proto p) m)) := by
  obtain ⟨h1, e1, ⟨o1, ho1⟩, l1, f1, r1, u1, b1⟩ := forkParent_safe d h hs hp hd hn hal
  have e2 := Heap.setProp_meta (Val.metaRec name (some [some p])) ho1
  have hp1 : h1.proto c = o1 := Heap.proto_of_obj ho1
  refine ⟨h1.setObj c (Obj.write o1 "_meta" (Val.metaRec name (some [some p]))), ?_,
    ⟨_, Heap.setObj_obj_self h1 c _⟩, by simpa using l1,
    f1.trans (Heap.Frame.setObj c h1 _), metaName_setObj_meta _ _ _ _ _, ?_, ?_, ?_⟩
  · simp only [forkFinish, Option.getD_some, List.foldlM, bind, Except.bind, e1, pure,
      Except.pure, e2]
  · intro hnm
    have : ¬ "_meta" = n := fun e => hnm e.symm
    rw [Heap.setObj_proto_self, Obj.find?_write]
    simp only [this, if_false]
    rw [← hp1]; exact r1
  · intro x hx hxq hxn hxm
    have : ¬ "_meta" = x := fun e => hxm e.symm
    rw [Heap.setObj_proto_self, Obj.find?_write]
    simp only [this, if_false]
    rw [← hp1]; exact u1 x hx hxq hxn
  · intro m hm hnd hv hcur x2 hbk hmn hmm hqm
    have h1' : ¬ "_meta" = m := fun e => hmm e.symm
    have h2' : ¬ "_meta" = n ++ "_" ++ m := fun e => hqm e.symm
    rw [Heap.setObj_proto_self, Obj.find?_write, Obj.find?_write]
    simp only [h1', h2', if_false]
    rw [← hp1]; exact b1 m hm hnd hv hcur x2 hbk hmn

/-! ## fork with one parent -/

theorem Val.function_cases (v : Val) :
    (∃ f, v = Val.fn f) ∨ (∃ k, v = Val.host k) ∨ v.isFunction = false := by
  cases v <;> simp [Val.isFunction]

theorem Obj.keys_remove_sublist (d : Obj) (k : String) :
    List.Sublist (Obj.keys (Obj.remove d k)) (Obj.keys d) := by
  induction d with
  | nil => exact List.Sublist.slnil
  | cons p rest ih =>
    obtain ⟨k0, v0⟩ := p
    by_cases h0 : k0 = k
    · simp only [Obj.remove, h0, if_true, Obj.keys, List.map_cons]
      exact List.Sublist.cons _ ih
    · simp only [Obj.remove, h0, if_false, Obj.keys, List.map_cons]
      exact List.Sublist.cons₂ _ ih

theorem Obj.nodup_keys_remove {d : Obj} (k : String) (h : (Obj.keys d).Nodup) :
    (Obj.keys (Obj.remove d k)).Nodup :=
  List.Nodup.sublist (Obj.keys_remove_sublist d k) h

theorem Obj.mem_keys_of_remove {d : Obj} {k x : String}
    (h : x ∈ Obj.keys (Obj.remove d k)) : x ∈ Obj.keys d :=
  ((Obj.mem_keys_remove d k x).1 h).1

/-- The list of parents `fork` works with. -/
theorem fork_of_ctor (toUpperCase : Char → String) (h : Heap) (name : String) (d : Obj)
    (p : Ref) (parents : Parents)
    (hps : parents = Parents.cls p ∨ parents = Parents.list [some p])
    (f : Ref) (hf : Obj.get d (make_name toUpperCase name) = Val.fn f) :
    fork toUpperCase h name d parents
      = forkFinish (make_name toUpperCase name) (Obj.remove d (make_name toUpperCase name)) f
          (some [some p]) h := by
  rcases hps with e | e <;> subst e <;> simp [fork, hf]

theorem fork_of_no_ctor (toUpperCase : Char → String) (h : Heap) (name : String) (d : Obj)
    (p : Ref) (parents : Parents)
    (hps : parents = Parents.cls p ∨ parents = Parents.list [some p])
    (hf : (Obj.get d (make_name toUpperCase name)).isFunction = false) :
    fork toUpperCase h name d parents
      = forkFinish (make_name toUpperCase name) d h.next (some [some p])
          (h.alloc (Body.delegate (some p))).2 := by
  cases hv : Obj.get d (make_name toUpperCase name) with
  | fn f => rw [hv] at hf; simp [Val.isFunction] at hf
  | host k => rw [hv] at hf; simp [Val.isFunction] at hf
  | _ => rcases hps with e | e <;> subst e <;> simp [fork, hv]

theorem Heap.plain_obj {h : Heap} {f : Ref} (hp : Heap.plain h f) :
    ∃ o, h.obj f = some o := by
  have h1 := hp.1
  cases ho : h.obj f with
  | none => rw [ho] at h1; simp at h1
  | some o => exact ⟨o, rfl⟩

theorem Heap.plain_link {h : Heap} {f : Ref} (hp : Heap.plain h f) : h.link f = none :=
  hp.2.2

theorem Heap.plain_not_mem {h : Heap} {f : Ref} (hp : Heap.plain h f) :
    "__proto__" ∉ Obj.keys (h.proto f) := by
  rw [Obj.mem_keys_iff, hp.2.1]
  simp

theorem Heap.plain_of {h : Heap} {f : Ref} (ho : ∃ o, h.obj f = some o)
    (hl : h.link f = none) (hf : Obj.find? (h.proto f) "__proto__" = none) :
    Heap.plain h f := by
  obtain ⟨o, ho⟩ := ho
  refine ⟨by simp [ho], ?_, hl⟩
  simp [Obj.has, hf]

theorem Heap.get_plain_proto {h : Heap} {f : Ref} (k : String) (hp : Heap.plain h f) :
    h.get f k = Except.ok (Obj.lookup f (h.proto f) k) := by
  obtain ⟨o, ho⟩ := Heap.plain_obj hp
  rw [Heap.proto_of_obj ho]
  exact Heap.get_plain k ho hp.2.2

theorem Heap.proto_alloc_self (h : Heap) (b : Body) : (h.alloc b).2.proto h.next = [] := by
  simp [Heap.proto, Heap.alloc_obj_self]

theorem Heap.proto_alloc_other (h : Heap) (b : Body) (g : Ref) (hg : g ≠ h.next) :
    (h.alloc b).2.proto g = h.proto g := by
  simp [Heap.proto, Heap.alloc_obj_other h b g hg]

/-- At a key that the copy loop does not visit and at which the prototype of
`p` yields a function, the prototype of a new function yields a function too:
itself at `constructor`, and otherwise what both inherit. -/
theorem Obj.lookup_new_function {p c : Ref} {o : Obj} {m : String}
    (hme : m ∉ Obj.enumerable o) (hv : (Obj.lookup p o m).isFunction = true) :
    (Obj.lookup c [] m).isFunction = true := by
  by_cases hc : m = "constructor"
  · simp [Obj.lookup, Obj.find?, hc, Val.isFunction]
  · have hk : m ∉ Obj.keys o := fun e => hme ((Obj.mem_enumerable_iff _ _).2 ⟨e, hc⟩)
    have hf : Obj.find? o m = none := (Obj.not_mem_keys_iff _ _).1 hk
    unfold Obj.lookup at hv ⊢
    simp only [hf, hc, if_false] at hv
    simpa [Obj.find?, hc] using hv

/-- The class `fork` makes from one parent `p` with metadata name `nP`, when the
prototype object of `p` inherits from `Object.prototype` and has no member
`__proto__`, what the definition yields at the normalised name is no built-in
function and, if it is a function, one with such a prototype object too, and
neither a key of the definition nor a name qualified with `nP` nor `nP` itself
is `__proto__`; if the constructor is `p` itself, no key of the definition and
no qualified name is `_meta`.  The call returns a class `c`: the new function,
or the function the definition gives; its prototype object is of the same
kind; its metadata name is the normalised name; it holds `p` at `nP`; a member
of `p` that is not written is a member of `c`; and the member of the definition
is at every key `m` of the definition at which the prototype of `p` yields a
function, with that function stored at `nP_m`, provided that the prototype of a
constructor given in the definition yields a function at `m` too in case `m` is
not among the keys copied from `p`. -/
theorem fork_cls_spec (toUpperCase : Char → String) (h : Heap) (name : String) (d : Obj)
    (p : Ref) (nP : String) (parents : Parents)
    (hps : parents = Parents.cls p ∨ parents = Parents.list [some p])
    (hp : p < h.next) (hpl : Heap.plain h p) (hn : metaName h p = Except.ok nP)
    (hc : ∀ k, Obj.get d (make_name toUpperCase name) ≠ Val.host k)
    (hcf : ∀ f, Obj.get d (make_name toUpperCase name) = Val.fn f →
      f < h.next ∧ Heap.plain h f)
    (hd : ∀ k, k ∈ Obj.keys d → k ≠ "__proto__" ∧ nP ++ "_" ++ k ≠ "__proto__")
    (hnp : nP ≠ "__proto__")
    (hal : Obj.get d (make_name toUpperCase name) = Val.fn p →
      ∀ k, k ∈ Obj.keys d → k ≠ "_meta" ∧ nP ++ "_" ++ k ≠ "_meta") :
    ∃ c h', fork toUpperCase h name d parents = Except.ok (c, h') ∧
      (c = h.next ∨ Obj.get d (make_name toUpperCase name) = Val.fn c) ∧
      c < h'.next ∧ h.next ≤ h'.next ∧ h'.name = h.name ∧
      (∀ g, g ≠ c → h'.obj g = h.obj g ∧ h'.link g = h.link g) ∧
      Heap.plain h' c ∧ metaName h' c = Except.ok (make_name toUpperCase name) ∧
      (nP ≠ "_meta" → Obj.find? (h'.proto c) nP = some (Val.fn p)) ∧
      (∀ x, x ∉ Obj.keys d → (∀ k, k ∈ Obj.keys d → x ≠ nP ++ "_" ++ k) → x ≠ nP →
        x ≠ "_meta" →
        Obj.find? (h'.proto c) x
          = if x ∈ Obj.enumerable (h.proto p) then Obj.find? (h.proto p) x
            else if c = h.next then none else Obj.find? (h.proto c) x) ∧
      (∀ m, m ∈ Obj.keys d → m ≠ make_name toUpperCase name → (Obj.keys d).Nodup →
        (Obj.lookup p (h.proto p) m).isFunction = true →
        (∀ f, Obj.get d (make_name toUpperCase name) = Val.fn f →
          m ∉ Obj.enumerable (h.proto p) → (Obj.lookup f (h.proto f) m).isFunction = true) →
        (∀ k, k ∈ Obj.keys d → m ≠ nP ++ "_" ++ k) → nP ++ "_" ++ m ∉ Obj.keys d →
        m ≠ nP → m ≠ "_meta" → nP ++ "_" ++ m ≠ "_meta" →
        Obj.find? (h'.proto c) m = some (Obj.read d m) ∧
          Obj.find? (h'.proto c) (nP ++ "_" ++ m) = some (Obj.lookup p (h.proto p) m)) := by
  have hpp := Heap.plain_not_mem hpl
  rcases Val.function_cases (Obj.get d (make_name toUpperCase name)) with ⟨f, hv⟩ | ⟨k, hv⟩ | hv
  · -- the constructor is given
    obtain ⟨hfn, hfpl⟩ := hcf f hv
    have hs : ForkSafe f p nP h := ⟨Heap.plain_obj hfpl, hfpl.2.2, Heap.plain_obj hpl, hpl.2.2, hn⟩
    have hd' : ∀ k, k ∈ Obj.keys (Obj.remove d (make_name toUpperCase name)) →
        k ≠ "__proto__" ∧ nP ++ "_" ++ k ≠ "__proto__" :=
      fun k hk => hd k (Obj.mem_keys_of_remove hk)
    have hal' : f = p → ∀ k, k ∈ Obj.keys (Obj.remove d (make_name toUpperCase name)) →
        k ≠ "_meta" ∧ nP ++ "_" ++ k ≠ "_meta" :=
      fun e k hk => hal (by rw [hv, e]) k (Obj.mem_keys_of_remove hk)
    obtain ⟨h', e, ho', hl', fr, mn, pr, un, bk⟩ :=
      forkFinish_single (make_name toUpperCase name)
        (Obj.remove d (make_name toUpperCase name)) h hs hpp hd' hnp hal'
    have hx : ∀ x, x ∈ Obj.keys (Obj.remove d (make_name toUpperCase name)) → x ∈ Obj.keys d :=
      fun x hx => Obj.mem_keys_of_remove hx
    refine ⟨f, h', (fork_of_ctor toUpperCase h name d p parents hps f hv).trans e,
      Or.inr hv, by rw [fr.2.2.1]; exact hfn, by rw [fr.2.2.1], fr.2.1, fr.2.2.2, ?_, mn, pr,
      ?_, ?_⟩
    · refine Heap.plain_of ho' hl' ?_
      have h1 : ("__proto__" : String) ≠ "_meta" := by decide
      rw [un "__proto__" (fun e => (hd' _ e).1 rfl) (fun k hk e => (hd' k hk).2 e.symm)
        (fun e => hnp e.symm) h1]
      have h2 : "__proto__" ∉ Obj.enumerable (h.proto p) :=
        fun e => hpp ((Obj.mem_enumerable_iff _ _).1 e).1
      rw [if_neg h2]
      exact (Obj.not_mem_keys_iff _ _).1 (Heap.plain_not_mem hfpl)
    · intro x hxd hxq hxn hxm
      rw [un x (fun e => hxd (hx x e)) (fun k hk => hxq k (hx k hk)) hxn hxm]
      have : ¬ f = h.next := Nat.ne_of_lt hfn
      simp only [this, if_false]
    · intro m hm hmn hnd hvf hcur x2 hbk hmp hmm hqm
      have hm' : m ∈ Obj.keys (Obj.remove d (make_name toUpperCase name)) :=
        (Obj.mem_keys_remove _ _ _).2 ⟨hm, hmn⟩
      have := bk m hm' (Obj.nodup_keys_remove _ hnd) hvf (hcur f hv)
        (fun k hk => x2 k (hx k hk)) (fun e => hbk (hx _ e)) hmp hmm hqm
      have hr := Obj.read_remove d (make_name toUpperCase name) m
      simp only [hmn, if_false] at hr
      rw [hr] at this
      exact this
  · exact absurd hv (hc k)
  · -- a new constructor
    have hpc : p ≠ h.next := Nat.ne_of_lt hp
    have hs : ForkSafe h.next p nP (h.alloc (Body.delegate (some p))).2 := by
      obtain ⟨op, hop⟩ := Heap.plain_obj hpl
      refine ⟨⟨[], Heap.alloc_obj_self h _⟩, Heap.alloc_link_self h _,
        ⟨op, by rw [Heap.alloc_obj_other h _ p hpc]; exact hop⟩,
        by rw [Heap.alloc_link_other h _ p hpc]; exact hpl.2.2, ?_⟩
      rw [metaName_congr (Heap.alloc_obj_other h _ p hpc) (Heap.alloc_link_other h _ p hpc)
        (Heap.alloc_name h _)]
      exact hn
    have hpa : (h.alloc (Body.delegate (some p))).2.proto p = h.proto p :=
      Heap.proto_alloc_other h _ p hpc
    have hal' : h.next = p → ∀ k, k ∈ Obj.keys d → k ≠ "_meta" ∧ nP ++ "_" ++ k ≠ "_meta" :=
      fun e => absurd e.symm hpc
    obtain ⟨h', e, ho', hl', fr, mn, pr, un, bk⟩ :=
      forkFinish_single (make_name toUpperCase name) d (h.alloc (Body.delegate (some p))).2 hs
        (by rw [hpa]; exact hpp) hd hnp hal'
    rw [hpa] at un bk
    rw [Heap.proto_alloc_self] at un
    refine ⟨h.next, h', (fork_of_no_ctor toUpperCase h name d p parents hps hv).trans e,
      Or.inl rfl, by rw [fr.2.2.1]; simp, by rw [fr.2.2.1]; simp, fr.2.1, ?_, ?_, mn, pr,
      ?_, ?_⟩
    · intro g hg
      exact ⟨((fr.2.2.2 g hg).1).trans (Heap.alloc_obj_other h _ g hg),
        ((fr.2.2.2 g hg).2).trans (Heap.alloc_link_other h _ g hg)⟩
    · refine Heap.plain_of ho' hl' ?_
      have h1 : ("__proto__" : String) ≠ "_meta" := by decide
      rw [un "__proto__" (fun e => (hd _ e).1 rfl) (fun k hk e => (hd k hk).2 e.symm)
        (fun e => hnp e.symm) h1]
      have h2 : "__proto__" ∉ Obj.enumerable (h.proto p) :=
        fun e => hpp ((Obj.mem_enumerable_iff _ _).1 e).1
      rw [if_neg h2]
      rfl
    · intro x hxd hxq hxn hxm
      rw [un x hxd hxq hxn hxm]
      simp [Obj.find?]
    · intro m hm _ hnd hvf _ x2 hbk hmp hmm hqm
      refine bk m hm hnd hvf (fun hme => ?_) x2 hbk hmp hmm hqm
      rw [Heap.proto_alloc_self]
      exact Obj.lookup_new_function hme hvf

/-! ## fork: overriding a method of the parent -/

theorem Obj.find?_of_read_function {o : Obj} {k : String} {v : Val}
    (h : Obj.read o k = v) (hv : v.isFunction = true) : Obj.find? o k = some v := by
  unfold Obj.read at h
  cases hx : Obj.find? o k with
  | none =>
    rw [hx] at h
    simp only [Option.getD_none] at h
    rw [← h] at hv
    simp [Val.isFunction] at hv
  | some w => rw [hx] at h; simp at h; rw [h]

/-- C1 (amended): for a class `A`, an existing function whose prototype object
inherits from `Object.prototype` and has no member `__proto__`, with metadata
name `nA`, whose prototype yields at a key `m` a function `v` (a member, the
class itself at `constructor`, or a method of `Object.prototype`), and a
definition `d` that contains `m`, where `m` is not the constructor key of the
new class and `d` has no key `nA_m`; and moreover `m` is neither `nA` nor
`_meta` nor `nA_k` for a key `k` of `d`, and `nA_m` is not `_meta`; neither a
key of `d` nor a name `nA_k` for a key `k` of `d` nor `nA` is `__proto__`; what
`d` yields at the constructor key is no built-in function and, if it is a
function, an existing one whose prototype object is of the same kind as that of
`A` and yields a function at `m` too, unless `m` is an enumerable member of the
prototype of `A`, which `fork` copies; and if it is `A` itself, neither a key
of `d` nor a name `nA_k` is `_meta`: `fork(name, d, A)` returns a class whose
prototype holds `d[m]` at `m` and `v` at `nA_m`. -/
theorem fork_override_backup (toUpperCase : Char → String) (h : Heap) (name : String)
    (d : Obj) (A : Ref) (m nA : String) (v : Val)
    (hA : A < h.next) (hpl : Heap.plain h A) (hn : metaName h A = Except.ok nA)
    (hm : h.get A m = Except.ok v) (hv : v.isFunction = true)
    (hmd : m ∈ Obj.keys d) (hmc : m ≠ make_name toUpperCase name)
    (hbk : nA ++ "_" ++ m ∉ Obj.keys d) (hnd : (Obj.keys d).Nodup)
    (x1 : m ≠ nA) (x2 : ∀ k, k ∈ Obj.keys d → m ≠ nA ++ "_" ++ k)
    (x3 : nA ++ "_" ++ m ≠ "_meta") (x4 : m ≠ "_meta")
    (y1 : ∀ k, k ∈ Obj.keys d → k ≠ "__proto__" ∧ nA ++ "_" ++ k ≠ "__proto__")
    (y2 : nA ≠ "__proto__")
    (c1 : ∀ k, Obj.get d (make_name toUpperCase name) ≠ Val.host k)
    (c2 : ∀ f, Obj.get d (make_name toUpperCase name) = Val.fn f →
      f < h.next ∧ Heap.plain h f)
    (c3 : Obj.get d (make_name toUpperCase name) = Val.fn A →
      ∀ k, k ∈ Obj.keys d → k ≠ "_meta" ∧ nA ++ "_" ++ k ≠ "_meta")
    (c4 : ∀ f w, Obj.get d (make_name toUpperCase name) = Val.fn f →
      m ∉ Obj.enumerable (h.proto A) → h.get f m = Except.ok w → w.isFunction = true) :
    ∃ B h', fork toUpperCase h name d (Parents.cls A) = Except.ok (B, h') ∧
      Obj.read (h'.proto B) m = Obj.read d m ∧
      Obj.read (h'.proto B) (nA ++ "_" ++ m) = v := by
  obtain ⟨B, h', e, _, _, _, _, _, _, _, _, _, bk⟩ :=
    fork_cls_spec toUpperCase h name d A nA (Parents.cls A) (Or.inl rfl) hA hpl hn c1 c2 y1 y2
      c3
  have hlk : Obj.lookup A (h.proto A) m = v := by
    have e1 := Heap.get_plain_proto m hpl
    rw [hm] at e1
    injection e1 with e1
    exact e1.symm
  obtain ⟨r1, r2⟩ := bk m hmd hmc hnd (by rw [hlk]; exact hv)
    (fun f hf hme => c4 f _ hf hme (Heap.get_plain_proto m (c2 f hf).2)) x2 hbk x1 x4 x3
  rw [hlk] at r2
  exact ⟨B, h', e, Obj.read_of_find? r1, Obj.read_of_find? r2⟩

/-- C1, witness: `classA` and `classB` of the test `classy.fork`; the method `a`
of `classA` is the function `1`. -/
theorem fork_override_backup_witness :
    ∃ B h', fork asciiUpper Example.classA.2 "classB" [("a", Val.fn 4)] (Parents.cls 10)
        = Except.ok (B, h') ∧
      Obj.read (h'.proto B) "a" = Obj.read [("a", Val.fn 4)] "a" ∧
      Obj.read (h'.proto B) ("classA" ++ "_" ++ "a") = Val.fn 1 :=
  fork_override_backup asciiUpper Example.classA.2 "classB" [("a", Val.fn 4)] 10 "a"
    "classA" (Val.fn 1) (by decide) (by decide) (by decide) (by decide) (by decide)
    (by decide) (by decide) (by decide) (by decide) (by decide) (by decide) (by decide)
    (by decide) (by decide) (by decide)
    (fun k hk => absurd ((by decide : Obj.get [("a", Val.fn 4)]
      (make_name asciiUpper "classB") = Val.undefined).symm.trans hk) (by simp))
    (fun f hf => absurd ((by decide : Obj.get [("a", Val.fn 4)]
      (make_name asciiUpper "classB") = Val.undefined).symm.trans hf) (by simp))
    (fun hf => absurd ((by decide : Obj.get [("a", Val.fn 4)]
      (make_name asciiUpper "classB") = Val.undefined).symm.trans hf) (by simp))
    (fun f w hf => absurd ((by decide : Obj.get [("a", Val.fn 4)]
      (make_name asciiUpper "classB") = Val.undefined).symm.trans hf) (by simp))

/-- C1 as stated fails: (1) the member `A` of a definition is overwritten by
the reference to the parent named `A`; (2) the member `A_x` of a definition is
overwritten by the backup of `x`; (3) the backup of `meta` for a parent with
the empty name lands on `_meta` and is overwritten by the metadata; (4) when
the constructor given in the definition is the parent itself, a member `_meta`
of the definition changes the name the backups are qualified with; (5) for the
name `toString` the constructor is the method the definition inherits from
`Object.prototype`, which has no prototype object, and the call throws; (6) for
`A = define("A", {constructor: g})` with `g = 2` and the constructor `1` given
in the definition, whose prototype holds the number `5` at `constructor`, the
test of the definition loop fails and no backup of `constructor` is made.  In
each case the hypotheses of the claim hold and the call does not return a class
whose prototype holds what the claim says. -/
theorem fork_override_backup_fails :
    -- (1)
    (Obj.read (Example.sameName.2.proto Example.sameName.1) "A" = Val.fn 10 ∧
      metaName Example.sameName.2 Example.sameName.1 = Except.ok "A" ∧
      "A" ≠ make_name asciiUpper "R" ∧
      (protoOf (fork asciiUpper Example.sameName.2 "R" [("A", Val.fn 5)]
        (Parents.cls Example.sameName.1))).map (fun o => Obj.read o "A")
        = some (Val.fn Example.sameName.1) ∧
      Val.fn Example.sameName.1 ≠ Val.fn 5) ∧
    -- (2)
    (Obj.read (Example.qualifiedMember.2.proto Example.qualifiedMember.1) "A_x" = Val.fn 2 ∧
      metaName Example.qualifiedMember.2 Example.qualifiedMember.1 = Except.ok "A" ∧
      "A_x" ≠ make_name asciiUpper "B" ∧
      (protoOf (fork asciiUpper Example.qualifiedMember.2 "B"
        [("A_x", Val.fn 3), ("x", Val.fn 4)]
        (Parents.cls Example.qualifiedMember.1))).map (fun o => Obj.read o "A_x")
        = some (Val.fn 1)) ∧
    -- (3)
    (Obj.read (Example.emptyName.2.proto Example.emptyName.1) "meta" = Val.fn 1 ∧
      metaName Example.emptyName.2 Example.emptyName.1 = Except.ok "" ∧
      "meta" ≠ make_name asciiUpper "B" ∧
      (protoOf (fork asciiUpper Example.emptyName.2 "B" [("meta", Val.fn 2)]
        (Parents.cls Example.emptyName.1))).map (fun o => Obj.read o ("" ++ "_" ++ "meta"))
        = some (Val.metaRec "B" (some [some Example.emptyName.1]))) ∧
    -- (4)
    (Obj.read (Example.oneMethod.2.proto Example.oneMethod.1) "m" = Val.fn 1 ∧
      metaName Example.oneMethod.2 Example.oneMethod.1 = Except.ok "A" ∧
      "m" ≠ make_name asciiUpper "B" ∧
      (protoOf (fork asciiUpper Example.oneMethod.2 "B"
        [("B", Val.fn Example.oneMethod.1), ("_meta", Val.num 5), ("m", Val.fn 2)]
        (Parents.cls Example.oneMethod.1))).map (fun o => Obj.read o "A_m")
        = some Val.undefined) ∧
    -- (5)
    ("m" ≠ make_name asciiUpper "toString" ∧
      errorOf (fork asciiUpper Example.oneMethod.2 "toString" [("m", Val.fn 2)]
        (Parents.cls Example.oneMethod.1)) = some Err.typeError) ∧
    -- (6)
    (Obj.read (Example.ownConstructor.2.proto Example.ownConstructor.1) "constructor"
        = Val.fn 2 ∧
      metaName Example.ownConstructor.2 Example.ownConstructor.1 = Except.ok "A" ∧
      Example.ownConstructor.2.get 1 "constructor" = Except.ok (Val.num 5) ∧
      "constructor" ≠ make_name asciiUpper "B" ∧
      (protoOf (fork asciiUpper Example.ownConstructor.2 "B"
        [("B", Val.fn 1), ("constructor", Val.fn 3)]
        (Parents.cls Example.ownConstructor.1))).map
          (fun o => (Obj.read o "constructor", Obj.find? o "A_constructor"))
        = some (Val.fn 3, none)) := by
  decide

/-! ## fork: the name a backup is qualified with -/

theorem qualified_inj_name (n n' k : String) (e : n ++ "_" ++ k = n' ++ "_" ++ k) : n = n' := by
  have h1 := congrArg String.data e
  simp only [String.data_append] at h1
  have h2 := List.append_cancel_right h1
  have h3 := List.append_cancel_right h2
  exact String.ext h3

theorem make_name_B (up : Char → String) : make_name up "B" = "B" :=
  make_name_of_no_separator up "B" (by decide)

theorem B_qualified_ne_meta (m : String) : "B" ++ "_" ++ m ≠ "_meta" := by
  intro e
  have h1 := congrArg String.data e
  simp [String.data_append] at h1

/-- C18 (amended): for a class `A`, an existing function whose prototype object
inherits from `Object.prototype` and has no member `__proto__`, with metadata
name `nA`, whose prototype yields at a key `m` a function `v`, `m` being none
of `B`, `nA`, `_meta`, `__proto__`, and neither `nA` nor `nA_m` being
`__proto__` nor `nA_m` being `_meta`: `fork("B", {m: f}, A)` returns a class
whose prototype holds `v` at `nA_m`, the name qualified with the name of the
parent; and at `B_m` it holds what the prototype of `A` holds there, nothing
when `A` has no such member, unless `A` is named `B` or `B_m`. -/
theorem fork_backup_under_parent_name (toUpperCase : Char → String) (h : Heap) (A : Ref)
    (m nA : String) (v f : Val)
    (hA : A < h.next) (hpl : Heap.plain h A) (hn : metaName h A = Except.ok nA)
    (hm : h.get A m = Except.ok v) (hv : v.isFunction = true)
    (hmB : m ≠ "B") (x1 : m ≠ nA) (x3 : nA ++ "_" ++ m ≠ "_meta") (x4 : m ≠ "_meta")
    (y1 : m ≠ "__proto__") (y2 : nA ++ "_" ++ m ≠ "__proto__") (y3 : nA ≠ "__proto__") :
    ∃ B h', fork toUpperCase h "B" [(m, f)] (Parents.cls A) = Except.ok (B, h') ∧
      Obj.read (h'.proto B) (nA ++ "_" ++ m) = v ∧
      (nA ≠ "B" → nA ≠ "B" ++ "_" ++ m →
        Obj.find? (h'.proto B) ("B" ++ "_" ++ m) = Obj.find? (h.proto A) ("B" ++ "_" ++ m)) := by
  have hkeys : ∀ k, k ∈ Obj.keys [(m, f)] → k = m := by
    intro k hk
    simpa [Obj.keys] using hk
  have hget : Obj.get [(m, f)] (make_name toUpperCase "B") = Val.undefined := by
    rw [make_name_B]
    have : Obj.find? [(m, f)] "B" = none := by simp [Obj.find?, hmB]
    rw [Obj.get_of_not_has this]
    decide
  have hlk : Obj.lookup A (h.proto A) m = v := by
    have e1 := Heap.get_plain_proto m hpl
    rw [hm] at e1
    injection e1 with e1
    exact e1.symm
  obtain ⟨B, h', e, hB, _, _, _, _, _, _, _, un, bk⟩ :=
    fork_cls_spec toUpperCase h "B" [(m, f)] A nA (Parents.cls A) (Or.inl rfl) hA hpl hn
      (fun k => by rw [hget]; simp) (fun g hg => by rw [hget] at hg; simp at hg)
      (fun k hk => by rw [hkeys k hk]; exact ⟨y1, y2⟩) y3
      (fun hg => by rw [hget] at hg; simp at hg)
  have hBn : B = h.next := by
    rcases hB with hB | hB
    · exact hB
    · rw [hget] at hB; simp at hB
  obtain ⟨_, r2⟩ := bk m (by simp [Obj.keys]) (by rw [make_name_B]; exact hmB)
    (by simp [Obj.keys]) (by rw [hlk]; exact hv)
    (fun g hg _ => by rw [hget] at hg; simp at hg)
    (fun k hk => by rw [hkeys k hk]; exact fun e => qualified_ne_key nA m e.symm)
    (fun e => qualified_ne_key nA m (hkeys _ e)) x1 x4 x3
  rw [hlk] at r2
  refine ⟨B, h', e, Obj.read_of_find? r2, fun hnB hnBm => ?_⟩
  rw [un ("B" ++ "_" ++ m) (fun e => qualified_ne_key "B" m (hkeys _ e))
    (fun k hk e => by rw [hkeys k hk] at e; exact hnB (qualified_inj_name _ _ _ e).symm)
    (fun e => hnBm e.symm) (B_qualified_ne_meta m)]
  by_cases hx : "B" ++ "_" ++ m ∈ Obj.enumerable (h.proto A)
  · rw [if_pos hx]
  · rw [if_neg hx, if_pos hBn]
    have : "B" ++ "_" ++ m ∉ Obj.keys (h.proto A) :=
      fun e => hx ((Obj.mem_enumerable_iff _ _).2 ⟨e, qualified_ne_constructor "B" m⟩)
    exact ((Obj.not_mem_keys_iff _ _).1 this).symm

/-- C18, witness: a class `A` with the method `m` forked into `B`. -/
theorem fork_backup_under_parent_name_witness :
    ∃ B h', fork asciiUpper Example.oneMethod.2 "B" [("m", Val.fn 2)] (Parents.cls 10)
        = Except.ok (B, h') ∧
      Obj.read (h'.proto B) ("A" ++ "_" ++ "m") = Val.fn 1 ∧
      ("A" ≠ "B" → "A" ≠ "B" ++ "_" ++ "m" →
        Obj.find? (h'.proto B) ("B" ++ "_" ++ "m")
          = Obj.find? (Example.oneMethod.2.proto 10) ("B" ++ "_" ++ "m")) :=
  fork_backup_under_parent_name asciiUpper Example.oneMethod.2 10 "m" "A" (Val.fn 1) (Val.fn 2)
    (by decide) (by decide) (by decide) (by decide) (by decide) (by decide) (by decide)
    (by decide) (by decide) (by decide) (by decide) (by decide)

/-- C18 as stated fails: for `A = define("A", {m: g})` with `g = 1`, the class
`B = fork("B", {m: f}, A)` has no member `B_m`, reading it yields `undefined`;
the function `g` of `A` is the member `A_m`. -/
theorem fork_backup_not_under_own_name :
    (protoOf (fork asciiUpper Example.oneMethod.2 "B" [("m", Val.fn 2)]
        (Parents.cls Example.oneMethod.1))).map (fun o => Obj.find? o "B_m") = some none ∧
      ((fork asciiUpper Example.oneMethod.2 "B" [("m", Val.fn 2)]
        (Parents.cls Example.oneMethod.1)).bind (fun r => r.2.get r.1 "B_m"))
        = Except.ok Val.undefined ∧
      (protoOf (fork asciiUpper Example.oneMethod.2 "B" [("m", Val.fn 2)]
        (Parents.cls Example.oneMethod.1))).map (fun o => Obj.find? o "A_m")
        = some (some (Val.fn 1)) := by
  decide

/-! ## Chains of forks -/

/-- The class `define` makes when the definition gives no constructor and has
no key `__proto__`: a new function, whose prototype object inherits from
`Object.prototype`, has the members of the definition and the metadata name. -/
theorem define_fresh (toUpperCase : Char → String) (h : Heap) (name : String) (d : Obj)
    (hf : (Obj.get d (make_name toUpperCase name)).isFunction = false)
    (hp : "__proto__" ∉ Obj.keys d) :
    ∃ h', define toUpperCase h name d = Except.ok (h.next, h') ∧
      h'.next = h.next + 1 ∧ h'.name = h.name ∧
      (∀ g, g ≠ h.next → h'.obj g = h.obj g ∧ h'.link g = h.link g) ∧
      Heap.plain h' h.next ∧ metaName h' h.next = Except.ok (make_name toUpperCase name) ∧
      ∀ x, x ≠ "_meta" →
        Obj.find? (h'.proto h.next) x
          = if x ∈ Obj.keys d then some (Obj.read d x) else none := by
  have e : define toUpperCase h name d = _ :=
    (define_of_no_ctor toUpperCase h name d hf).trans
      (define_tail_plain _ h.next _ _ [] (Heap.alloc_obj_self h _)
        (Heap.alloc_link_self h _) hp)
  have hfind : ∀ x, x ≠ "_meta" →
      Obj.find? (Obj.write ((Obj.keys d).foldl (fun o k => Obj.write o k (Obj.read d k)) [])
        "_meta" (Val.metaRec (make_name toUpperCase name) none)) x
        = if x ∈ Obj.keys d then some (Obj.read d x) else none := by
    intro x hx
    have : ¬ "_meta" = x := fun e => hx e.symm
    rw [Obj.find?_write, foldl_write_find?]
    simp [this, Obj.find?]
  refine ⟨_, e, rfl, rfl, fun g hg => ?_, ?_, metaName_setObj_meta _ _ _ _ _, ?_⟩
  · exact ⟨(Heap.setObj_obj_other _ _ g _ hg).trans (Heap.alloc_obj_other h Body.noop g hg),
      Heap.alloc_link_other h Body.noop g hg⟩
  · refine Heap.plain_of ⟨_, Heap.setObj_obj_self _ _ _⟩ (Heap.alloc_link_self h Body.noop) ?_
    rw [Heap.setObj_proto_self, hfind "__proto__" (by decide), if_neg hp]
  · intro x hx
    rw [Heap.setObj_proto_self]
    exact hfind x hx

theorem Obj.keys_singleton (m : String) (v : Val) : Obj.keys [(m, v)] = [m] := rfl

theorem Obj.get_singleton_other {m k : String} (v : Val) (h : m ≠ k) :
    Obj.get [(m, v)] k = inherited k := by
  apply Obj.get_of_not_has
  simp [Obj.find?, h]

theorem Val.ne_host_of_not_function {v : Val} (h : v.isFunction = false) (k : String) :
    v ≠ Val.host k := by
  intro e; rw [e] at h; simp [Val.isFunction] at h

theorem Val.ne_fn_of_not_function {v : Val} (h : v.isFunction = false) (f : Ref) :
    v ≠ Val.fn f := by
  intro e; rw [e] at h; simp [Val.isFunction] at h

/-- C2 (amended): for `A = define(a, {m: fA})`, `B = fork(b, {m: fB}, A)` and
`C = fork(c, {m: fC}, B)` with functions `fA`, `fB`, `fC`, where at none of
the normalised names `a`, `b`, `c` the definition yields a function of
`Object.prototype`, `a` and `b` are distinct, `a`, `b`, `c` differ from `m`, and moreover
`m`, `a_m` and `b_m` differ from `_meta`, `a_m` differs from `b`, and none
of `m`, `a`, `b`, `a_m`, `b_m` is `__proto__`: the calls return and the prototype of `C` holds `fC` at `m`, `fB` at `b_m` and `fA`
at `a_m`. -/
theorem fork_chain_backups (toUpperCase : Char → String) (h : Heap) (a b c m : String)
    (fA fB fC : Ref)
    (ha : (Obj.get [(m, Val.fn fA)] (make_name toUpperCase a)).isFunction = false)
    (hb : (Obj.get [(m, Val.fn fB)] (make_name toUpperCase b)).isFunction = false)
    (hc : (Obj.get [(m, Val.fn fC)] (make_name toUpperCase c)).isFunction = false)
    (hab : make_name toUpperCase a ≠ make_name toUpperCase b)
    (ham : make_name toUpperCase a ≠ m) (hbm : make_name toUpperCase b ≠ m)
    (hcm : make_name toUpperCase c ≠ m)
    (x1 : m ≠ "_meta")
    (x2 : make_name toUpperCase a ++ "_" ++ m ≠ "_meta")
    (x3 : make_name toUpperCase b ++ "_" ++ m ≠ "_meta")
    (x4 : make_name toUpperCase a ++ "_" ++ m ≠ make_name toUpperCase b)
    (y1 : m ≠ "__proto__") (y2 : make_name toUpperCase a ≠ "__proto__")
    (y3 : make_name toUpperCase b ≠ "__proto__")
    (y4 : make_name toUpperCase a ++ "_" ++ m ≠ "__proto__")
    (y5 : make_name toUpperCase b ++ "_" ++ m ≠ "__proto__") :
    ∃ A h1 B h2 C h3,
      define toUpperCase h a [(m, Val.fn fA)] = Except.ok (A, h1) ∧
      fork toUpperCase h1 b [(m, Val.fn fB)] (Parents.cls A) = Except.ok (B, h2) ∧
      fork toUpperCase h2 c [(m, Val.fn fC)] (Parents.cls B) = Except.ok (C, h3) ∧
      Obj.read (h3.proto C) m = Val.fn fC ∧
      Obj.read (h3.proto C) (make_name toUpperCase b ++ "_" ++ m) = Val.fn fB ∧
      Obj.read (h3.proto C) (make_name toUpperCase a ++ "_" ++ m) = Val.fn fA := by
  have ga : Obj.get [(m, Val.fn fA)] (make_name toUpperCase a)
      = inherited (make_name toUpperCase a) := Obj.get_singleton_other _ (fun e => ham e.symm)
  have gb : Obj.get [(m, Val.fn fB)] (make_name toUpperCase b)
      = inherited (make_name toUpperCase b) := Obj.get_singleton_other _ (fun e => hbm e.symm)
  have gc : Obj.get [(m, Val.fn fC)] (make_name toUpperCase c)
      = inherited (make_name toUpperCase c) := Obj.get_singleton_other _ (fun e => hcm e.symm)
  rw [ga] at ha
  rw [gb] at hb
  rw [gc] at hc
  have hkeys : ∀ (v : Val) k, k ∈ Obj.keys [(m, v)] → k = m := by
    intro v k hk
    simpa [Obj.keys] using hk
  have hmem : ∀ v : Val, m ∈ Obj.keys [(m, v)] := fun v => by simp [Obj.keys]
  have hnd : ∀ v : Val, (Obj.keys [(m, v)]).Nodup := fun v => by simp [Obj.keys]
  have hrd : ∀ v : Val, Obj.read [(m, v)] m = v := fun v => by simp [Obj.read, Obj.find?]
  -- the class A
  obtain ⟨h1, eA, nx1, _, _, plA, mnA, fdA⟩ :=
    define_fresh toUpperCase h a [(m, Val.fn fA)] (by rw [ga]; exact ha)
      (by rw [Obj.keys_singleton]; simpa using fun e => y1 e.symm)
  have hAm : Obj.find? (h1.proto h.next) m = some (Val.fn fA) := by
    rw [fdA m x1, if_pos (hmem _), hrd]
  -- the class B
  obtain ⟨B, h2, eB, _, hB2, _, _, _, plB, mnB, _, _, bkB⟩ :=
    fork_cls_spec toUpperCase h1 b [(m, Val.fn fB)] h.next (make_name toUpperCase a)
      (Parents.cls h.next) (Or.inl rfl) (by rw [nx1]; exact Nat.lt_succ_self _) plA mnA
      (fun k => by rw [gb]; exact Val.ne_host_of_not_function hb k)
      (fun g hg => by rw [gb] at hg; exact absurd hg (Val.ne_fn_of_not_function hb g))
      (fun k hk => by rw [hkeys _ k hk]; exact ⟨y1, y4⟩) y2
      (fun hg => by rw [gb] at hg; exact absurd hg (Val.ne_fn_of_not_function hb _))
  obtain ⟨hBm, hBam⟩ := bkB m (hmem _) (fun e => hbm e.symm) (hnd _)
    (by rw [Obj.lookup_of_find? hAm]; rfl)
    (fun g hg _ => by rw [gb] at hg; exact absurd hg (Val.ne_fn_of_not_function hb g))
    (fun k hk => by rw [hkeys _ k hk]; exact fun e => qualified_ne_key _ m e.symm)
    (fun e => qualified_ne_key _ m (hkeys _ _ e)) (fun e => ham e.symm) x1 x2
  rw [hrd] at hBm
  rw [Obj.lookup_of_find? hAm] at hBam
  -- the class C
  obtain ⟨C, h3, eC, _, _, _, _, _, _, _, _, un, bkC⟩ :=
    fork_cls_spec toUpperCase h2 c [(m, Val.fn fC)] B (make_name toUpperCase b)
      (Parents.cls B) (Or.inl rfl) hB2 plB mnB
      (fun k => by rw [gc]; exact Val.ne_host_of_not_function hc k)
      (fun g hg => by rw [gc] at hg; exact absurd hg (Val.ne_fn_of_not_function hc g))
      (fun k hk => by rw [hkeys _ k hk]; exact ⟨y1, y5⟩) y3
      (fun hg => by rw [gc] at hg; exact absurd hg (Val.ne_fn_of_not_function hc _))
  obtain ⟨hCm, hCbm⟩ := bkC m (hmem _) (fun e => hcm e.symm) (hnd _)
    (by rw [Obj.lookup_of_find? hBm]; rfl)
    (fun g hg _ => by rw [gc] at hg; exact absurd hg (Val.ne_fn_of_not_function hc g))
    (fun k hk => by rw [hkeys _ k hk]; exact fun e => qualified_ne_key _ m e.symm)
    (fun e => qualified_ne_key _ m (hkeys _ _ e)) (fun e => hbm e.symm) x1 x3
  rw [hrd] at hCm
  rw [Obj.lookup_of_find? hBm] at hCbm
  have hCam := un (make_name toUpperCase a ++ "_" ++ m)
    (fun e => qualified_ne_key _ m (hkeys _ _ e))
    (fun k hk e => by rw [hkeys _ k hk] at e; exact hab (qualified_inj_name _ _ _ e))
    x4 x2
  have hen : make_name toUpperCase a ++ "_" ++ m ∈ Obj.enumerable (h2.proto B) :=
    (Obj.mem_enumerable_iff _ _).2
      ⟨(Obj.mem_keys_iff _ _).2 (Obj.has_of_find? hBam), qualified_ne_constructor _ m⟩
  rw [if_pos hen, hBam] at hCam
  exact ⟨h.next, h1, B, h2, C, h3, eA, eB, eC, Obj.read_of_find? hCm, Obj.read_of_find? hCbm,
    Obj.read_of_find? hCam⟩

theorem Heap.plain_congr {h h' : Heap} {g : Ref} (ho : h'.obj g = h.obj g)
    (hl : h'.link g = h.link g) (hp : Heap.plain h g) : Heap.plain h' g := by
  unfold Heap.plain Heap.proto at *
  rw [ho, hl]
  exact hp

/-- C9 (amended): for a class `D`, an existing function whose prototype object
inherits from `Object.prototype` and has no member `__proto__`, with metadata
name `nD`, `E = fork(e, dE, D)` and `F = fork(f, dF, E)`, where `nD` differs
from the normalised name `e`, neither is `_meta` or `__proto__`, `nD` is not
`constructor`, `dF` has no key `nD` and no key `k` with `nD = e_k`; no key of
`dE` or `dF` and no name `nD_k` for a key `k` of `dE` or `e_k` for a key `k` of
`dF` is `__proto__`; what `dE` and `dF` yield at the constructor key is no
built-in function and, if it is a function, an existing one whose prototype
object is of the same kind as that of `D` (for `dF` also `E`); and if it is the
parent itself (`D` for `dE`, `E` for `dF`), neither a key of the definition nor
a name qualified with the parent's name is `_meta`: both calls return, and the
prototype of `F` maps `nD` to `D` and the metadata name of `E` to `E`. -/
theorem fork_chain_parent_references (toUpperCase : Char → String) (h : Heap) (D : Ref)
    (nD e f : String) (dE dF : Obj)
    (hD : D < h.next) (hpl : Heap.plain h D) (hnD : metaName h D = Except.ok nD)
    (hne : nD ≠ make_name toUpperCase e)
    (a1 : nD ≠ "_meta") (a2 : make_name toUpperCase e ≠ "_meta")
    (a3 : nD ∉ Obj.keys dF)
    (a4 : ∀ k, k ∈ Obj.keys dF → nD ≠ make_name toUpperCase e ++ "_" ++ k)
    (a5 : nD ≠ "constructor")
    (y1 : ∀ k, k ∈ Obj.keys dE → k ≠ "__proto__" ∧ nD ++ "_" ++ k ≠ "__proto__")
    (y2 : nD ≠ "__proto__")
    (y3 : ∀ k, k ∈ Obj.keys dF →
      k ≠ "__proto__" ∧ make_name toUpperCase e ++ "_" ++ k ≠ "__proto__")
    (y4 : make_name toUpperCase e ≠ "__proto__")
    (c1 : ∀ k, Obj.get dE (make_name toUpperCase e) ≠ Val.host k)
    (c2 : ∀ g, Obj.get dE (make_name toUpperCase e) = Val.fn g → g < h.next ∧ Heap.plain h g)
    (c3 : Obj.get dE (make_name toUpperCase e) = Val.fn D →
      ∀ k, k ∈ Obj.keys dE → k ≠ "_meta" ∧ nD ++ "_" ++ k ≠ "_meta")
    (c4 : ∀ k, Obj.get dF (make_name toUpperCase f) ≠ Val.host k)
    (c5 : ∀ g, Obj.get dF (make_name toUpperCase f) = Val.fn g →
      (g = h.next ∧ (Obj.get dE (make_name toUpperCase e)).isFunction = false) ∨
        (g < h.next ∧ Heap.plain h g))
    (c6 : ∀ g, Obj.get dF (make_name toUpperCase f) = Val.fn g →
      (g = h.next ∨ Obj.get dE (make_name toUpperCase e) = Val.fn g) →
      ∀ k, k ∈ Obj.keys dF → k ≠ "_meta" ∧ make_name toUpperCase e ++ "_" ++ k ≠ "_meta") :
    ∃ E h1 F h2, fork toUpperCase h e dE (Parents.cls D) = Except.ok (E, h1) ∧
      fork toUpperCase h1 f dF (Parents.cls E) = Except.ok (F, h2) ∧
      Obj.read (h2.proto F) nD = Val.fn D ∧
      Obj.read (h2.proto F) (make_name toUpperCase e) = Val.fn E := by
  obtain ⟨E, h1, eE, hE, hE1, hnx, _, fr1, plE, mnE, pr1, _, _⟩ :=
    fork_cls_spec toUpperCase h e dE D nD (Parents.cls D) (Or.inl rfl) hD hpl hnD c1 c2 y1 y2 c3
  have hEn : (Obj.get dE (make_name toUpperCase e)).isFunction = false → E = h.next := by
    intro hnf
    rcases hE with hE | hE
    · exact hE
    · exact absurd hE (Val.ne_fn_of_not_function hnf E)
  have c2' : ∀ g, Obj.get dF (make_name toUpperCase f) = Val.fn g →
      g < h1.next ∧ Heap.plain h1 g := by
    intro g hg
    by_cases hgE : g = E
    · rw [hgE]; exact ⟨hE1, plE⟩
    · rcases c5 g hg with ⟨h1', h2'⟩ | ⟨h1', h2'⟩
      · exact absurd (h1'.trans (hEn h2').symm) hgE
      · exact ⟨Nat.lt_of_lt_of_le h1' hnx,
          Heap.plain_congr (fr1 g hgE).1 (fr1 g hgE).2 h2'⟩
  obtain ⟨F, h2, eF, _, _, _, _, _, _, _, pr2, un2, _⟩ :=
    fork_cls_spec toUpperCase h1 f dF E (make_name toUpperCase e) (Parents.cls E) (Or.inl rfl)
      hE1 plE mnE c4 c2' y3 y4 (fun hg => c6 E hg hE)
  have hD1 := pr1 a1
  have hen : nD ∈ Obj.enumerable (h1.proto E) :=
    (Obj.mem_enumerable_iff _ _).2 ⟨(Obj.mem_keys_iff _ _).2 (Obj.has_of_find? hD1), a5⟩
  have hD2 := un2 nD a3 a4 hne a1
  rw [if_pos hen, hD1] at hD2
  exact ⟨E, h1, F, h2, eE, eF, Obj.read_of_find? hD2, Obj.read_of_find? (pr2 a2)⟩

/-- C9, witness: the classes `classD`, `classE`, `classF` of the test
`classy.fork`. -/
theorem fork_chain_parent_references_witness :
    ∃ E h1 F h2, fork asciiUpper Example.classD.2 "classE" [] (Parents.cls 1)
        = Except.ok (E, h1) ∧
      fork asciiUpper h1 "classF" [("classF", Val.fn 2)] (Parents.cls E)
        = Except.ok (F, h2) ∧
      Obj.read (h2.proto F) "classD" = Val.fn 1 ∧
      Obj.read (h2.proto F) (make_name asciiUpper "classE") = Val.fn E :=
  fork_chain_parent_references asciiUpper Example.classD.2 1 "classD" "classE" "classF" []
    [("classF", Val.fn 2)] (by decide) (by decide) (by decide) (by decide) (by decide)
    (by decide) (by decide) (by decide) (by decide) (by decide) (by decide) (by decide)
    (by decide)
    (fun k hk => absurd ((by decide : Obj.get [] (make_name asciiUpper "classE")
      = Val.undefined).symm.trans hk) (by simp))
    (fun g hg => absurd ((by decide : Obj.get [] (make_name asciiUpper "classE")
      = Val.undefined).symm.trans hg) (by simp))
    (fun hg => absurd ((by decide : Obj.get [] (make_name asciiUpper "classE")
      = Val.undefined).symm.trans hg) (by simp))
    (fun k hk => absurd ((by decide : Obj.get [("classF", Val.fn 2)]
      (make_name asciiUpper "classF") = Val.fn 2).symm.trans hk) (by simp))
    (fun g hg => by
      have e := (by decide : Obj.get [("classF", Val.fn 2)]
        (make_name asciiUpper "classF") = Val.fn 2).symm.trans hg
      injection e with e
      subst e
      exact Or.inr (by decide))
    (fun g hg hor => by
      have e := (by decide : Obj.get [("classF", Val.fn 2)]
        (make_name asciiUpper "classF") = Val.fn 2).symm.trans hg
      injection e with e
      subst e
      rcases hor with h | h
      · exact absurd h (by decide)
      · exact absurd h (by decide))

/-- C9 as stated fails, for classes with pairwise distinct names: the prototype
of `F` does not map the name of `D = 10` to `D` (1) when `dF` has a member
under that name, (2) when `D` is named `_meta`, (4) when `D` is named `E_x`
and `dF` overrides the inherited function `x`, (5) when the constructor given
in `dE` is `D` itself and `dE` has a member `_meta`; it does not map the name
of `E = 11` to `E` (3) when `E` is named `_meta`, (6) when the constructor
given in `dF` is `E` itself and `dF` has a member `_meta`; (7) for the class
`D = 1` named `constructor` the reference to `D` is assigned to the member
`constructor` of the prototype of `E`, which is not enumerable, and the
prototype of `F = 11` gets no such member: its `constructor` is `F`; (8) for
`e = toString` the first call throws. -/
theorem fork_chain_parent_references_fails :
    (Example.forkTwice (Example.plain "D").2 10 "E" [] "F" [("D", Val.num 5)]).map
        (fun o => Obj.read o "D") = some (Val.num 5) ∧
    (Example.forkTwice (Example.plain "_meta").2 10 "E" [] "F" []).map
        (fun o => Obj.read o "_meta") = some (Val.metaRec "F" (some [some 11])) ∧
    (Example.forkTwice (Example.plain "D").2 10 "_meta" [] "F" []).map
        (fun o => Obj.read o "_meta") = some (Val.metaRec "F" (some [some 11])) ∧
    (Example.forkTwice (orInit (define asciiUpper (Heap.init 10) "E_x" [("x", Val.fn 1)])).2 10
        "E" [] "F" [("x", Val.fn 2)]).map (fun o => Obj.read o "E_x") = some (Val.fn 1) ∧
    (Example.forkTwice (Example.plain "D").2 10 "E" [("E", Val.fn 10), ("_meta", Val.num 5)]
        "F" []).map (fun o => Obj.read o "D") = some Val.undefined ∧
    (Example.forkTwice (Example.plain "D").2 10 "E" [] "F"
        [("F", Val.fn 11), ("_meta", Val.num 5)]).map (fun o => Obj.read o "E")
        = some Val.undefined ∧
    (metaName Example.named.2 1 = Except.ok "constructor" ∧
      (Example.forkTwice Example.named.2 1 "E" [] "F" []).map
        (fun o => Obj.find? o "constructor") = some none ∧
      ((fork asciiUpper Example.named.2 "E" [] (Parents.cls 1)).bind
        (fun r => (fork asciiUpper r.2 "F" [] (Parents.cls r.1)).bind
          (fun r' => r'.2.get r'.1 "constructor"))) = Except.ok (Val.fn 11)) ∧
    errorOf (fork asciiUpper (Example.plain "D").2 "toString" [] (Parents.cls 10))
      = some Err.typeError := by
  decide

/-- C2, witness: the chain `classA`, `classB`, `classC` of the test
`classy.fork` with the method `a`. -/
theorem fork_chain_backups_witness :
    ∃ A h1 B h2 C h3,
      define asciiUpper (Heap.init 10) "classA" [("a", Val.fn 1)] = Except.ok (A, h1) ∧
      fork asciiUpper h1 "classB" [("a", Val.fn 2)] (Parents.cls A) = Except.ok (B, h2) ∧
      fork asciiUpper h2 "classC" [("a", Val.fn 3)] (Parents.cls B) = Except.ok (C, h3) ∧
      Obj.read (h3.proto C) "a" = Val.fn 3 ∧
      Obj.read (h3.proto C) (make_name asciiUpper "classB" ++ "_" ++ "a") = Val.fn 2 ∧
      Obj.read (h3.proto C) (make_name asciiUpper "classA" ++ "_" ++ "a") = Val.fn 1 :=
  fork_chain_backups asciiUpper (Heap.init 10) "classA" "classB" "classC" "a" 1 2 3
    (by decide) (by decide) (by decide) (by decide) (by decide) (by decide) (by decide)
    (by decide) (by decide) (by decide) (by decide) (by decide) (by decide) (by decide)
    (by decide) (by decide)

/-- C2 as stated fails, with names pairwise distinct and different from the
method key: (1) for the method key `_meta` the prototype of `C` holds the
metadata record at `m`, not `fC = 3`; (2) for `a` empty and `m = meta` the key
`a_m` is `_meta` and holds the metadata record, not `fA = 1`; (3) for `b` empty
and `m = meta` the key `b_m` holds the metadata record, not `fB = 2`; (4) for
`a = x`, `m = y`, `b = x_y` the key `a_m` holds the class `B = 11`, not
`fA = 1`; (5) for `a = toString` the call of `define` throws, and so does the
call of `fork` for `b = toString`. -/
theorem fork_chain_backups_fails :
    (Example.chain "A" "B" "C" "_meta").map (fun o => Obj.read o "_meta")
        = some (Val.metaRec "C" (some [some 11])) ∧
    (make_name asciiUpper "" ++ "_" ++ "meta" = "_meta" ∧
      (Example.chain "" "B" "C" "meta").map (fun o => Obj.read o "_meta")
        = some (Val.metaRec "C" (some [some 11]))) ∧
    (make_name asciiUpper "" ++ "_" ++ "meta" = "_meta" ∧
      (Example.chain "A" "" "C" "meta").map (fun o => Obj.read o "_meta")
        = some (Val.metaRec "C" (some [some 11]))) ∧
    (make_name asciiUpper "x" ++ "_" ++ "y" = "x_y" ∧
      make_name asciiUpper "x_y" = "x_y" ∧ make_name asciiUpper "z" = "z" ∧
      (Example.chain "x" "x_y" "z" "y").map (fun o => Obj.read o "x_y")
        = some (Val.fn 11)) ∧
    (errorOf (define asciiUpper (Heap.init 10) "toString" [("m", Val.fn 1)])
        = some Err.typeError ∧
      errorOf (fork asciiUpper Example.oneMethod.2 "toString" [("m", Val.fn 2)]
        (Parents.cls 10)) = some Err.typeError) := by
  decide

/-! ## fork with two parents -/

theorem fork_list_of_no_ctor (toUpperCase : Char → String) (h : Heap) (name : String)
    (d : Obj) (p q : Option Ref) (ps : List (Option Ref))
    (hf : (Obj.get d (make_name toUpperCase name)).isFunction = false) :
    fork toUpperCase h name d (Parents.list (p :: q :: ps))
      = forkFinish (make_name toUpperCase name) d h.next (some (p :: q :: ps))
          (h.alloc Body.noop).2 := by
  cases hv : Obj.get d (make_name toUpperCase name) with
  | fn f => rw [hv] at hf; simp [Val.isFunction] at hf
  | host k => rw [hv] at hf; simp [Val.isFunction] at hf
  | _ => simp [fork, hv]

/-- C3 (amended): for classes `X` and `Y`, existing functions whose prototype
objects inherit from `Object.prototype` and have no member `__proto__`, with
metadata names other than `__proto__`, and a name at whose normalised form
the empty definition yields no function of `Object.prototype`,
`Z = fork(name, {}, [X, Y])` returns, and for every key other than `_meta`, the two parents' names and
`constructor` the prototype of `Z` has the key exactly when the prototype of
`X` or of `Y` has it, with the member of `Y` when `Y` has the key and the
member of `X` otherwise. -/
theorem fork_two_parents (toUpperCase : Char → String) (h : Heap) (name : String)
    (X Y : Ref) (nX nY : String)
    (hi : (Obj.get [] (make_name toUpperCase name)).isFunction = false)
    (hX : X < h.next) (hY : Y < h.next) (pX : Heap.plain h X) (pY : Heap.plain h Y)
    (hnX : metaName h X = Except.ok nX) (hnY : metaName h Y = Except.ok nY)
    (yX : nX ≠ "__proto__") (yY : nY ≠ "__proto__") :
    ∃ Z h', fork toUpperCase h name [] (Parents.list [some X, some Y]) = Except.ok (Z, h') ∧
      ∀ k, k ≠ "_meta" → k ≠ nX → k ≠ nY → k ≠ "constructor" →
        Obj.has (h'.proto Z) k = (Obj.has (h.proto X) k || Obj.has (h.proto Y) k) ∧
        Obj.read (h'.proto Z) k
          = if Obj.has (h.proto Y) k = true then Obj.read (h.proto Y) k
            else Obj.read (h.proto X) k := by
  have hXc : X ≠ h.next := Nat.ne_of_lt hX
  have hYc : Y ≠ h.next := Nat.ne_of_lt hY
  have hX0 : (h.alloc Body.noop).2.proto X = h.proto X := Heap.proto_alloc_other h _ X hXc
  have hd : ∀ (n : String) k, k ∈ Obj.keys ([] : Obj) →
      k ≠ "__proto__" ∧ n ++ "_" ++ k ≠ "__proto__" := by
    intro n k hk
    simp [Obj.keys] at hk
  have hs0 : ForkSafe h.next X nX (h.alloc Body.noop).2 := by
    obtain ⟨oX, hoX⟩ := Heap.plain_obj pX
    refine ⟨⟨[], Heap.alloc_obj_self h _⟩, Heap.alloc_link_self h _,
      ⟨oX, by rw [Heap.alloc_obj_other h _ X hXc]; exact hoX⟩,
      by rw [Heap.alloc_link_other h _ X hXc]; exact pX.2.2, ?_⟩
    rw [metaName_congr (Heap.alloc_obj_other h _ X hXc) (Heap.alloc_link_other h _ X hXc)
      (Heap.alloc_name h _)]
    exact hnX
  obtain ⟨h1, e1, ho1, l1, f1, _, u1, _⟩ :=
    forkParent_safe [] (h.alloc Body.noop).2 hs0
      (by rw [hX0]; exact Heap.plain_not_mem pX) (hd nX) yX (fun e => absurd e.symm hXc)
  have hoY1 : h1.obj Y = h.obj Y :=
    (f1.2.2.2 Y hYc).1.trans (Heap.alloc_obj_other h _ Y hYc)
  have hlY1 : h1.link Y = h.link Y :=
    (f1.2.2.2 Y hYc).2.trans (Heap.alloc_link_other h _ Y hYc)
  have hY1 : h1.proto Y = h.proto Y := by simp [Heap.proto, hoY1]
  have hs1 : ForkSafe h.next Y nY h1 := by
    obtain ⟨oY, hoY⟩ := Heap.plain_obj pY
    refine ⟨ho1, l1, ⟨oY, hoY1.trans hoY⟩, hlY1.trans pY.2.2, ?_⟩
    rw [metaName_congr hoY1 hlY1 (f1.2.1.trans (Heap.alloc_name h _))]
    exact hnY
  obtain ⟨h2, e2, ⟨o2, ho2⟩, _, _, _, u2, _⟩ :=
    forkParent_safe [] h1 hs1 (by rw [hY1]; exact Heap.plain_not_mem pY) (hd nY) yY
      (fun e => absurd e.symm hYc)
  have e3 := Heap.setProp_meta
    (Val.metaRec (make_name toUpperCase name) (some [some X, some Y])) ho2
  have e : fork toUpperCase h name [] (Parents.list [some X, some Y])
      = Except.ok (h.next, h2.setObj h.next (Obj.write o2 "_meta"
          (Val.metaRec (make_name toUpperCase name) (some [some X, some Y])))) := by
    rw [fork_list_of_no_ctor toUpperCase h name [] (some X) (some Y) [] hi]
    simp only [forkFinish, Option.getD, List.foldlM, bind, Except.bind, e1, e2, pure,
      Except.pure, e3]
  refine ⟨_, _, e, ?_⟩
  intro k hk hkX hkY hkc
  have hk' : ¬ "_meta" = k := fun e => hk e.symm
  have hen : ∀ o : Obj, k ∈ Obj.enumerable o ↔ Obj.has o k = true := by
    intro o
    rw [Obj.mem_enumerable_iff, Obj.mem_keys_iff]
    exact ⟨fun a => a.1, fun a => ⟨a, hkc⟩⟩
  have hfind : Obj.find? (Obj.write o2 "_meta"
      (Val.metaRec (make_name toUpperCase name) (some [some X, some Y]))) k
      = if Obj.has (h.proto Y) k = true then Obj.find? (h.proto Y) k
        else if Obj.has (h.proto X) k = true then Obj.find? (h.proto X) k
        else none := by
    rw [Obj.find?_write, if_neg hk', ← Heap.proto_of_obj ho2,
      u2 k (by simp [Obj.keys]) (by simp [Obj.keys]) hkY, hY1,
      u1 k (by simp [Obj.keys]) (by simp [Obj.keys]) hkX, hX0, Heap.proto_alloc_self]
    simp only [hen]
    rfl
  simp only [Heap.setObj_proto_self]
  constructor
  · unfold Obj.has at *
    rw [hfind]
    by_cases h1 : (Obj.find? (h.proto Y) k).isSome = true
    · simp [Obj.has, h1]
    · by_cases h2 : (Obj.find? (h.proto X) k).isSome = true
      · simp [Obj.has, h1, h2]
      · simp [Obj.has, h1, h2]
  · conv_lhs => unfold Obj.read
    rw [hfind]
    by_cases h1 : Obj.has (h.proto Y) k = true
    · simp [h1, Obj.read]
    · by_cases h2 : Obj.has (h.proto X) k = true
      · simp [h1, h2, Obj.read]
      · have h2' : Obj.has (h.proto X) k = false := by simpa using h2
        simp [h1, h2, Obj.read, Obj.find?_eq_none h2']

/-- C3, witness: the classes `classX` and `classY` of the test
`classy.fork-multiple`. -/
theorem fork_two_parents_witness :
    ∃ Z h', fork asciiUpper Example.twoClasses "classZ" []
        (Parents.list [some 10, some 11]) = Except.ok (Z, h') ∧
      ∀ k, k ≠ "_meta" → k ≠ "classX" → k ≠ "classY" → k ≠ "constructor" →
        Obj.has (h'.proto Z) k
          = (Obj.has (Example.twoClasses.proto 10) k
              || Obj.has (Example.twoClasses.proto 11) k) ∧
        Obj.read (h'.proto Z) k
          = if Obj.has (Example.twoClasses.proto 11) k = true
            then Obj.read (Example.twoClasses.proto 11) k
            else Obj.read (Example.twoClasses.proto 10) k :=
  fork_two_parents asciiUpper Example.twoClasses "classZ" 10 11 "classX" "classY"
    (by decide) (by decide) (by decide) (by decide) (by decide) (by decide) (by decide)
    (by decide) (by decide)

/-- C3 as stated fails at the key `constructor`, which the loop over the
members of a parent does not visit: (1) for the classes `X = 10` and `Y = 11`
of the test `classy.fork-multiple`, the prototype of `Y` holds `Y` there and
that of `Z = 12` holds `Z`; (2) for `X = define("X", {constructor: 1})` and
`Y = define("Y", {})` the prototype of `X` has the member `constructor`, the
function `1`, and the prototype of `Z = 12` has no such member and holds `Z`
there. -/
theorem fork_two_parents_skips_constructor :
    (Example.twoClasses.get 11 "constructor" = Except.ok (Val.fn 11) ∧
      ((fork asciiUpper Example.twoClasses "Z" [] (Parents.list [some 10, some 11])).bind
        (fun r => r.2.get r.1 "constructor")) = Except.ok (Val.fn 12)) ∧
    (Obj.find? (Example.withConstructor.proto 10) "constructor" = some (Val.fn 1) ∧
      Obj.has (Example.withConstructor.proto 11) "constructor" = false ∧
      (protoOf (fork asciiUpper Example.withConstructor "Z" []
        (Parents.list [some 10, some 11]))).map (fun o => Obj.find? o "constructor")
        = some none ∧
      ((fork asciiUpper Example.withConstructor "Z" []
        (Parents.list [some 10, some 11])).bind
        (fun r => r.2.get r.1 "constructor")) = Except.ok (Val.fn 12)) := by
  decide

/-! ## The body of the constructor `fork` makes -/

theorem copyParent_body {c p : Ref} {h h' : Heap} (e : copyParent c p h = Except.ok h') :
    h'.body = h.body := by
  unfold copyParent at e
  cases ho : h.obj p with
  | none =>
    simp only [ho, pure, Except.pure] at e
    injection e with e
    rw [e]
  | some o =>
    simp only [ho] at e
    by_cases hl : h.link p = none ∨ h.link p = some Val.null
    · rw [if_pos hl] at e
      exact foldlM_preserves _ (fun s => s.body = h.body) _
        (fun s a s' _ hs es => (Heap.setProp_body es).trans hs) h h' rfl e
    · rw [if_neg hl] at e
      exact Except.noConfusion e

theorem forkStep_body {d : Obj} {c p : Ref} {h h' : Heap} {k : String}
    (e : forkStep d c p h k = Except.ok h') : h'.body = h.body := by
  simp only [forkStep, bind, Except.bind] at e
  cases hc : h.get c k with
  | error err => simp [hc] at e
  | ok cur =>
    simp only [hc] at e
    by_cases hf : cur.isFunction = true
    · rw [if_pos hf] at e
      cases hn : metaName h p with
      | error err => simp [hn] at e
      | ok n =>
        simp only [hn] at e
        cases ho : h.get p k with
        | error err => simp [ho] at e
        | ok old =>
          simp only [ho] at e
          cases h1 : h.setProp c (n ++ "_" ++ k) old with
          | error err => simp [h1] at e
          | ok h2 =>
            simp only [h1] at e
            rw [Heap.setProp_body e, Heap.setProp_body h1]
    · rw [if_neg hf] at e
      exact Heap.setProp_body e

theorem forkParent_body {d : Obj} {c : Ref} {h h' : Heap} {p : Option Ref}
    (e : forkParent d c h p = Except.ok h') : h'.body = h.body := by
  cases p with
  | none =>
    simp only [forkParent, pure, Except.pure] at e
    injection e with e
    rw [e]
  | some p =>
    simp only [forkParent, bind, Except.bind] at e
    cases h1 : copyParent c p h with
    | error err => simp [h1] at e
    | ok h2 =>
      simp only [h1] at e
      cases h3 : (Obj.keys d).foldlM (forkStep d c p) h2 with
      | error err => simp [h3] at e
      | ok h4 =>
        simp only [h3] at e
        have hb : h4.body = h2.body :=
          foldlM_preserves _ (fun s => s.body = h2.body) _
            (fun s a s' _ hs es => (forkStep_body es).trans hs) h2 h4 rfl h3
        cases hn : metaName h4 p with
        | error err => simp [hn] at e
        | ok n =>
          simp only [hn] at e
          rw [Heap.setProp_body e, hb, copyParent_body h1]

theorem forkFinish_body {n : String} {d : Obj} {c : Ref} {ps : Option (List (Option Ref))}
    {h : Heap} {c' : Ref} {h' : Heap}
    (e : forkFinish n d c ps h = Except.ok (c', h')) : c' = c ∧ h'.body = h.body := by
  simp only [forkFinish, bind, Except.bind] at e
  cases h1 : (ps.getD []).foldlM (forkParent d c) h with
  | error err => simp [h1] at e
  | ok h2 =>
    simp only [h1] at e
    cases h3 : h2.setProp c "_meta" (Val.metaRec n ps) with
    | error err => simp [h3] at e
    | ok h4 =>
      simp only [h3, pure, Except.pure] at e
      injection e with e
      injection e with e1 e2
      refine ⟨e1.symm, ?_⟩
      rw [← e2, Heap.setProp_body h3]
      exact foldlM_preserves _ (fun s => s.body = h.body) _
        (fun s a s' _ hs es => (forkParent_body es).trans hs) h h2 rfl h1

theorem Obj.get_of_read_not_function {d : Obj} {k : String}
    (hf : (Obj.read d k).isFunction = false) :
    (Obj.get d k).isFunction = false ∨ Obj.get d k = Val.host k := by
  unfold Obj.read at hf
  unfold Obj.get
  cases hv : Obj.find? d k with
  | none => exact inherited_cases k
  | some v =>
    left
    rw [hv] at hf
    exact hf

theorem fork_of_host {toUpperCase : Char → String} {h : Heap} {name : String} {d : Obj}
    {parents : Parents} {k : String} {r : Ref × Heap}
    (hv : Obj.get d (make_name toUpperCase name) = Val.host k) :
    fork toUpperCase h name d parents ≠ Except.ok r := by
  intro e
  simp only [fork, hv] at e
  by_cases hk : k = "constructor"
  · rw [if_pos hk] at e; exact Except.noConfusion e
  · rw [if_neg hk] at e; exact Except.noConfusion e

/-- C8: when the definition has no function at the normalised name and `fork`
returns: with a single class `p`, or the one-element list of `p`, as parents,
running the constructor of the returned class is calling `p` on the same
instance with the same arguments; with a list of more than one element, the
constructor returns the instance unchanged. -/
theorem fork_synthesized_constructor (toUpperCase : Char → String) (h : Heap) (name : String)
    (d : Obj) (parents : Parents) (c : Ref) (h' : Heap)
    (σ : Type) (call : Ref → Effect σ) (userEffect : Effect σ) (this : σ)
    (arguments : List Val)
    (hf : (Obj.read d (make_name toUpperCase name)).isFunction = false)
    (e : fork toUpperCase h name d parents = Except.ok (c, h')) :
    (∀ p, parents = Parents.cls p ∨ parents = Parents.list [some p] →
        Body.run call userEffect (h'.body c) this arguments = call p this arguments) ∧
    (∀ ps, parents = Parents.list ps → 1 < ps.length →
        Body.run call userEffect (h'.body c) this arguments = Except.ok this) := by
  have hg : (Obj.get d (make_name toUpperCase name)).isFunction = false := by
    rcases Obj.get_of_read_not_function hf with hg | hg
    · exact hg
    · exact absurd e (fork_of_host hg)
  constructor
  · intro p hp
    have e' : forkFinish (make_name toUpperCase name) d h.next (some [some p])
        (h.alloc (Body.delegate (some p))).2 = Except.ok (c, h') := by
      rw [← fork_of_no_ctor toUpperCase h name d p parents hp hg]; exact e
    obtain ⟨hc, hb⟩ := forkFinish_body e'
    rw [hb, hc, Heap.alloc_body_self]
    rfl
  · intro ps hps hlen
    match ps, hlen with
    | p :: q :: ps, _ =>
      rw [hps, fork_list_of_no_ctor toUpperCase h name d p q ps hg] at e
      obtain ⟨hc, hb⟩ := forkFinish_body e
      rw [hb, hc, Heap.alloc_body_self]
      rfl

/-- C8, witness: the class `classE` of the test `classy.fork`, forked from
`classD` without a constructor: running its constructor is calling `classD`. -/
theorem fork_synthesized_constructor_witness :
    Body.run (fun p s _ => Except.ok (s + p)) (fun s _ => Except.ok s)
      ((orInit (fork asciiUpper Example.classD.2 "classE" []
        (Parents.cls Example.classD.1))).2.body
        (orInit (fork asciiUpper Example.classD.2 "classE" []
          (Parents.cls Example.classD.1))).1) (5 : Nat) []
      = Except.ok 6 :=
  (fork_synthesized_constructor asciiUpper Example.classD.2 "classE" []
    (Parents.cls Example.classD.1) _ _ Nat (fun p s _ => Except.ok (s + p))
    (fun s _ => Except.ok s) 5 [] (by decide) rfl).1 1 (Or.inl rfl)

/-! ## fork: a backup for a parent without the member -/

/-- C19, the code at the failing input: with the parents `X`, which has the
method `k`, and `Y`, whose prototype has no member `k`, `fork("Z", {k: f}, [X, Y])`
gives the prototype an entry `Y_k`, holding `undefined`; and with `Y` twice as
parent, where no parent has `k`, the round of the second parent writes `Y_k`
because the first round put the function of the definition at `k`. -/
theorem fork_writes_backup_for_parent_without_member :
    Obj.has (Example.methodAndPlain.proto 11) "k" = false ∧
      metaName Example.methodAndPlain 11 = Except.ok "Y" ∧
      (protoOf (fork asciiUpper Example.methodAndPlain "Z" [("k", Val.fn 2)]
        (Parents.list [some 10, some 11]))).map (fun o => Obj.find? o "Y_k")
        = some (some Val.undefined) ∧
      (protoOf (fork asciiUpper Example.methodAndPlain "Z" [("k", Val.fn 2)]
        (Parents.list [some 11, some 11]))).map (fun o => Obj.find? o "Y_k")
        = some (some Val.undefined) := by
  decide

/-! ## fork without parents -/

theorem forkParents_none (d : Obj) (c : Ref) (ps : List (Option Ref))
    (hps : ∀ p, p ∈ ps → p = none) (h : Heap) :
    ps.foldlM (forkParent d c) h = Except.ok h := by
  induction ps with
  | nil => rfl
  | cons p ps ih =>
    have hp : p = none := hps p (List.mem_cons_self _ _)
    subst hp
    simp only [List.foldlM, forkParent, bind, Except.bind, pure, Except.pure]
    exact ih (fun p hp => hps p (List.mem_cons_of_mem _ hp))

theorem forkFinish_none (n : String) (d : Obj) (c : Ref) (ps : List (Option Ref))
    (hps : ∀ p, p ∈ ps → p = none) (h : Heap) (o : Obj) (ho : h.obj c = some o) :
    forkFinish n d c (some ps) h
      = Except.ok (c, h.setObj c (Obj.write o "_meta" (Val.metaRec n (some ps)))) := by
  unfold forkFinish
  simp only [Option.getD, bind, Except.bind]
  rw [forkParents_none d c ps hps h]
  simp only [Heap.setProp_meta _ ho]
  rfl

theorem forkFinish_none_error (n : String) (d : Obj) (c : Ref) (ps : List (Option Ref))
    (hps : ∀ p, p ∈ ps → p = none) (h : Heap) (ho : h.obj c = none) :
    forkFinish n d c (some ps) h = Except.error Err.typeError := by
  unfold forkFinish
  simp only [Option.getD, bind, Except.bind]
  rw [forkParents_none d c ps hps h]
  simp only [Heap.setProp, ho]

/-- C20 (amended): for every name, definition `d` and parents list whose
entries are all null or undefined (the empty list included): when what `d`
yields at the normalised name is no function, `fork` returns a new function
whose prototype holds the metadata record and nothing else; when it is a
function `f` that has a prototype object, `fork` returns `f`, whose prototype
is what it was before the call with the metadata record assigned; when it is a
function without a prototype object, or a function of `Object.prototype` other
than `Object`, `fork` throws a TypeError.  No member of `d` is copied. -/
theorem fork_no_parents (toUpperCase : Char → String) (h : Heap) (name : String) (d : Obj)
    (ps : List (Option Ref)) (hps : ∀ p, p ∈ ps → p = none) :
    ((Obj.get d (make_name toUpperCase name)).isFunction = false →
      ∃ h', fork toUpperCase h name d (Parents.list ps) = Except.ok (h.next, h') ∧
        h'.proto h.next
          = [("_meta", Val.metaRec (make_name toUpperCase name) (some ps))]) ∧
    (∀ f o, Obj.get d (make_name toUpperCase name) = Val.fn f → h.obj f = some o →
      ∃ h', fork toUpperCase h name d (Parents.list ps) = Except.ok (f, h') ∧
        h'.proto f = Obj.write o "_meta"
          (Val.metaRec (make_name toUpperCase name) (some ps))) ∧
    (∀ f, Obj.get d (make_name toUpperCase name) = Val.fn f → h.obj f = none →
      fork toUpperCase h name d (Parents.list ps) = Except.error Err.typeError) ∧
    (∀ k, Obj.get d (make_name toUpperCase name) = Val.host k → k ≠ "constructor" →
      fork toUpperCase h name d (Parents.list ps) = Except.error Err.typeError) := by
  refine ⟨?_, ?_, ?_, ?_⟩
  · intro hf
    have hfork : ∃ b : Body, fork toUpperCase h name d (Parents.list ps)
        = forkFinish (make_name toUpperCase name) d h.next (some ps) (h.alloc b).2 := by
      match ps with
      | [] =>
        refine ⟨Body.noop, ?_⟩
        cases hv : Obj.get d (make_name toUpperCase name) with
        | fn f => rw [hv] at hf; simp [Val.isFunction] at hf
        | host k => rw [hv] at hf; simp [Val.isFunction] at hf
        | _ => simp [fork, hv]
      | [p] =>
        refine ⟨Body.delegate p, ?_⟩
        cases hv : Obj.get d (make_name toUpperCase name) with
        | fn f => rw [hv] at hf; simp [Val.isFunction] at hf
        | host k => rw [hv] at hf; simp [Val.isFunction] at hf
        | _ => simp [fork, hv]
      | p :: q :: ps => exact ⟨_, fork_list_of_no_ctor toUpperCase h name d p q ps hf⟩
    obtain ⟨b, hb⟩ := hfork
    refine ⟨_, hb.trans (forkFinish_none _ d h.next ps hps _ [] (Heap.alloc_obj_self h b)), ?_⟩
    rw [Heap.setObj_proto_self]
    rfl
  · intro f o hv ho
    refine ⟨_, ?_, Heap.setObj_proto_self h f _⟩
    simp only [fork, hv]
    rw [forkFinish_none _ _ f ps hps h o ho]
  · intro f hv ho
    simp only [fork, hv]
    exact forkFinish_none_error _ _ f ps hps h ho
  · intro k hv hk
    simp only [fork, hv]
    rw [if_neg hk]

/-- C20, witness: a definition with two members and the parents list holding
one null. -/
theorem fork_no_parents_witness :
    ∃ h', fork asciiUpper (Heap.init 10) "A" [("a", Val.fn 1), ("b", Val.num 2)]
        (Parents.list [none]) = Except.ok (10, h') ∧
      h'.proto 10 = [("_meta", Val.metaRec "A" (some [none]))] :=
  (fork_no_parents asciiUpper (Heap.init 10) "A"
    [("a", Val.fn 1), ("b", Val.num 2)] [none] (by decide)).1 (by decide)

/-- C20 as stated fails: (1) after `define("A", {A: f, B: f})`, the call
`fork("C", {C: f, B: f}, [])` returns `f`, whose prototype holds, besides the
metadata record, the member `B`, which is a member of the definition; (2) the
call `fork("toString", {}, [])` takes the function `toString` of
`Object.prototype` for the constructor and throws; (3) so does
`fork("C", {C: f}, [])` for a function `f` without a prototype object. -/
theorem fork_no_parents_keeps_constructor_members :
    (protoOf (fork asciiUpper Example.reused "C" [("C", Val.fn 0), ("B", Val.fn 0)]
        (Parents.list []))
      = some [("B", Val.fn 0), ("_meta", Val.metaRec "C" (some []))] ∧
      Obj.read [("C", Val.fn 0), ("B", Val.fn 0)] "B" = Val.fn 0) ∧
    errorOf (fork asciiUpper (Heap.init 10) "toString" [] (Parents.list []))
      = some Err.typeError ∧
    errorOf (fork asciiUpper Example.arrow "C" [("C", Val.fn 0)] (Parents.list []))
      = some Err.typeError := by
  decide

/-! ## Namespace objects -/

theorem Members.find?_assign (ms : Members) (k k' : String) (v : Member) :
    Members.find? (Members.write ms k v) k'
      = if k = k' then some v else Members.find? ms k' := by
  induction ms with
  | nil => simp [Members.write, Members.find?]
  | cons p rest ih =>
    obtain ⟨k0, v0⟩ := p
    by_cases h0 : k0 = k
    · subst h0
      by_cases h1 : k0 = k' <;> simp [Members.write, Members.find?, h1]
    · by_cases h1 : k0 = k'
      · subst h1
        have : ¬ k = k0 := fun e => h0 e.symm
        simp [Members.write, Members.find?, h0, this]
      · simp [Members.write, Members.find?, h0, h1, ih]

/-! ## Keys that begin with `$` -/

theorem startsDollar_ne_meta {k : String} (hk : startsDollar k = true) : k ≠ "_meta" := by
  intro e
  rw [e] at hk
  exact absurd hk (by decide)

theorem startsDollar_ne_proto {k : String} (hk : startsDollar k = true) : k ≠ "__proto__" := by
  intro e
  rw [e] at hk
  exact absurd hk (by decide)

theorem startsDollar_ne_constructor {k : String} (hk : startsDollar k = true) :
    k ≠ "constructor" := by
  intro e
  rw [e] at hk
  exact absurd hk (by decide)

theorem inherited_dollar {k : String} (hk : startsDollar k = true) :
    inherited k = Val.undefined := by
  have h1 : ∀ x, x ∈ objectPrototypeFunctions → startsDollar x = false := by decide
  have h2 : k ∉ objectPrototypeFunctions := by
    intro hm
    rw [h1 k hm] at hk
    exact absurd hk (by decide)
  unfold inherited
  rw [if_neg h2, if_neg (startsDollar_ne_proto hk)]

/-- A read at a key that begins with `$` which yields a function has found a
member. -/
theorem Heap.get_dollar_fn {h : Heap} {f : Ref} {k : String} {g : Ref}
    (hk : startsDollar k = true) (e : h.get f k = Except.ok (Val.fn g)) :
    ∃ o, h.obj f = some o ∧ Obj.find? o k = some (Val.fn g) := by
  unfold Heap.get at e
  cases ho : h.obj f with
  | none => rw [ho] at e; exact absurd e (by simp)
  | some o =>
    refine ⟨o, rfl, ?_⟩
    simp only [ho] at e
    cases hf : Obj.find? o k with
    | some v =>
      simp only [hf] at e
      injection e with e
      rw [e]
    | none =>
      simp only [hf, if_neg (startsDollar_ne_constructor hk)] at e
      cases hl : h.link f with
      | none =>
        simp only [hl, inherited_dollar hk] at e
        injection e with e
        exact Val.noConfusion e
      | some v =>
        cases v <;> simp [hl, startsDollar_ne_proto hk] at e

/-! ## classy.space without a source: one round of the definition loop -/

theorem spaceStep_skip (source : Src) (d : Obj) (cls r : Ref) (st : Members × World)
    (i : String) (hi : startsDollar i = false) :
    spaceStep source d cls r st i = Except.ok st := by
  simp [spaceStep, hi, pure, Except.pure]

/-- A round that returns, for a key that begins with `$` and no source: the
member is assigned, and the world changes only when the prototype of the class
yields a function at the key, which is then replaced by a new function bound to
the namespace. -/
theorem spaceStep_ok (d : Obj) (cls r : Ref) (st st' : Members × World) (i : String)
    (hi : startsDollar i = true)
    (e : spaceStep (Src.item Item.undefined) d cls r st i = Except.ok st') :
    st'.1 = Members.write st.1 i (Member.val (Obj.read d i)) ∧
      ((∃ g h1, st.2.heap.get cls i = Except.ok (Val.fn g) ∧
          (st.2.bind g r).2.heap.setProp cls i (Val.fn (st.2.bind g r).1) = Except.ok h1 ∧
          st'.2 = { (st.2.bind g r).2 with heap := h1 }) ∨
        (∃ v, st.2.heap.get cls i = Except.ok v ∧ v.isFunction = false ∧
          v ≠ Val.undefined ∧ st'.2 = st.2)) := by
  simp only [spaceStep, hi, if_true, Src.truthy, Bool.and_false, bind, Except.bind, pure,
    Except.pure] at e
  cases hg : st.2.heap.get cls i with
  | error err => simp [hg] at e
  | ok v =>
    simp only [hg] at e
    cases v with
    | undefined => simp at e
    | null => simp at e
    | host k => simp at e
    | fn g =>
      simp only at e
      cases h1 : (st.2.bind g r).2.heap.setProp cls i (Val.fn (st.2.bind g r).1) with
      | error err => simp [h1] at e
      | ok h1v =>
        simp only [h1] at e
        injection e with e
        subst e
        exact ⟨rfl, Or.inl ⟨g, h1v, rfl, h1, rfl⟩⟩
    | bool b =>
      simp only at e
      injection e with e
      subst e
      exact ⟨rfl, Or.inr ⟨_, rfl, rfl, fun h => Val.noConfusion h, rfl⟩⟩
    | num n =>
      simp only at e
      injection e with e
      subst e
      exact ⟨rfl, Or.inr ⟨_, rfl, rfl, fun h => Val.noConfusion h, rfl⟩⟩
    | str s =>
      simp only at e
      injection e with e
      subst e
      exact ⟨rfl, Or.inr ⟨_, rfl, rfl, fun h => Val.noConfusion h, rfl⟩⟩
    | metaRec n ps =>
      simp only at e
      injection e with e
      subst e
      exact ⟨rfl, Or.inr ⟨_, rfl, rfl, fun h => Val.noConfusion h, rfl⟩⟩
    | objectPrototype =>
      simp only at e
      injection e with e
      subst e
      exact ⟨rfl, Or.inr ⟨_, rfl, rfl, fun h => Val.noConfusion h, rfl⟩⟩

/-! ## World: binding a function -/

theorem World.bind_fst (w : World) (f r : Ref) : (w.bind f r).1 = w.heap.next := rfl

theorem World.bind_next (w : World) (f r : Ref) :
    (w.bind f r).2.heap.next = w.heap.next + 1 := rfl

theorem World.bind_spaces (w : World) (f r : Ref) : (w.bind f r).2.spaces = w.spaces := rfl

theorem World.bind_nextSpace (w : World) (f r : Ref) :
    (w.bind f r).2.nextSpace = w.nextSpace := rfl

theorem World.bind_bound_new (w : World) (f r : Ref) :
    (w.bind f r).2.bound w.heap.next
      = some (match w.bound f with
        | some t => t
        | none => (f, r)) := by
  simp [World.bind]

theorem World.bind_bound_other (w : World) (f r g : Ref) (hg : g ≠ w.heap.next) :
    (w.bind f r).2.bound g = w.bound g := by
  simp [World.bind, Function.update, hg]

theorem World.bind_obj_other (w : World) (f r g : Ref) (hg : g ≠ w.heap.next) :
    (w.bind f r).2.heap.obj g = w.heap.obj g := by
  simp [World.bind, Heap.allocBound, Function.update, hg]

theorem World.bind_link_other (w : World) (f r g : Ref) (hg : g ≠ w.heap.next) :
    (w.bind f r).2.heap.link g = w.heap.link g := by
  simp [World.bind, Heap.allocBound, Function.update, hg]

/-- The round of a key that begins with `$` at which the prototype of an
existing class yields the function `g`: the member is overwritten with the new
bound function. -/
theorem spaceStep_rebind {w : World} {cls r g : Ref} {i : String} {h1 : Heap}
    (hc : cls < w.heap.next) (hi : startsDollar i = true)
    (hg : w.heap.get cls i = Except.ok (Val.fn g))
    (e : (w.bind g r).2.heap.setProp cls i (Val.fn (w.bind g r).1) = Except.ok h1) :
    ∃ o, w.heap.obj cls = some o ∧ Obj.find? o i = some (Val.fn g) ∧
      h1 = (w.bind g r).2.heap.setObj cls (Obj.write o i (Val.fn w.heap.next)) := by
  obtain ⟨o, ho, hf⟩ := Heap.get_dollar_fn hi hg
  have ho' : (w.bind g r).2.heap.obj cls = some o := by
    rw [World.bind_obj_other _ _ _ _ (Nat.ne_of_lt hc)]; exact ho
  refine ⟨o, ho, hf, ?_⟩
  rw [Heap.setProp_own _ ho' (Obj.has_of_find? hf)] at e
  injection e with e
  exact e.symm

/-! ## classy.space without a source: the invariants of the definition loop -/

theorem spaceStep_frame (w0 : World) (d : Obj) (cls r f : Ref) (st st' : Members × World)
    (i : String) (hf : LoopFrame w0 cls f st)
    (e : spaceStep (Src.item Item.undefined) d cls r st i = Except.ok st') :
    LoopFrame w0 cls f st' := by
  by_cases hi : startsDollar i = true
  · obtain ⟨h1, h2, h3, h4, h5, h6⟩ := hf
    obtain ⟨e1, e2⟩ := spaceStep_ok d cls r st st' i hi e
    have hmeta : ∀ c p n d0, Members.find? st'.1 "$meta" = some (Member.info c p n d0) →
        c = cls := by
      intro c p n d0 hm
      rw [e1, Members.find?_assign] at hm
      by_cases hk : i = "$meta"
      · simp [hk] at hm
      · simp only [hk, if_false] at hm
        exact h6 c p n d0 hm
    unfold LoopFrame
    rcases e2 with ⟨g, hv, hg, es, e2⟩ | ⟨_, _, _, _, e2⟩
    · have hn : hv.next = st.2.heap.next + 1 := (Heap.setProp_next es).trans rfl
      rw [e2]
      refine ⟨?_, ?_, ?_, h4, h5, hmeta⟩
      · show cls < hv.next
        rw [hn]; exact Nat.lt_succ_of_lt h1
      · show f < hv.next
        rw [hn]; exact Nat.lt_succ_of_lt h2
      · show (st.2.bind g r).2.bound f = none
        rw [World.bind_bound_other _ _ _ _ (Nat.ne_of_lt h2)]; exact h3
    · rw [e2]
      exact ⟨h1, h2, h3, h4, h5, hmeta⟩
  · have hi' : startsDollar i = false := by simpa using hi
    rw [spaceStep_skip _ _ _ _ _ _ hi'] at e
    injection e with e
    rw [← e]; exact hf

/-- The round of another key leaves what the prototype of the class yields at
`k`. -/
theorem spaceStep_get_other (d : Obj) (cls r : Ref) (k : String)
    (st st' : Members × World) (i : String) (hik : i ≠ k)
    (hc : cls < st.2.heap.next)
    (e : spaceStep (Src.item Item.undefined) d cls r st i = Except.ok st') :
    st'.2.heap.get cls k = st.2.heap.get cls k ∧
      Obj.find? (st'.2.heap.proto cls) k = Obj.find? (st.2.heap.proto cls) k := by
  by_cases hi : startsDollar i = true
  · obtain ⟨_, e2⟩ := spaceStep_ok d cls r st st' i hi e
    rcases e2 with ⟨g, hv, hg, es, e2⟩ | ⟨_, _, _, _, e2⟩
    · obtain ⟨o, ho, hfo, ehv⟩ := spaceStep_rebind hc hi hg es
      have hne : ¬ i = k := hik
      have hfk : Obj.find? (Obj.write o i (Val.fn st.2.heap.next)) k = Obj.find? o k := by
        rw [Obj.find?_write, if_neg hne]
      have ho' : st'.2.heap.obj cls = some (Obj.write o i (Val.fn st.2.heap.next)) := by
        rw [e2]
        show hv.obj cls = _
        rw [ehv]; exact Heap.setObj_obj_self _ _ _
      have hl' : st'.2.heap.link cls = st.2.heap.link cls := by
        rw [e2]
        show hv.link cls = _
        rw [ehv]
        show (st.2.bind g r).2.heap.link cls = _
        exact World.bind_link_other _ _ _ _ (Nat.ne_of_lt hc)
      refine ⟨Heap.get_congr_find? k ho ho' hfk hl', ?_⟩
      rw [Heap.proto_of_obj ho', Heap.proto_of_obj ho, hfk]
    · rw [e2]; exact ⟨rfl, rfl⟩
  · have hi' : startsDollar i = false := by simpa using hi
    rw [spaceStep_skip _ _ _ _ _ _ hi'] at e
    injection e with e
    rw [← e]; exact ⟨rfl, rfl⟩

theorem spaceStep_pending (w0 : World) (d : Obj) (cls r f : Ref) (k : String)
    (st st' : Members × World) (i : String) (hik : i ≠ k)
    (hf : LoopFrame w0 cls f st) (hp : LoopPending cls f k st)
    (e : spaceStep (Src.item Item.undefined) d cls r st i = Except.ok st') :
    LoopPending cls f k st' := by
  unfold LoopPending
  rw [(spaceStep_get_other d cls r k st st' i hik hf.1 e).1]
  exact hp

/-- The round of `k` itself, when the prototype of the class yields the
function `g` there. -/
theorem spaceStep_self (d : Obj) (cls r g : Ref) (k : String)
    (st st' : Members × World) (hk : startsDollar k = true) (hc : cls < st.2.heap.next)
    (hg : st.2.heap.get cls k = Except.ok (Val.fn g))
    (e : spaceStep (Src.item Item.undefined) d cls r st k = Except.ok st') :
    st.2.heap.next < st'.2.heap.next ∧
      Obj.find? (st'.2.heap.proto cls) k = some (Val.fn st.2.heap.next) ∧
      st'.2.bound st.2.heap.next
        = some (match st.2.bound g with
          | some t => t
          | none => (g, r)) := by
  obtain ⟨_, e2⟩ := spaceStep_ok d cls r st st' k hk e
  rcases e2 with ⟨g', hv, hg', es, e2⟩ | ⟨v, hv, hnf, _, _⟩
  · have hgg : g' = g := by
      rw [hg] at hg'
      injection hg' with hg'
      injection hg' with hg'
      exact hg'.symm
    subst hgg
    obtain ⟨o, ho, hfo, ehv⟩ := spaceStep_rebind hc hk hg es
    refine ⟨?_, ?_, ?_⟩
    · rw [e2]
      show st.2.heap.next < hv.next
      rw [Heap.setProp_next es, World.bind_next]
      exact Nat.lt_succ_self _
    · rw [e2]
      show Obj.find? (hv.proto cls) k = _
      rw [ehv, Heap.setObj_proto_self, Obj.find?_write]
      simp
    · rw [e2]
      show (st.2.bind g' r).2.bound st.2.heap.next = _
      exact World.bind_bound_new _ _ _
  · rw [hg] at hv
    injection hv with hv
    rw [← hv] at hnf
    simp [Val.isFunction] at hnf

theorem spaceStep_done (w0 : World) (d : Obj) (cls r f : Ref) (k : String)
    (st st' : Members × World) (i : String) (hd : Obj.read d k = Val.fn f)
    (hf : LoopFrame w0 cls f st) (hp : LoopDone cls r f k st)
    (e : spaceStep (Src.item Item.undefined) d cls r st i = Except.ok st') :
    LoopDone cls r f k st' := by
  by_cases hi : startsDollar i = true
  · obtain ⟨h1, _, _, _, _, _⟩ := hf
    obtain ⟨hm, b, hb, hbr, hbb⟩ := hp
    obtain ⟨e1, e2⟩ := spaceStep_ok d cls r st st' i hi e
    have hmem : Members.find? st'.1 k = some (Member.val (Val.fn f)) := by
      rw [e1, Members.find?_assign]
      by_cases hik : i = k
      · rw [if_pos hik, hik, hd]
      · rw [if_neg hik]; exact hm
    refine ⟨hmem, ?_⟩
    by_cases hik : i = k
    · -- the key is handled again: the function bound before is bound once more
      subst hik
      have hg : st.2.heap.get cls i = Except.ok (Val.fn b) :=
        Heap.get_own (Heap.obj_of_proto_find? hbr) hbr
      obtain ⟨s1, s2, s3⟩ := spaceStep_self d cls r b i st st' hi h1 hg e
      refine ⟨st.2.heap.next, s1, s2, ?_⟩
      rw [s3, hbb]
    · have hn : st.2.heap.next ≤ st'.2.heap.next := by
        rcases e2 with ⟨g, hv, hg, es, e2⟩ | ⟨_, _, _, _, e2⟩
        · rw [e2]
          show st.2.heap.next ≤ hv.next
          rw [Heap.setProp_next es, World.bind_next]
          exact Nat.le_succ _
        · rw [e2]
      refine ⟨b, Nat.lt_of_lt_of_le hb hn, ?_, ?_⟩
      · rw [(spaceStep_get_other d cls r k st st' i hik h1 e).2]; exact hbr
      · rcases e2 with ⟨g, hv, hg, es, e2⟩ | ⟨_, _, _, _, e2⟩
        · rw [e2]
          show (st.2.bind g r).2.bound b = _
          rw [World.bind_bound_other _ _ _ _ (Nat.ne_of_lt hb)]
          exact hbb
        · rw [e2]; exact hbb
  · have hi' : startsDollar i = false := by simpa using hi
    rw [spaceStep_skip _ _ _ _ _ _ hi'] at e
    injection e with e
    rw [← e]; exact hp

theorem spaceStep_reach (w0 : World) (d : Obj) (cls r f : Ref) (k : String)
    (st st' : Members × World) (hk : startsDollar k = true) (hd : Obj.read d k = Val.fn f)
    (hf : LoopFrame w0 cls f st)
    (hp : LoopPending cls f k st ∨ LoopDone cls r f k st)
    (e : spaceStep (Src.item Item.undefined) d cls r st k = Except.ok st') :
    LoopDone cls r f k st' := by
  rcases hp with hp | hp
  · obtain ⟨hc, _, h3, _, _, _⟩ := hf
    obtain ⟨e1, e2⟩ := spaceStep_ok d cls r st st' k hk e
    have hmem : Members.find? st'.1 k = some (Member.val (Val.fn f)) := by
      rw [e1, Members.find?_assign, if_pos rfl, hd]
    refine ⟨hmem, ?_⟩
    rcases e2 with ⟨g, hv, hg, es, e2⟩ | ⟨v, hv, hnf, hnu, _⟩
    · have hgf : g = f := by
        rcases hp _ hg with hp | hp
        · injection hp
        · exact Val.noConfusion hp
      subst hgf
      obtain ⟨s1, s2, s3⟩ := spaceStep_self d cls r g k st st' hk hc hg e
      refine ⟨st.2.heap.next, s1, s2, ?_⟩
      rw [s3, h3]
    · rcases hp _ hv with hp | hp
      · rw [hp] at hnf; simp [Val.isFunction] at hnf
      · exact absurd hp hnu
  · exact spaceStep_done w0 d cls r f k st st' k hd hf hp e

/-! ## define: what the namespace layer needs -/

theorem Obj.read_of_get_fn {d : Obj} {k : String} {f : Ref} (h : Obj.get d k = Val.fn f) :
    Obj.read d k = Val.fn f := by
  unfold Obj.get at h
  unfold Obj.read
  cases hx : Obj.find? d k with
  | some v => rw [hx] at h; exact h
  | none =>
    rw [hx] at h
    simp only [Option.getD_none] at h
    rcases inherited_cases k with h1 | h1
    · rw [h] at h1; simp [Val.isFunction] at h1
    · rw [h] at h1; exact Val.noConfusion h1

theorem define_of_host_ne {toUpperCase : Char → String} {h : Heap} {name : String} {d : Obj}
    {k : String} {r : Ref × Heap}
    (hv : Obj.get d (make_name toUpperCase name) = Val.host k) :
    define toUpperCase h name d ≠ Except.ok r := by
  intro e
  simp only [define, hv] at e
  by_cases hk : k = "constructor"
  · rw [if_pos hk] at e; exact Except.noConfusion e
  · rw [if_neg hk] at e; exact Except.noConfusion e

/-- The loop and the metadata assignment that end `define`, when they return:
the class exists, and every key of the definition copied, other than `_meta`
and `__proto__`, is a member of the prototype with the value the definition
holds. -/
theorem define_tail_ok {d : Obj} {c : Ref} {n : String} {h : Heap} {r : Ref × Heap}
    (e : (copyDefinition d c h).bind
        (fun h1 => (h1.setProp c "_meta" (Val.metaRec n none)).bind
          (fun h2 => Except.ok (c, h2))) = Except.ok r) :
    r.1 = c ∧ r.2.next = h.next ∧
      ∀ k, k ∈ Obj.keys d → k ≠ "_meta" → k ≠ "__proto__" →
        Obj.find? (r.2.proto c) k = some (Obj.read d k) := by
  cases h1 : copyDefinition d c h with
  | error err => simp [h1, Except.bind] at e
  | ok s1 =>
    cases h2 : s1.setProp c "_meta" (Val.metaRec n none) with
    | error err => simp [h1, h2, Except.bind] at e
    | ok s2 =>
      simp only [h1, h2, Except.bind] at e
      injection e with e
      subst e
      refine ⟨rfl, ?_, ?_⟩
      · show s2.next = h.next
        rw [Heap.setProp_next h2]
        exact (foldlM_setProp_frame c (fun _ k => Obj.read d k) (Obj.keys d) h s1 h1).2.2.1
      · intro k hk hkm hkp
        show Obj.find? (s2.proto c) k = _
        rw [Heap.setProp_find?_other h2 hkm,
          foldlM_setProp_find? c (fun k => Obj.read d k) (Obj.keys d) h s1 h1 k hkp, if_pos hk]

theorem define_ok_facts (toUpperCase : Char → String) (h : Heap) (name : String) (d : Obj)
    (r : Ref × Heap)
    (hwf : ∀ g, Obj.read d (make_name toUpperCase name) = Val.fn g → g < h.next)
    (e : define toUpperCase h name d = Except.ok r) :
    r.1 < r.2.next ∧ h.next ≤ r.2.next ∧
      ∀ k, k ∈ Obj.keys d → k ≠ make_name toUpperCase name → k ≠ "_meta" →
        k ≠ "__proto__" → Obj.find? (r.2.proto r.1) k = some (Obj.read d k) := by
  rcases Val.function_cases (Obj.get d (make_name toUpperCase name)) with ⟨f, hv⟩ | ⟨k, hv⟩ | hv
  · rw [define_of_ctor toUpperCase h name d f hv] at e
    obtain ⟨e1, e2, e3⟩ := define_tail_ok e
    rw [e1, e2]
    refine ⟨hwf f (Obj.read_of_get_fn hv), Nat.le_refl _, ?_⟩
    intro k hk hkn hkm hkp
    rw [e3 k ((Obj.mem_keys_remove _ _ _).2 ⟨hk, hkn⟩) hkm hkp, Obj.read_remove, if_neg hkn]
  · exact absurd e (define_of_host_ne hv)
  · rw [define_of_no_ctor toUpperCase h name d hv] at e
    obtain ⟨e1, e2, e3⟩ := define_tail_ok e
    rw [e1, e2]
    refine ⟨by simp, by simp, ?_⟩
    intro k hk _ hkm hkp
    exact e3 k hk hkm hkp

/-! ## `$define` without a source -/

/-- The steps of `$define` without a source, when it returns: the class, the
definition the loop runs over, and the state the loop ends in. -/
theorem spaceDefine_undefined_ok (up : Char → String) (w : World) (S : Ref) (name : String)
    (d : Obj) (w' : World)
    (e : spaceDefine up w S name (some d) (Src.item Item.undefined) = Except.ok w') :
    ∃ (ch : Ref × Heap) (d' : Obj) (st : Members × World),
      ((name = "" ∧ ch = w.heap.alloc Body.noop ∧ d' = d) ∨
        (name ≠ "" ∧ define up w.heap name d = Except.ok ch ∧
          d' = (if (Obj.get d (make_name up name)).isFunction = true
            then Obj.remove d (make_name up name) else d))) ∧
      (Obj.keys d').foldlM (spaceStep (Src.item Item.undefined) d' ch.1 w.nextSpace)
        (newMembers ch.1 (some S) (Val.str name) (some d'), { w with heap := ch.2 })
        = Except.ok st ∧
      w'.heap = st.2.heap ∧ w'.bound = st.2.bound ∧
      w'.spaces = Function.update (Function.update st.2.spaces w.nextSpace st.1) S
        (Members.write (Function.update st.2.spaces w.nextSpace st.1 S) name
          (Member.space w.nextSpace)) := by
  by_cases hn : name = ""
  · subst hn
    simp only [spaceDefine, resolveSource, space, Src.parents?, define_or_fork, Val.truthy,
      definitionAfter, copyFromSource, Src.truthy, bind, Except.bind, pure, Except.pure] at e
    simp only [ne_eq, not_true_eq_false, decide_False, Bool.not_false, if_true, false_and,
      if_false, Option.getD] at e
    generalize hl : @List.foldlM (Except Err) _ _ _ _ _ _ = res at e
    cases res with
    | error err => simp at e
    | ok st =>
      simp only at e
      injection e with e
      subst e
      exact ⟨_, d, st, Or.inl ⟨rfl, rfl, rfl⟩, hl, rfl, rfl, rfl⟩
  · simp only [spaceDefine, resolveSource, space, Src.parents?, define_or_fork, Val.truthy,
      definitionAfter, copyFromSource, Src.truthy, bind, Except.bind, pure, Except.pure] at e
    simp only [ne_eq, hn, not_false_eq_true, decide_True, Bool.not_true, true_and,
      Option.getD] at e
    cases hdef : define up w.heap name d with
    | error err => simp [hdef] at e
    | ok ch =>
      simp only [hdef] at e
      by_cases hf : (Obj.get d (make_name up name)).isFunction = true
      · simp only [hf, if_true, Bool.false_eq_true, if_false] at e
        generalize hl : @List.foldlM (Except Err) _ _ _ _ _ _ = res at e
        cases res with
        | error err => simp at e
        | ok st =>
          simp only at e
          injection e with e
          subst e
          exact ⟨ch, _, st, Or.inr ⟨hn, rfl, by rw [if_pos hf]⟩, hl, rfl, rfl, rfl⟩
      · simp only [hf, if_false, Bool.false_eq_true] at e
        generalize hl : @List.foldlM (Except Err) _ _ _ _ _ _ = res at e
        cases res with
        | error err => simp at e
        | ok st =>
          simp only at e
          injection e with e
          subst e
          exact ⟨ch, _, st, Or.inr ⟨hn, rfl, by rw [if_neg hf]⟩, hl, rfl, rfl, rfl⟩

/-- A namespace-level method after `$define` without a source: the helper
behind the statement on methods whose key begins with `$`. -/
theorem spaceDefine_method (up : Char → String) (w : World) (S : Ref) (name : String)
    (d : Obj) (k : String) (f : Ref) (w' : World)
    (hS : S < w.nextSpace) (hf : f < w.heap.next) (hfb : w.bound f = none)
    (hwf : ∀ g, Obj.read d (make_name up name) = Val.fn g → g < w.heap.next)
    (hk : startsDollar k = true) (hd : Obj.read d k = Val.fn f)
    (hkc : k ≠ make_name up name) (hinit : "$init" ∉ Obj.keys d)
    (e : spaceDefine up w S name (some d) (Src.item Item.undefined) = Except.ok w') :
    Members.find? (w'.spaces S) name = some (Member.space w.nextSpace) ∧
      Members.find? (w'.spaces w.nextSpace) k = some (Member.val (Val.fn f)) ∧
      w'.bound f = none ∧
      Members.find? (w'.spaces w.nextSpace) "$init" = some (Member.op Op.init) ∧
      ∃ cls b, (∀ c p n d0, Members.find? (w'.spaces w.nextSpace) "$meta"
            = some (Member.info c p n d0) → c = cls) ∧
        Obj.find? (w'.heap.proto cls) k = some (Val.fn b) ∧
        w'.bound b = some (f, w.nextSpace) := by
  obtain ⟨ch, d', st, hcase, hl, eh, eb, es⟩ := spaceDefine_undefined_ok up w S name d w' e
  have hkd : k ∈ Obj.keys d :=
    (Obj.mem_keys_iff _ _).2 (Obj.has_of_find? (Obj.find?_of_read_function hd rfl))
  -- the definition of the loop
  have hd' : Obj.read d' k = Val.fn f ∧ k ∈ Obj.keys d' ∧ "$init" ∉ Obj.keys d' := by
    rcases hcase with ⟨_, _, e3⟩ | ⟨_, _, e3⟩
    · subst e3; exact ⟨hd, hkd, hinit⟩
    · subst e3
      by_cases hfn : (Obj.get d (make_name up name)).isFunction = true
      · rw [if_pos hfn]
        refine ⟨?_, (Obj.mem_keys_remove _ _ _).2 ⟨hkd, hkc⟩,
          fun hx => hinit ((Obj.mem_keys_remove _ _ _).1 hx).1⟩
        rw [Obj.read_remove, if_neg hkc]; exact hd
      · rw [if_neg hfn]; exact ⟨hd, hkd, hinit⟩
  obtain ⟨hd1, hd2, hd3⟩ := hd'
  -- the state the loop starts in
  have hframe0 : LoopFrame w ch.1 f
      (newMembers ch.1 (some S) (Val.str name) (some d'), { w with heap := ch.2 }) := by
    refine ⟨?_, ?_, hfb, rfl, rfl, ?_⟩
    · rcases hcase with ⟨_, e2, _⟩ | ⟨_, e2, _⟩
      · subst e2; simp [Heap.alloc]
      · exact (define_ok_facts up w.heap name d ch hwf e2).1
    · rcases hcase with ⟨_, e2, _⟩ | ⟨_, e2, _⟩
      · subst e2
        show f < w.heap.next + 1
        exact Nat.lt_succ_of_lt hf
      · exact Nat.lt_of_lt_of_le hf (define_ok_facts up w.heap name d ch hwf e2).2.1
    · intro c p n d0 hm
      simp [newMembers, Members.find?] at hm
      exact hm.1.symm
  have hpend0 : LoopPending ch.1 f k
      (newMembers ch.1 (some S) (Val.str name) (some d'), { w with heap := ch.2 }) := by
    intro v hv
    rcases hcase with ⟨_, e2, _⟩ | ⟨_, e2, _⟩
    · subst e2
      right
      have hg : (w.heap.alloc Body.noop).2.get w.heap.next k
          = Except.ok (Obj.lookup w.heap.next [] k) :=
        Heap.get_plain k (Heap.alloc_obj_self _ _) (Heap.alloc_link_self _ _)
      have hv' : (w.heap.alloc Body.noop).2.get w.heap.next k = Except.ok v := hv
      rw [hg] at hv'
      injection hv' with hv'
      rw [← hv']
      simp [Obj.lookup, Obj.find?, startsDollar_ne_constructor hk, inherited_dollar hk]
    · left
      have hfk := (define_ok_facts up w.heap name d ch hwf e2).2.2 k hkd hkc
        (startsDollar_ne_meta hk) (startsDollar_ne_proto hk)
      have hv' : ch.2.get ch.1 k = Except.ok v := hv
      rw [Heap.get_own (Heap.obj_of_proto_find? hfk) hfk, hd] at hv'
      injection hv' with hv'
      exact hv'.symm
  -- the loop
  have hframe : LoopFrame w ch.1 f st :=
    foldlM_preserves _ (LoopFrame w ch.1 f) _
      (fun s a s' _ hs he => spaceStep_frame w d' ch.1 w.nextSpace f s s' a hs he) _ _ hframe0 hl
  have hdone : LoopDone ch.1 w.nextSpace f k st :=
    foldlM_reaches _ (LoopFrame w ch.1 f)
      (fun s => LoopPending ch.1 f k s ∨ LoopDone ch.1 w.nextSpace f k s)
      (LoopDone ch.1 w.nextSpace f k) k _
      (fun s a s' _ hs he => spaceStep_frame w d' ch.1 w.nextSpace f s s' a hs he)
      (fun s a s' _ hak hs hq he => by
        rcases hq with hq | hq
        · exact Or.inl (spaceStep_pending w d' ch.1 w.nextSpace f k s s' a hak hs hq he)
        · exact Or.inr (spaceStep_done w d' ch.1 w.nextSpace f k s s' a hd1 hs hq he))
      (fun s s' hs hq he => spaceStep_reach w d' ch.1 w.nextSpace f k s s' hk hd1 hs hq he)
      (fun s a s' _ hs hr he => spaceStep_done w d' ch.1 w.nextSpace f k s s' a hd1 hs hr he)
      hd2 _ _ hframe0 (Or.inl hpend0) hl
  have hinit' : Members.find? st.1 "$init" = some (Member.op Op.init) :=
    foldlM_preserves _ (fun s => Members.find? s.1 "$init" = some (Member.op Op.init)) _
      (fun s a s' ha hs he => by
        show Members.find? s'.1 "$init" = some (Member.op Op.init)
        have hs' : Members.find? s.1 "$init" = some (Member.op Op.init) := hs
        by_cases hi : startsDollar a = true
        · rw [(spaceStep_ok d' ch.1 w.nextSpace s s' a hi he).1, Members.find?_assign]
          have : ¬ a = "$init" := fun e => hd3 (e ▸ ha)
          rw [if_neg this]; exact hs'
        · have hi' : startsDollar a = false := by simpa using hi
          rw [spaceStep_skip _ _ _ _ _ _ hi'] at he
          injection he with he
          rw [← he]; exact hs')
      _ _ (by simp [newMembers, Members.find?]) hl
  -- the world after the call
  obtain ⟨_, _, h3, h4, _, h6⟩ := hframe
  obtain ⟨hm, b, _, hbr, hbb⟩ := hdone
  have hSne : w.nextSpace ≠ S := fun e => absurd hS (by rw [e]; exact Nat.lt_irrefl _)
  have hA : w'.spaces w.nextSpace = st.1 := by
    rw [es, Function.update_noteq hSne, Function.update_same]
  refine ⟨?_, ?_, ?_, ?_, ch.1, b, ?_, ?_, ?_⟩
  · rw [es, Function.update_same, Members.find?_assign, if_pos rfl]
  · rw [hA]; exact hm
  · rw [eb]; exact h3
  · rw [hA]; exact hinit'
  · rw [hA]; exact h6
  · rw [eh]; exact hbr
  · rw [eb]; exact hbb

/-- C11 (amended): for a namespace `A` created by `$define(name, d)` without a
source on an existing namespace `S`, where `d` holds at a key `k` beginning
with `$` an existing function `f` that is not itself made by `bind`, `k` is not
the normalised name (the constructor key), and `d` has no member `$init`: `k`
is a member of `A` holding `f`; invoked on `A` it runs `f` with `this` equal to
`A`; and for an instance returned by the operation `$init` of `A`, `k` is a
member of the prototype of its class, and invoked on the instance, when the
constructor gave the instance no property `k` of its own, it runs `f` with
`this` equal to `A`. -/
theorem space_method_this (toUpperCase : Char → String) (w : World) (S : Ref)
    (name : String) (d : Obj) (k : String) (f : Ref) (w' : World)
    (hS : S < w.nextSpace) (hf : f < w.heap.next) (hfb : w.bound f = none)
    (hwf : ∀ g, Obj.read d (make_name toUpperCase name) = Val.fn g → g < w.heap.next)
    (hk : startsDollar k = true) (hd : Obj.read d k = Val.fn f)
    (hkc : k ≠ make_name toUpperCase name) (hinit : "$init" ∉ Obj.keys d)
    (e : spaceDefine toUpperCase w S name (some d) (Src.item Item.undefined) = Except.ok w') :
    Members.find? (w'.spaces S) name = some (Member.space w.nextSpace) ∧
      Members.find? (w'.spaces w.nextSpace) k = some (Member.val (Val.fn f)) ∧
      invoke w' (Val.fn f) (Receiver.space w.nextSpace)
        = some (f, Receiver.space w.nextSpace) ∧
      Members.find? (w'.spaces w.nextSpace) "$init" = some (Member.op Op.init) ∧
      ∀ (call : Ref → Effect Obj) (arguments : List Val) (x : Instance),
        spaceInit call w' w.nextSpace arguments = Except.ok x →
        Obj.has (w'.heap.proto x.cls) k = true ∧
        (Obj.find? x.own k = none →
          invoke w' (Instance.read w' x k) (Receiver.object x)
            = some (f, Receiver.space w.nextSpace)) := by
  obtain ⟨h1, h2, h3, h4, cls, b, h5, h6, h7⟩ :=
    spaceDefine_method toUpperCase w S name d k f w' hS hf hfb hwf hk hd hkc hinit e
  refine ⟨h1, h2, by simp [invoke, h3], h4, ?_⟩
  intro call arguments x hx
  unfold spaceInit at hx
  cases hm : Members.find? (w'.spaces w.nextSpace) "$meta" with
  | none => simp [hm] at hx
  | some m =>
    cases m with
    | info c p n d0 =>
      have hc : c = cls := h5 c p n d0 hm
      subst hc
      simp only [hm, bind, Except.bind] at hx
      cases hcall : call c [] arguments with
      | error err => simp [hcall] at hx
      | ok own =>
        simp only [hcall, pure, Except.pure] at hx
        injection hx with hx
        subst hx
        refine ⟨Obj.has_of_find? h6, ?_⟩
        intro hown
        simp [Instance.read, hown, h6, invoke, h7]
    | val v => simp [hm] at hx
    | space s => simp [hm] at hx
    | op o => simp [hm] at hx
    | emptyArray => simp [hm] at hx

/-! ## Statements on namespaces evaluated on concrete programs -/

/-- C11, witness: the namespace `test.A` of the test `space.define`. -/
theorem space_method_this_witness :
    Members.find? ((orWorld Example.defineA).spaces 1) "$test_classmethod"
        = some (Member.val (Val.fn 1)) ∧
      invoke (orWorld Example.defineA) (Val.fn 1) (Receiver.space 1)
        = some (1, Receiver.space 1) ∧
      invoke (orWorld Example.defineA)
        (Instance.read (orWorld Example.defineA) { cls := 2, own := [] } "$test_classmethod")
        (Receiver.object { cls := 2, own := [] }) = some (1, Receiver.space 1) :=
  have h := space_method_this asciiUpper Example.root 0 "A"
    [("$test_classmethod", Val.fn 1), ("A", Val.fn 2), ("test", Val.fn 3)]
    "$test_classmethod" 1 (orWorld Example.defineA) (by decide) (by decide) (by decide)
    (fun g hg => by
      have e : Val.fn 2 = Val.fn g := hg
      injection e with e
      subst e
      decide)
    (by decide) (by decide) (by decide) (by decide) rfl
  ⟨h.2.1, h.2.2.1,
    (h.2.2.2.2 (fun _ this _ => Except.ok this) [] { cls := 2, own := [] } (by decide)).2
      (by decide)⟩

/-- C11 as stated fails: (1) for the name `$x` the member `$x` of the
definition is the constructor, and the namespace has no member `$x`; (2) a
member `$init` of the definition replaces the operation `$init`, so that
`A.$init(...)` runs the caller's function; (3) a method of the definition that
is a function bound to another namespace, here the prototype member
`$test_class` of `test.B`, runs with `this` equal to that namespace, `2`, when
invoked on the new namespace `3`; (4) a constructor that gives the instance a
property of its own at the key hides the member of the prototype. -/
theorem space_method_this_fails :
    Members.find? ((orWorld (spaceDefine asciiUpper Example.root 0 "$x"
        (some [("$x", Val.fn 1)]) (Src.item Item.undefined))).spaces 1) "$x" = none ∧
    Members.find? ((orWorld (spaceDefine asciiUpper Example.root 0 "A"
        (some [("$k", Val.fn 1), ("$init", Val.fn 2)]) (Src.item Item.undefined))).spaces 1)
        "$init" = some (Member.val (Val.fn 2)) ∧
    (Members.find? ((orWorld (spaceDefine asciiUpper Example.spaceB 0 "D"
        (some [("$m", Val.fn 13)]) (Src.item Item.undefined))).spaces 3) "$m"
        = some (Member.val (Val.fn 13)) ∧
      invoke (orWorld (spaceDefine asciiUpper Example.spaceB 0 "D"
        (some [("$m", Val.fn 13)]) (Src.item Item.undefined))) (Val.fn 13) (Receiver.space 3)
        = some (2, Receiver.space 2)) ∧
    (spaceInit (fun _ this _ => Except.ok (Obj.write this "$test_classmethod" (Val.num 0)))
        (orWorld Example.defineA) 1 []
        = Except.ok { cls := 2, own := [("$test_classmethod", Val.num 0)] } ∧
      invoke (orWorld Example.defineA)
        (Instance.read (orWorld Example.defineA)
          { cls := 2, own := [("$test_classmethod", Val.num 0)] } "$test_classmethod")
        (Receiver.object { cls := 2, own := [("$test_classmethod", Val.num 0)] }) = none) := by
  decide

/-- C12, the code at the failing input, the test `space.fork`: the namespace
`test.B`, `2`, has the member `$test_class_context`; `test.B.$fork("C", ...)`
returns and makes the namespace `test.C`, `3`; and `test.C` has no member
`$test_class_context`, for the source `classy.space` receives is the array of
the class of `test.B`, whose keys are indices. -/
theorem space_fork_drops_namespace_member :
    Members.find? (Example.spaceB.spaces 2) "$test_class_context"
        = some (Member.val (Val.fn 3)) ∧
      errorOf Example.forkC = none ∧
      Members.find? ((orWorld Example.forkC).spaces 0) "C" = some (Member.space 3) ∧
      Members.find? ((orWorld Example.forkC).spaces 3) "$test_class_context" = none := by
  decide

/-- C13, the code at the failing input, the test `space.fork`: an instance
made by `test.C.$init("x")` finds `$test_class_context` on the prototype of its
class, where it is the function inherited from the class of `test.B`, and
invoked on the instance it runs the function `3` with `this` equal to `test.B`,
the namespace `2`, not `test.C`, the namespace `3`. -/
theorem space_fork_keeps_parent_binding :
    spaceInit Example.storeName (orWorld Example.forkC) 3 [Val.str "x"]
        = Except.ok { cls := 5, own := [("name", Val.str "x")] } ∧
      Instance.read (orWorld Example.forkC) { cls := 5, own := [("name", Val.str "x")] }
        "$test_class_context" = Val.fn 14 ∧
      invoke (orWorld Example.forkC) (Val.fn 14)
        (Receiver.object { cls := 5, own := [("name", Val.str "x")] })
        = some (3, Receiver.space 2) := by
  decide

/-- C14, the code at the failing input: for the namespace `test.B` and the
empty list of sources, `concat_array` returns the namespace followed by the
empty array itself as an element, and `test.B.$fork` with the empty list
throws; with a list that is not empty the elements follow the namespace, and an
undefined argument is skipped. -/
theorem concat_array_empty_list :
    concat_array Example.spaceB [Src.item (Item.space 2), Src.array []]
        = Except.ok [Item.space 2, Item.emptyArray] ∧
      errorOf (spaceFork asciiUpper Example.spaceB 2 "C" (some [("hello", Val.fn 6)])
        (Src.array []) none) = some Err.typeError ∧
      concat_array Example.spaceB [Src.item (Item.space 2), Src.array [Item.space 1]]
        = Except.ok [Item.space 2, Item.space 1] ∧
      concat_array Example.spaceB [Src.item (Item.space 2), Src.item Item.undefined]
        = Except.ok [Item.space 2] := by
  decide

/-! ## `$extend` -/

theorem overrides_eq (d : Obj) (c : Ref) (n : String) (ks : List String) (h : Heap) (o : Obj)
    (ho : h.obj c = some o) (hl : h.link c = none) (hn : metaName h c = Except.ok n)
    (hm : ∀ k, k ∈ ks → k ≠ "_meta" ∧ n ++ "_" ++ k ≠ "_meta")
    (hp : ∀ k, k ∈ ks → k ≠ "__proto__" ∧ n ++ "_" ++ k ≠ "__proto__") :
    ks.foldlM (fun h i => override h c i (Obj.read d i)) h
      = Except.ok (h.setObj c
          (ks.foldl (fun o i => Obj.override n c o i (Obj.read d i)) o)) := by
  induction ks generalizing h o with
  | nil =>
    simp only [List.foldlM, List.foldl, pure, Except.pure]
    congr 1
    cases h
    simp only [Heap.setObj] at *
    congr 1
    funext g
    by_cases hg : g = c
    · subst hg; simp [ho]
    · simp [Function.update, hg]
  | cons k ks ih =>
    simp only [List.foldlM, List.foldl]
    have hk := hm k (List.mem_cons_self _ _)
    have hkp := hp k (List.mem_cons_self _ _)
    rw [override_eq h c o k n _ ho hl hn hkp.1 hkp.2]
    simp only [bind, Except.bind]
    have hn' : metaName (h.setObj c (Obj.override n c o k (Obj.read d k))) c
        = Except.ok n := by
      obtain ⟨o1, mv, ho1, hf1, hv1⟩ := metaName_ok hn
      rw [ho] at ho1
      injection ho1 with ho1
      subst ho1
      have hf2 : Obj.find? (Obj.override n c o k (Obj.read d k)) "_meta" = some mv := by
        rw [Obj.find?_override_other n c o k "_meta" _ (fun e => hk.1 e.symm)
          (fun e => hk.2 e.symm)]
        exact hf1
      rw [metaName_of_find? (Heap.setObj_obj_self h c _) hf2]
      exact (Val.nameOf_congr mv rfl).trans hv1
    rw [ih _ _ (Heap.setObj_obj_self h c _) (by simpa using hl) hn'
      (fun k' hk' => hm k' (List.mem_cons_of_mem _ hk'))
      (fun k' hk' => hp k' (List.mem_cons_of_mem _ hk')), Heap.setObj_setObj]

theorem Obj.find?_overrides_untouched (d : Obj) (n : String) (c : Ref) (x : String)
    (ks : List String) (o : Obj)
    (h1 : x ∉ ks) (h2 : ∀ k, k ∈ ks → x ≠ n ++ "_" ++ k) :
    Obj.find? (ks.foldl (fun o i => Obj.override n c o i (Obj.read d i)) o) x
      = Obj.find? o x := by
  induction ks generalizing o with
  | nil => rfl
  | cons k ks ih =>
    simp only [List.foldl]
    rw [ih _ (fun hx => h1 (List.mem_cons_of_mem _ hx))
      (fun k' hk' => h2 k' (List.mem_cons_of_mem _ hk'))]
    exact Obj.find?_override_other n c o k x _
      (fun e => h1 (e ▸ List.mem_cons_self _ _)) (h2 k (List.mem_cons_self _ _))

theorem Obj.find?_overrides (d : Obj) (n : String) (c : Ref) (k : String) (ks : List String)
    (o : Obj) (hnd : ks.Nodup) (hq : ∀ a, a ∈ ks → ∀ a', a' ∈ ks → a' ≠ n ++ "_" ++ a)
    (hk : k ∈ ks) :
    Obj.find? (ks.foldl (fun o i => Obj.override n c o i (Obj.read d i)) o) k
        = some (Obj.read d k) ∧
      Obj.find? (ks.foldl (fun o i => Obj.override n c o i (Obj.read d i)) o)
          (n ++ "_" ++ k)
        = if (Obj.lookup c o k).truthy = true then some (Obj.lookup c o k)
          else Obj.find? o (n ++ "_" ++ k) := by
  induction ks generalizing o with
  | nil => simp at hk
  | cons a ks ih =>
    simp only [List.foldl]
    have hnd' : ks.Nodup := (List.nodup_cons.1 hnd).2
    have ha : a ∉ ks := (List.nodup_cons.1 hnd).1
    have hq' : ∀ b, b ∈ ks → ∀ b', b' ∈ ks → b' ≠ n ++ "_" ++ b :=
      fun b hb b' hb' => hq b (List.mem_cons_of_mem _ hb) b' (List.mem_cons_of_mem _ hb')
    by_cases hak : a = k
    · subst hak
      have hu1 := Obj.find?_overrides_untouched d n c a ks
        (Obj.override n c o a (Obj.read d a)) ha
        (fun k' hk' => hq k' (List.mem_cons_of_mem _ hk') a (List.mem_cons_self _ _))
      have hu2 := Obj.find?_overrides_untouched d n c (n ++ "_" ++ a) ks
        (Obj.override n c o a (Obj.read d a))
        (fun hx => hq a (List.mem_cons_self _ _) _ (List.mem_cons_of_mem _ hx) rfl)
        (fun k' hk' e => ha (qualified_inj n a k' e ▸ hk'))
      exact ⟨hu1.trans (Obj.find?_override_self _ _ _ _ _),
        hu2.trans (Obj.find?_override_backup _ _ _ _ _)⟩
    · have hk' : k ∈ ks := by
        rcases List.mem_cons.1 hk with e | e
        · exact absurd e.symm hak
        · exact e
      have hstep : Obj.find? (Obj.override n c o a (Obj.read d a)) k = Obj.find? o k :=
        Obj.find?_override_other n c o a k _ (fun e => hak e.symm)
          (hq a (List.mem_cons_self _ _) k hk)
      have hstep2 : Obj.find? (Obj.override n c o a (Obj.read d a)) (n ++ "_" ++ k)
          = Obj.find? o (n ++ "_" ++ k) :=
        Obj.find?_override_other n c o a _ _
          (fun e => hq k hk a (List.mem_cons_self _ _) e.symm)
          (fun e => hak (qualified_inj n k a e).symm)
      obtain ⟨i1, i2⟩ := ih (Obj.override n c o a (Obj.read d a)) hnd' hq' hk'
      refine ⟨i1, ?_⟩
      rw [i2, Obj.lookup_congr hstep, hstep2]

/-- C15 (amended): for a namespace `N` whose class has metadata name `n` and a
prototype object that inherits from `Object.prototype`, and a definition `d`
with distinct keys, none of which has the form `n_k` for a key `k` of `d`,
where moreover neither a key `k` of `d` nor a name `n_k` is `_meta` or
`__proto__`: `$extend(d)` returns and leaves the namespace objects as they are;
afterwards the prototype of the class, and with it every instance of the class
that has no property of its own at the key, maps every key `k` of `d` to
`d[k]`; when what the prototype yielded at `k` before the call (a member, the
class itself at `constructor`, or what `Object.prototype` holds) was truthy,
`n_k` is a member holding it, and when it was missing or falsy the member is
replaced without a backup and `n_k` is as before; and every key that is
neither a key of `d` nor such a qualified name is unchanged. -/
theorem spaceExtend_spec (w : World) (N cls : Ref) (p : Option Ref) (nm : Val)
    (d0 : Option Obj) (n : String) (d : Obj)
    (hN : Members.find? (w.spaces N) "$meta" = some (Member.info cls p nm d0))
    (hl : w.heap.link cls = none)
    (hn : metaName w.heap cls = Except.ok n)
    (hnd : (Obj.keys d).Nodup)
    (hq : ∀ k, k ∈ Obj.keys d → ∀ k', k' ∈ Obj.keys d → k' ≠ n ++ "_" ++ k)
    (hm1 : "_meta" ∉ Obj.keys d)
    (hm2 : ∀ k, k ∈ Obj.keys d → n ++ "_" ++ k ≠ "_meta")
    (hp1 : "__proto__" ∉ Obj.keys d)
    (hp2 : ∀ k, k ∈ Obj.keys d → n ++ "_" ++ k ≠ "__proto__") :
    ∃ w', spaceExtend w N d = Except.ok w' ∧ w'.spaces = w.spaces ∧
      (∀ k, k ∈ Obj.keys d →
        Obj.find? (w'.heap.proto cls) k = some (Obj.read d k) ∧
        (∀ x : Instance, x.cls = cls → Obj.find? x.own k = none →
          Instance.read w' x k = Obj.read d k) ∧
        (∃ v, w.heap.get cls k = Except.ok v) ∧
        (∀ v, w.heap.get cls k = Except.ok v → v.truthy = true →
          Obj.find? (w'.heap.proto cls) (n ++ "_" ++ k) = some v) ∧
        (∀ v, w.heap.get cls k = Except.ok v → v.truthy = false →
          Obj.find? (w'.heap.proto cls) (n ++ "_" ++ k)
            = Obj.find? (w.heap.proto cls) (n ++ "_" ++ k))) ∧
      ∀ x, x ∉ Obj.keys d → (∀ k, k ∈ Obj.keys d → x ≠ n ++ "_" ++ k) →
        Obj.find? (w'.heap.proto cls) x = Obj.find? (w.heap.proto cls) x := by
  obtain ⟨o, _, ho, _, _⟩ := metaName_ok hn
  have hpo : w.heap.proto cls = o := Heap.proto_of_obj ho
  have hloop := overrides_eq d cls n (Obj.keys d) w.heap o ho hl hn
    (fun k hk => ⟨fun e => hm1 (e ▸ hk), hm2 k hk⟩)
    (fun k hk => ⟨fun e => hp1 (e ▸ hk), hp2 k hk⟩)
  refine ⟨{ w with heap := (w.heap.setObj cls
      ((Obj.keys d).foldl (fun o i => Obj.override n cls o i (Obj.read d i)) o)) }, ?_, rfl,
    ?_, ?_⟩
  · simp only [spaceExtend, hN, bind, Except.bind]
    rw [hloop]
    rfl
  · intro k hk
    obtain ⟨i1, i2⟩ := Obj.find?_overrides d n cls k (Obj.keys d) o hnd hq hk
    have hg : w.heap.get cls k = Except.ok (Obj.lookup cls o k) := Heap.get_plain k ho hl
    refine ⟨?_, ?_, ⟨_, hg⟩, ?_, ?_⟩
    · simp only [Heap.setObj_proto_self]; exact i1
    · intro x hx hown
      simp only [Instance.read, hown, hx, Heap.setObj_proto_self, i1]
    · intro v hv ht
      rw [hg] at hv
      injection hv with hv
      simp only [Heap.setObj_proto_self]
      rw [i2, hv, if_pos ht]
    · intro v hv ht
      rw [hg] at hv
      injection hv with hv
      simp only [Heap.setObj_proto_self]
      have ht' : ¬ (Obj.lookup cls o k).truthy = true := by
        rw [hv, ht]; simp
      rw [i2, if_neg ht', hpo]
  · intro x hx1 hx2
    simp only [Heap.setObj_proto_self]
    rw [hpo]
    exact Obj.find?_overrides_untouched d n cls x (Obj.keys d) _ hx1 hx2

/-- C15, witness: the namespace `test.A` of the test `space.extend`, whose class
is the function `11`. -/
theorem spaceExtend_spec_witness :
    ∃ w', spaceExtend Example.spaceA 1 [("hello", Val.fn 2)] = Except.ok w' ∧
      Obj.find? (w'.heap.proto 11) "hello" = some (Val.fn 2) ∧
      Instance.read w' { cls := 11, own := [] } "hello" = Val.fn 2 ∧
      Obj.find? (w'.heap.proto 11) ("A" ++ "_" ++ "hello") = some (Val.fn 1) := by
  obtain ⟨w', e, _, h, _⟩ := spaceExtend_spec Example.spaceA 1 11 (some 0) (Val.str "A")
    (some [("hello", Val.fn 1)]) "A" [("hello", Val.fn 2)] (by decide) (by decide)
    (by decide) (by decide) (by decide) (by decide) (by decide) (by decide) (by decide)
  obtain ⟨h1, h2, _, h3, _⟩ := h "hello" (by decide)
  exact ⟨w', e, h1, h2 { cls := 11, own := [] } rfl rfl, h3 (Val.fn 1) (by decide) (by decide)⟩

/-- C15 as stated fails: (1) a member that holds `0` is replaced without a
backup: after `$extend({count: 5})` the prototype has no member `A_count`;
(2) with a member `_meta` in the definition the metadata record is replaced
during the loop and the backup of `hello` is stored under `undefined_hello`,
not `A_hello`; (3) for the class with the empty name, defined under the name
`-`, the backup of `meta` replaces the metadata record by the function `1`,
which the host has named `meta`, and the backup of `hello` is then stored under
`meta_hello`, not `_hello`. -/
theorem spaceExtend_fails :
    (Obj.find? (Example.counter.heap.proto 11) "count" = some (Val.num 0) ∧
      Obj.find? ((orWorld (spaceExtend Example.counter 1 [("count", Val.num 5)])).heap.proto 11)
        "A_count" = none) ∧
    (Obj.find? ((orWorld (spaceExtend Example.counter 1
        [("_meta", Val.num 1), ("hello", Val.fn 9)])).heap.proto 11) "A_hello" = none ∧
      Obj.find? ((orWorld (spaceExtend Example.counter 1
        [("_meta", Val.num 1), ("hello", Val.fn 9)])).heap.proto 11) "undefined_hello"
        = some (Val.fn 1)) ∧
    (metaName Example.hyphenNamed.heap 11 = Except.ok "" ∧
      Obj.find? (Example.hyphenNamed.heap.proto 11) "hello" = some (Val.fn 2) ∧
      Obj.find? ((orWorld (spaceExtend Example.hyphenNamed 1
        [("meta", Val.fn 3), ("hello", Val.fn 4)])).heap.proto 11) "_meta"
        = some (Val.fn 1) ∧
      Obj.find? ((orWorld (spaceExtend Example.hyphenNamed 1
        [("meta", Val.fn 3), ("hello", Val.fn 4)])).heap.proto 11) "_hello" = none ∧
      Obj.find? ((orWorld (spaceExtend Example.hyphenNamed 1
        [("meta", Val.fn 3), ("hello", Val.fn 4)])).heap.proto 11) "meta_hello"
        = some (Val.fn 2)) := by
  decide

end Classy
